import Mathlib

/-!
Verification of the triton-vm constraint-evaluation generator.

This development shallowly embeds the two code-generation backends of the
constraint-evaluation generator (the native Rust backend of
`constraint-evaluation-generator/src/main.rs` and the Triton-assembly backend
of `constraint-evaluation-generator/src/codegen/tasm.rs`), the proof
padded-height accessor of `triton-vm/src/proof.rs`, and the memory-layout and
virtual-machine vocabulary those backends target.  The circuit data model
(`ConstraintCircuit`), the memory-layout module and the stack machine's
instruction semantics are not part of the provided sources; they are modelled
from the specification where needed, as marked on each such definition.
-/

namespace TritonSpec

/-! ## Field model

The base field is the Goldilocks-style prime field of `BFieldElement`
(`p = 2^64 - 2^32 + 1`); the extension field `XFieldElement` is its cubic
extension modulo `x^3 - x + 1`.  Field elements are modelled as natural
numbers reduced modulo `bfeP`; extension elements as coefficient triples.
Both backends delegate their arithmetic to these same operations, so the
equivalence proofs never depend on the concrete formulas.
-/
/-- The `BFieldElement` prime modulus `2^64 - 2^32 + 1`. -/
def bfeP : Nat := 2 ^ 64 - 2 ^ 32 + 1

/-- An `XFieldElement`: coefficients `c0 + c1·x + c2·x^2`, each a base-field
value. -/
structure XFe where
  c0 : Nat
  c1 : Nat
  c2 : Nat
deriving DecidableEq, Repr

/-- Base-field addition. -/
def badd (a b : Nat) : Nat := (a + b) % bfeP

/-- Base-field multiplication. -/
def bmul (a b : Nat) : Nat := a * b % bfeP

/-- Base-field subtraction (modular). -/
def bsub (a b : Nat) : Nat := (a % bfeP + (bfeP - b % bfeP)) % bfeP

/-- Componentwise extension-field addition, as `XFieldElement` addition
performs it. -/
def xadd (x y : XFe) : XFe :=
  ⟨badd x.c0 y.c0, badd x.c1 y.c1, badd x.c2 y.c2⟩

/-- Extension-field multiplication: polynomial multiplication reduced by
`x^3 = x - 1`. -/
def xmul (x y : XFe) : XFe :=
  let d0 := bmul x.c0 y.c0
  let d1 := badd (bmul x.c0 y.c1) (bmul x.c1 y.c0)
  let d2 := badd (bmul x.c0 y.c2) (badd (bmul x.c1 y.c1) (bmul x.c2 y.c0))
  let d3 := badd (bmul x.c1 y.c2) (bmul x.c2 y.c1)
  let d4 := bmul x.c2 y.c2
  ⟨bsub d0 d3, bsub (badd d1 d3) d4, badd d2 d4⟩

/-- Canonical (reduced) representative of an extension element. -/
def normX (x : XFe) : XFe := ⟨x.c0 % bfeP, x.c1 % bfeP, x.c2 % bfeP⟩

/-- Lift of a base-field value into the extension field
(`BFieldElement::lift`). -/
def liftB (b : Nat) : XFe := ⟨b % bfeP, 0, 0⟩

/-! ## Circuit model

Modelled from the spec: the `ConstraintCircuit` node type of
`triton_vm::table::constraint_circuit` (not under the provided sources; both
backends consume it).  A node carries a process-unique identifier, a
reference count, and an expression kind: base-field constant, extension-field
constant, input reference (row, table, column), challenge reference, or
binary operation (add or multiply) with two children.  The directed acyclic
graph with sharing is flattened to a tree in which node identity is carried
by the `id` field; the codegen precondition `UniqueIds` (no two distinct
nodes share an identifier) makes this faithful.
-/
/-- The binary operators of the circuit model consumed by the backends. -/
inductive Op where
  | add
  | mul
deriving DecidableEq, Repr

/-- An input reference: row (current or next), table (base or extension),
and column index, mirroring the `InputIndicator` vocabulary used by
`load_input`. -/
structure InputRef where
  isCurrentRow : Bool
  isBaseTableColumn : Bool
  column : Nat
deriving DecidableEq, Repr

/-- A constraint-circuit node: identifier, reference count, and expression. -/
inductive Circuit where
  | bconst (id refCount : Nat) (value : Nat)
  | xconst (id refCount : Nat) (value : XFe)
  | input (id refCount : Nat) (ref : InputRef)
  | challenge (id refCount : Nat) (index : Nat)
  | binop (id refCount : Nat) (op : Op) (lhs rhs : Circuit)
deriving DecidableEq, Repr

namespace Circuit

/-- The node identifier. -/
def id : Circuit → Nat
  | .bconst i _ _ => i
  | .xconst i _ _ => i
  | .input i _ _ => i
  | .challenge i _ _ => i
  | .binop i _ _ _ _ => i

/-- The node's reference count (`ref_count` / `visited_counter`). -/
def refCount : Circuit → Nat
  | .bconst _ r _ => r
  | .xconst _ r _ => r
  | .input _ r _ => r
  | .challenge _ r _ => r
  | .binop _ r _ _ _ => r

/-- Whether the node is a binary operation. -/
def isBinop : Circuit → Bool
  | .binop _ _ _ _ _ => true
  | _ => false

/-- All nodes of the subtree rooted at a node (the node itself included). -/
def subs : Circuit → List Circuit
  | .binop i r o l rhs => .binop i r o l rhs :: (l.subs ++ rhs.subs)
  | c => [c]

/-- `evaluates_to_base_element`: a circuit is base-field typed iff it
mentions no extension constant, no extension column and no challenge. -/
def evaluatesToBaseElement : Circuit → Bool
  | .bconst _ _ _ => true
  | .xconst _ _ _ => false
  | .input _ _ ref => ref.isBaseTableColumn
  | .challenge _ _ _ => false
  | .binop _ _ _ l r => l.evaluatesToBaseElement && r.evaluatesToBaseElement

/-- The polynomial degree of the node: 0 for constants, 1 for inputs and
challenges, max of children for addition, sum for multiplication. -/
def degree : Circuit → Nat
  | .bconst _ _ _ => 0
  | .xconst _ _ _ => 0
  | .input _ _ _ => 1
  | .challenge _ _ _ => 1
  | .binop _ _ .add l r => max l.degree r.degree
  | .binop _ _ .mul l r => l.degree + r.degree

end Circuit

/-- All nodes occurring in a batch of constraints. -/
def subsList (batch : List Circuit) : List Circuit :=
  (batch.map Circuit.subs).flatten

/-- The codegen precondition: no two distinct nodes of the batch share an
identifier. -/
def UniqueIds (batch : List Circuit) : Prop :=
  ∀ c ∈ subsList batch, ∀ d ∈ subsList batch, c.id = d.id → c = d

instance (batch : List Circuit) : Decidable (UniqueIds batch) := by
  unfold UniqueIds; infer_instance

/-! ## Evaluation points

An assignment of current/next base and extension rows and challenges.  The
property tests evaluate both backends over extension-field rows, so every
column holds an extension element. -/
/-- An evaluation point: the row and challenge data both backends consume. -/
structure Point where
  currBaseRow : Nat → XFe
  currExtRow : Nat → XFe
  nextBaseRow : Nat → XFe
  nextExtRow : Nat → XFe
  challenges : Nat → XFe

/-- Reading one input reference from a point. -/
def Point.read (pt : Point) (i : InputRef) : XFe :=
  match i.isCurrentRow, i.isBaseTableColumn with
  | true, true => pt.currBaseRow i.column
  | true, false => pt.currExtRow i.column
  | false, true => pt.nextBaseRow i.column
  | false, false => pt.nextExtRow i.column

/-- The mathematical value of a circuit at a point: the common semantics both
backends must realize. -/
def Circuit.evalX (pt : Point) : Circuit → XFe
  | .bconst _ _ b => liftB b
  | .xconst _ _ x => normX x
  | .input _ _ ref => pt.read ref
  | .challenge _ _ n => pt.challenges n
  | .binop _ _ .add l r => xadd (l.evalX pt) (r.evalX pt)
  | .binop _ _ .mul l r => xmul (l.evalX pt) (r.evalX pt)

/-- The evaluation order both backends share for one bucket: base-typed
constraints first, then extension-typed constraints, each group in insertion
order (the `partition` in both `tokenize_circuits` functions). -/
def orderedBucket (batch : List Circuit) : List Circuit :=
  batch.filter (fun c => c.evaluatesToBaseElement)
    ++ batch.filter (fun c => !c.evaluatesToBaseElement)

/-! ## Proof padded height (`triton-vm/src/proof.rs`)

`Proof::padded_height` decodes the proof into a `ProofStream` and scans its
items.  The item type and its `as_log2_padded_height` accessor live outside
the provided sources and are modelled from the spec's vocabulary: an item
either carries a `log_2_padded_height` value or is some other proof item.
The scan itself is fully present in `proof.rs` and is embedded verbatim
below.  The Rust shift `1 << log_2_padded_height` is a `usize` shift: for a
shift amount of 64 or more it overflows, which aborts the computation rather
than producing a value; that abort is modelled as `none`, while a returned
`Result` is modelled as `some` of an `Except`. -/
/-- Modelled from the spec: a decoded proof item; `log2PaddedHeight k` is the
item whose `as_log2_padded_height` accessor succeeds with value `k`, any
other item is `other`. -/
inductive ProofItem where
  | log2PaddedHeight (k : Nat)
  | other (tag : Nat)
deriving DecidableEq, Repr

/-- Modelled from the spec: `ProofItem::as_log2_padded_height`, successful
exactly on the `Log2PaddedHeight` variant. -/
def ProofItem.asLog2PaddedHeight : ProofItem → Option Nat
  | .log2PaddedHeight k => some k
  | .other _ => none

/-- The error message when no `log_2_padded_height` item is present. -/
def noHeightErr : String := "The proof must contain a log_2_padded_height."

/-- The error message when several `log_2_padded_height` items are present. -/
def multiHeightErr : String :=
  "The proof must contain at most one log_2_padded_height."

/-- The scanning loop of `Proof::padded_height`, with the running
`Option<usize>` accumulator made explicit.  `none` models an aborted
(overflowing) shift; `some` wraps the function's returned `Result`. -/
def paddedHeightGo : List ProofItem → Option Nat → Option (Except String Nat)
  | [], acc =>
    some (match acc with
      | some h => .ok h
      | none => .error noHeightErr)
  | item :: rest, acc =>
    match item.asLog2PaddedHeight with
    | some k =>
      match acc with
      | some _ => some (.error multiHeightErr)
      | none => if k < 64 then paddedHeightGo rest (some (2 ^ k)) else none
    | none => paddedHeightGo rest acc

/-- `Proof::padded_height`, as a function of the decoded item stream. -/
def paddedHeight (items : List ProofItem) : Option (Except String Nat) :=
  paddedHeightGo items none

/-- The `log_2_padded_height` values carried by a stream, in order. -/
def log2Items (items : List ProofItem) : List Nat :=
  items.filterMap ProofItem.asLog2PaddedHeight

/-! ## Native backend (`constraint-evaluation-generator/src/main.rs`)

The native backend emits Rust code: a sequence of `let node_<id> = ...;`
bindings for shared nodes followed by per-constraint expressions.  The
emitted code is embedded as the expression syntax `RExpr` (references to
shared bindings are `varR`), and its semantics as evaluation in an
environment of bindings; a reference to a binding that was never declared
makes evaluation fail, exactly as the generated Rust would fail to
compile. -/
/-- The expression syntax of the generated native evaluation code. -/
inductive RExpr where
  | constB (b : Nat)
  | constX (x : XFe)
  | inputR (i : InputRef)
  | challengeR (n : Nat)
  | varR (id : Nat)
  | binR (op : Op) (l r : RExpr)
deriving DecidableEq, Repr

/-- `get_binding_name`: the expression a node is referred to by — literals
for constants, row/challenge accesses for inputs and challenges, and the
`node_<id>` variable for binary operations. -/
def bindingName : Circuit → RExpr
  | .bconst _ _ b => .constB b
  | .xconst _ _ x => .constX x
  | .input _ _ i => .inputR i
  | .challenge _ _ n => .challengeR n
  | .binop id _ _ _ _ => .varR id

/-- `evaluate_single_node` of the native backend: nodes already in scope, or
with a visit counter above the requested one, or non-binary nodes, are
emitted as their binding name; binary operations recurse into both
children. -/
def evaluateSingleNodeRust (requested : Nat) (scope : List Nat) :
    Circuit → RExpr
  | .binop id rc op l r =>
    if id ∈ scope then .varR id
    else if requested < rc then .varR id
    else
      .binR op (evaluateSingleNodeRust requested scope l)
        (evaluateSingleNodeRust requested scope r)
  | c => bindingName c

/-- `declare_single_node_with_visit_count`: returns the emitted
`let`-bindings and the updated scope.  Nodes already in scope, with a higher
visit counter, or non-binary, declare nothing; a binary node with a lower
counter recurses into its children; a binary node with the exact counter is
declared and inserted into the scope (the insertion is fresh since the scope
was checked on entry, so the source's consistency assertions hold). -/
def declareSingleNodeWithVisitCount (requested : Nat) :
    Circuit → List Nat → List (Nat × RExpr) × List Nat
  | .binop id rc op l r, scope =>
    if id ∈ scope then ([], scope)
    else if requested < rc then ([], scope)
    else if rc < requested then
      let dl := declareSingleNodeWithVisitCount requested l scope
      let dr := declareSingleNodeWithVisitCount requested r dl.2
      (dl.1 ++ dr.1, dr.2)
    else
      ([(id, evaluateSingleNodeRust requested scope (.binop id rc op l r))],
        id :: scope)
  | _, scope => ([], scope)

/-- The body of `declare_nodes_with_visit_count`: one pass over the bucket's
constraints with a scope threaded through. -/
def declareNodesGo (requested : Nat) :
    List Circuit → List Nat → List (Nat × RExpr)
  | [], _ => []
  | c :: cs, scope =>
    let d := declareSingleNodeWithVisitCount requested c scope
    d.1 ++ declareNodesGo requested cs d.2

/-- `declare_nodes_with_visit_count`: the scope is created fresh for each
requested count. -/
def declareNodesWithVisitCount (requested : Nat) (circuits : List Circuit) :
    List (Nat × RExpr) :=
  declareNodesGo requested circuits []

/-- The distinct visit counts greater than one, in descending order: collect
every node's count, sort ascending, deduplicate, keep those above one,
reverse.  Shared by both backends (`visited_counters` in `main.rs`,
`relevant_ref_counts` in `tasm.rs`). -/
def relevantVisitCounts (batch : List Circuit) : List Nat :=
  (((((subsList batch).map Circuit.refCount).insertionSort (· ≤ ·)).dedup).filter
    (fun k => 1 < k)).reverse

/-- All shared declarations of one bucket, highest count first. -/
def sharedDeclarations (batch : List Circuit) : List (Nat × RExpr) :=
  ((relevantVisitCounts batch).map
    (fun k => declareNodesWithVisitCount k batch)).flatten

/-- The two shapes of emitted degree-bound expressions:
`interpolant_degree - zerofier_degree` for degree one, and
`interpolant_degree * d - zerofier_degree` for a degree above one. -/
inductive DegTok where
  | linear
  | timesDeg (d : Nat)
deriving DecidableEq, Repr

/-- The value of a degree-bound expression, given `interpolant_degree` and
`zerofier_degree`. -/
def DegTok.denote : DegTok → Int → Int → Int
  | .linear, ipd, zd => ipd - zd
  | .timesDeg d, ipd, zd => ipd * (d : Int) - zd

/-- The degree-bound token of one constraint; a non-positive degree hits the
source's `unreachable!` and aborts. -/
def degTokOf (c : Circuit) : Option DegTok :=
  if 1 < c.degree then some (.timesDeg c.degree)
  else if c.degree = 1 then some .linear
  else none

/-- The output of the native backend's `tokenize_circuits` for one bucket. -/
structure NativeCode where
  decls : List (Nat × RExpr)
  baseExprs : List RExpr
  extExprs : List RExpr
  degreeBounds : List DegTok
deriving DecidableEq, Repr

/-- `tokenize_circuits` of `main.rs`: an empty bucket yields the empty,
well-typed result; otherwise the node identifiers are checked to be unique
(`assert_has_unique_ids`, modelled from the spec: a batch with two distinct
nodes sharing an identifier aborts compilation), the shared declarations are
emitted in descending count order, the constraints are partitioned into
base- then extension-typed, and the degree bounds and evaluation expressions
are emitted in that partition order. -/
def tokenizeCircuitsRust (batch : List Circuit) : Option NativeCode :=
  if batch.isEmpty then some ⟨[], [], [], []⟩
  else if UniqueIds batch then
    ((orderedBucket batch).mapM degTokOf).map fun degs =>
      { decls := sharedDeclarations batch
        baseExprs :=
          (batch.filter (fun c => c.evaluatesToBaseElement)).map
            (evaluateSingleNodeRust 1 [])
        extExprs :=
          (batch.filter (fun c => !c.evaluatesToBaseElement)).map
            (evaluateSingleNodeRust 1 [])
        degreeBounds := degs }
  else none

/-- An environment of shared bindings. -/
def Env : Type := Nat → Option XFe

/-- The semantics of generated native code: evaluation of an expression in a
binding environment; an undeclared binding reference fails. -/
def RExpr.evalR (env : Env) (pt : Point) : RExpr → Option XFe
  | .constB b => some (liftB b)
  | .constX x => some (normX x)
  | .inputR i => some (pt.read i)
  | .challengeR n => some (pt.challenges n)
  | .varR id => env id
  | .binR .add l r => do pure (xadd (← l.evalR env pt) (← r.evalR env pt))
  | .binR .mul l r => do pure (xmul (← l.evalR env pt) (← r.evalR env pt))

/-- Executing the `let`-bindings of generated native code in order. -/
def runDecls (pt : Point) : List (Nat × RExpr) → Env → Option Env
  | [], env => some env
  | (id, e) :: ds, env =>
    (e.evalR env pt).bind fun v =>
      runDecls pt ds (fun x => if x = id then some v else env x)

/-- The value vector computed by one bucket's generated native code: run the
shared bindings, then evaluate the base-typed constraints followed by the
extension-typed ones (the generated function lifts the base values and
chains the two arrays in exactly this order). -/
def nativeRun (nc : NativeCode) (pt : Point) : Option (List XFe) := do
  let env ← runDecls pt nc.decls (fun _ => none)
  let bs ← nc.baseExprs.mapM (RExpr.evalR env pt)
  let es ← nc.extExprs.mapM (RExpr.evalR env pt)
  pure (bs ++ es)

/-- The full native evaluation of all four buckets, concatenated in the
fixed bucket order, as `evaluate_all_constraints_rust` performs it. -/
def nativeAll (pt : Point) (b1 b2 b3 b4 : List Circuit) :
    Option (List XFe) := do
  let n1 ← tokenizeCircuitsRust b1
  let n2 ← tokenizeCircuitsRust b2
  let n3 ← tokenizeCircuitsRust b3
  let n4 ← tokenizeCircuitsRust b4
  let v1 ← nativeRun n1 pt
  let v2 ← nativeRun n2 pt
  let v3 ← nativeRun n3 pt
  let v4 ← nativeRun n4 pt
  pure (v1 ++ v2 ++ v3 ++ v4)

/-! ## Soundness of generated native code -/
/-- An environment is sound when every binding it holds for a node's
identifier carries that node's value. -/
def EnvOK (batch : List Circuit) (pt : Point) (env : Env) : Prop :=
  ∀ c ∈ subsList batch, ∀ v, env c.id = some v → v = c.evalX pt

/-! ## Stack machine (Triton VM vocabulary)

Modelled from the spec: the assembly backend targets a stack-based virtual
machine whose execution semantics are an external collaborator; only the
vocabulary of the emitted instructions is needed.  Words are base-field
values; an extension element occupies three stack slots with the constant
coefficient on top, and three consecutive RAM words with the constant
coefficient at the lowest address.  `read_mem n` pops a pointer, reads the
`n` words at descending addresses (the word at the highest address ends up
deepest), and leaves the decremented pointer on top; `write_mem n` pops a
pointer, writes the `n` words below it to ascending addresses, and leaves
the incremented pointer on top; both are always followed by `pop 1` in
emitted code.  Control-flow and halting instructions are part of the
instruction type (the no-control-flow guarantee quantifies over them) but
never occur in generated code; they are modelled without a successor
state. -/
/-- The instruction vocabulary relevant to the generated code, together with
the control-flow instructions the generated code must avoid. -/
inductive Instr where
  | push (a : Nat)
  | pop (n : Nat)
  | readMem (n : Nat)
  | writeMem (n : Nat)
  | addi (a : Nat)
  | xxadd
  | xxmul
  | call (dest : Nat)
  | ret
  | recurse
  | skiz
  | halt
deriving DecidableEq, Repr

/-- A labelled instruction: either a label declaration or an instruction.
The generated entry points wrap every decoded instruction in the
instruction variant. -/
inductive LInstr where
  | label (l : Nat)
  | instr (i : Instr)
deriving DecidableEq, Repr

/-- The `Vec<LabelledInstruction>` the generated entry points return. -/
def toLabelled (code : List Instr) : List LInstr :=
  code.map LInstr.instr

/-- An instruction is straight-line when it is none of `call`, `return`,
`recurse`, `skiz`, `halt`. -/
def Instr.isStraightLine : Instr → Bool
  | .call _ => false
  | .ret => false
  | .recurse => false
  | .skiz => false
  | .halt => false
  | _ => true

/-- Modelled from the spec: the machine state — operand stack (head is the
top) and random-access memory. -/
structure VMState where
  stack : List Nat
  ram : Nat → Nat

/-- Base-field subtraction used for pointer decrements. -/
def bfeSub (a b : Nat) : Nat := (a % bfeP + (bfeP - b % bfeP)) % bfeP

/-- The words at addresses `a - (n-1), …, a - 1, a`, listed lowest address
first (the resulting stack fragment, top first). -/
def readWords (m : Nat → Nat) (a : Nat) : Nat → List Nat
  | 0 => []
  | k + 1 => m (bfeSub a k) :: readWords m a k

/-- Writing the given words to ascending addresses starting at `a`. -/
def writeWords (m : Nat → Nat) (a : Nat) : List Nat → (Nat → Nat)
  | [] => m
  | v :: vs => writeWords (fun x => if x = a % bfeP then v else m x) (a + 1) vs

/-- The three stack slots of an extension element, top of stack first. -/
def stackX (x : XFe) : List Nat := [x.c0, x.c1, x.c2]

/-- Modelled from the spec: one instruction's effect on the machine state;
`none` is a crashed or non-straight-line execution. -/
def step : Instr → VMState → Option VMState
  | .push a, s => some ⟨(a % bfeP) :: s.stack, s.ram⟩
  | .pop n, s =>
    if n ≤ s.stack.length then some ⟨s.stack.drop n, s.ram⟩ else none
  | .readMem n, s =>
    match s.stack with
    | [] => none
    | a :: rest => some ⟨bfeSub a n :: (readWords s.ram a n ++ rest), s.ram⟩
  | .writeMem n, s =>
    match s.stack with
    | [] => none
    | a :: rest =>
      if n ≤ rest.length then
        some ⟨(a + n) % bfeP :: rest.drop n, writeWords s.ram a (rest.take n)⟩
      else none
  | .addi a, s =>
    match s.stack with
    | [] => none
    | t :: rest => some ⟨(t + a) % bfeP :: rest, s.ram⟩
  | .xxadd, s =>
    match s.stack with
    | a0 :: a1 :: a2 :: b0 :: b1 :: b2 :: rest =>
      some ⟨stackX (xadd ⟨b0, b1, b2⟩ ⟨a0, a1, a2⟩) ++ rest, s.ram⟩
    | _ => none
  | .xxmul, s =>
    match s.stack with
    | a0 :: a1 :: a2 :: b0 :: b1 :: b2 :: rest =>
      some ⟨stackX (xmul ⟨b0, b1, b2⟩ ⟨a0, a1, a2⟩) ++ rest, s.ram⟩
    | _ => none
  | _, _ => none

/-- Running a straight-line instruction sequence. -/
def runCode : List Instr → VMState → Option VMState
  | [], s => some s
  | i :: is, s => (step i s).bind (runCode is)

/-! ## Assembly backend (`constraint-evaluation-generator/src/codegen/tasm.rs`) -/
/-- Modelled from the spec: `MEM_PAGE_SIZE` of the memory-layout module —
the extent, in words, of the free scratch page. -/
def memPageSize : Nat := 2 ^ 32

/-- `OUT_ARRAY_OFFSET`: the start of the output array, in extension
elements, from the free page pointer; the last `2^16` words of the page are
reserved for it. -/
def outArrayOffset : Nat := (memPageSize - 2 ^ 16) / 3

/-- The bound `u64::MAX - BFieldElement::P` the `push!` macro asserts every
encoded word offset against. -/
def offsetCap : Nat := 2 ^ 64 - 1 - bfeP

/-- The six pointer values available to the emitted code (the `let` bindings
at the top of the generated entry points). -/
structure PtrEnv where
  freeMemPagePtr : Nat
  currBaseRowPtr : Nat
  currExtRowPtr : Nat
  nextBaseRowPtr : Nat
  nextExtRowPtr : Nat
  challengesPtr : Nat
deriving DecidableEq, Repr

/-- Modelled from the spec: `StaticTasmConstraintEvaluationMemoryLayout` —
the caller-supplied pointers baked into statically addressed code. -/
structure StaticMemoryLayout where
  freeMemPagePtr : Nat
  currBaseRowPtr : Nat
  currExtRowPtr : Nat
  nextBaseRowPtr : Nat
  nextExtRowPtr : Nat
  challengesPtr : Nat
deriving DecidableEq, Repr

/-- Modelled from the spec: `DynamicTasmConstraintEvaluationMemoryLayout` —
only the free page and challenges pointers; row pointers arrive on the
stack. -/
structure DynamicMemoryLayout where
  freeMemPagePtr : Nat
  challengesPtr : Nat
deriving DecidableEq, Repr

/-- The pointer bindings of `static_air_constraint_evaluation_tasm`. -/
def staticPtrEnv (l : StaticMemoryLayout) : PtrEnv :=
  ⟨l.freeMemPagePtr, l.currBaseRowPtr, l.currExtRowPtr, l.nextBaseRowPtr,
    l.nextExtRowPtr, l.challengesPtr⟩

/-- The pointer bindings of `dynamic_air_constraint_evaluation_tasm`: the
first four words of the caller's free page hold the stored row pointers and
the scratch page proper starts four words in. -/
def dynamicPtrEnv (l : DynamicMemoryLayout) : PtrEnv :=
  ⟨l.freeMemPagePtr + 4, l.freeMemPagePtr, l.freeMemPagePtr + 1,
    l.freeMemPagePtr + 2, l.freeMemPagePtr + 3, l.challengesPtr⟩

/-- The `push!(list + offset)` macro: emits a push of `base + offset` after
asserting the offset is below `u64::MAX - BFieldElement::P`; a larger offset
aborts code generation. -/
def pushAddr (base offset : Nat) : Option Instr :=
  if offset < offsetCap then some (.push (base + offset)) else none

/-- `element_index_to_word_index_for_reading`: reads target the highest
word of the element. -/
def elementWordIndexForReading (e : Nat) : Nat := e * 3 + 2

/-- `load_ext_field_element_from_list`. -/
def loadExtFieldElementFromList (ptr e : Nat) : Option (List Instr) :=
  (pushAddr ptr (elementWordIndexForReading e)).map fun pm =>
    [pm, .readMem 3, .pop 1]

/-- `load_ext_field_element_from_pointed_to_list`: one extra indirection
through the stored row pointer. -/
def loadExtFieldElementFromPointedToList (ptr e : Nat) :
    Option (List Instr) :=
  (pushAddr ptr 0).map fun pm =>
    [pm, .readMem 1, .pop 1, .addi (elementWordIndexForReading e),
      .readMem 3, .pop 1]

/-- `load_ext_field_constant`: pushes the coefficients, highest first. -/
def loadExtFieldConstant (x : XFe) : List Instr :=
  [.push x.c2, .push x.c1, .push x.c0]

/-- The row-pointer binding an input reference reads through. -/
def inputPtr (env : PtrEnv) (i : InputRef) : Nat :=
  match i.isCurrentRow, i.isBaseTableColumn with
  | true, true => env.currBaseRowPtr
  | true, false => env.currExtRowPtr
  | false, true => env.nextBaseRowPtr
  | false, false => env.nextExtRowPtr

/-- `load_input`: direct addressing in the static mode, one indirection in
the dynamic mode. -/
def loadInput (env : PtrEnv) (static : Bool) (i : InputRef) :
    Option (List Instr) :=
  if static then loadExtFieldElementFromList (inputPtr env i) i.column
  else loadExtFieldElementFromPointedToList (inputPtr env i) i.column

/-- `load_challenge`. -/
def loadChallenge (env : PtrEnv) (idx : Nat) : Option (List Instr) :=
  loadExtFieldElementFromList env.challengesPtr idx

/-- `load_evaluated_bin_op`: a shared node's slot in the scratch page is
keyed by its node identifier. -/
def loadEvaluatedBinOp (env : PtrEnv) (nodeId : Nat) : Option (List Instr) :=
  loadExtFieldElementFromList env.freeMemPagePtr nodeId

/-- `load_node`. -/
def loadNode (env : PtrEnv) (static : Bool) : Circuit → Option (List Instr)
  | .bconst _ _ b => some (loadExtFieldConstant ⟨b, 0, 0⟩)
  | .xconst _ _ x => some (loadExtFieldConstant x)
  | .input _ _ i => loadInput env static i
  | .challenge _ _ n => loadChallenge env n
  | .binop id _ _ _ _ => loadEvaluatedBinOp env id

/-- `store_ext_field_element`: writes the element on top of the stack into
the scratch page slot with the given element index. -/
def storeExtFieldElement (env : PtrEnv) (e : Nat) : Option (List Instr) :=
  (pushAddr env.freeMemPagePtr (e * 3)).map fun pm =>
    [pm, .writeMem 3, .pop 1]

/-- `evaluate_single_node` of the assembly backend: a node in scope is
loaded from its scratch slot, other non-binary nodes are loaded from their
regions, and a binary node evaluates both children and appends the field
operation. -/
def evaluateSingleNodeTasm (env : PtrEnv) (static : Bool)
    (scope : List Nat) : Circuit → Option (List Instr)
  | .binop id _rc op l r =>
    if id ∈ scope then loadEvaluatedBinOp env id
    else do
      let il ← evaluateSingleNodeTasm env static scope l
      let ir ← evaluateSingleNodeTasm env static scope r
      pure (il ++ ir
        ++ [match op with
            | .add => Instr.xxadd
            | .mul => Instr.xxmul])
  | c => loadNode env static c

/-- `store_single_shared_node_of_ref_count`: a node already in scope or
non-binary emits nothing; a binary node with a smaller count recurses into
its children; one with the exact count is evaluated, stored into its slot
and recorded; a larger count fails the `assert_eq!` and aborts. -/
def storeSingleSharedNodeOfRefCount (env : PtrEnv) (static : Bool)
    (count : Nat) : Circuit → List Nat → Option (List Instr × List Nat)
  | .binop id rc op l r, scope =>
    if id ∈ scope then some ([], scope)
    else if rc < count then do
      let pl ← storeSingleSharedNodeOfRefCount env static count l scope
      let pr ← storeSingleSharedNodeOfRefCount env static count r pl.2
      pure (pl.1 ++ pr.1, pr.2)
    else if rc = count then do
      let ev ← evaluateSingleNodeTasm env static scope (.binop id rc op l r)
      let st ← storeExtFieldElement env id
      pure (ev ++ st, id :: scope)
    else none
  | _, scope => some ([], scope)

/-- `store_all_shared_nodes_of_ref_count`: one pass over the bucket's
constraints for a fixed count. -/
def storeAllOfRefCountGo (env : PtrEnv) (static : Bool) (count : Nat) :
    List Circuit → List Nat → Option (List Instr × List Nat)
  | [], scope => some ([], scope)
  | c :: cs, scope => do
    let p1 ← storeSingleSharedNodeOfRefCount env static count c scope
    let p2 ← storeAllOfRefCountGo env static count cs p1.2
    pure (p1.1 ++ p2.1, p2.2)

/-- The count-indexed iteration of `store_all_shared_nodes`. -/
def storeAllSharedNodesGo (env : PtrEnv) (static : Bool)
    (batch : List Circuit) : List Nat → List Nat →
    Option (List Instr × List Nat)
  | [], scope => some ([], scope)
  | k :: ks, scope => do
    let p1 ← storeAllOfRefCountGo env static k batch scope
    let p2 ← storeAllSharedNodesGo env static batch ks p1.2
    pure (p1.1 ++ p2.1, p2.2)

/-- `store_all_shared_nodes`: processes the distinct reference counts above
one in descending order. -/
def storeAllSharedNodes (env : PtrEnv) (static : Bool)
    (batch : List Circuit) (scope : List Nat) :
    Option (List Instr × List Nat) :=
  storeAllSharedNodesGo env static batch (relevantVisitCounts batch) scope

/-- `write_evaluated_constraint_into_output_list` for one constraint at the
given output position. -/
def writeEvaluatedConstraint (env : PtrEnv) (static : Bool)
    (scope : List Nat) (written : Nat) (c : Circuit) :
    Option (List Instr) := do
  let ev ← evaluateSingleNodeTasm env static scope c
  let st ← storeExtFieldElement env (outArrayOffset + written)
  pure (ev ++ st)

/-- Writing all of a bucket's constraints, in the shared order, into
successive output slots. -/
def writeOutputsGo (env : PtrEnv) (static : Bool) (scope : List Nat) :
    List Circuit → Nat → Option (List Instr)
  | [], _ => some []
  | c :: cs, written => do
    let i1 ← writeEvaluatedConstraint env static scope written c
    let i2 ← writeOutputsGo env static scope cs (written + 1)
    pure (i1 ++ i2)

/-- The codegen state threaded through the bucket passes: the emission scope
and the number of output elements already written.  (The source's
`input_location_is_static` flag is passed separately as `static`.) -/
structure TasmState where
  scope : List Nat
  elementsWritten : Nat
deriving DecidableEq, Repr

/-- `tokenize_circuits` of the assembly backend: the scope is reset, the
shared nodes are stored, and the constraints are written out base-typed
first, then extension-typed. -/
def tokenizeCircuitsTasm (env : PtrEnv) (static : Bool) (st : TasmState)
    (constraints : List Circuit) : Option (List Instr × TasmState) := do
  let p ← storeAllSharedNodes env static constraints []
  let outs ← writeOutputsGo env static p.2 (orderedBucket constraints)
    st.elementsWritten
  pure (p.1 ++ outs, ⟨p.2, st.elementsWritten + constraints.length⟩)

/-- `prepare_return_values`: pushes the output array pointer. -/
def prepareReturnValues (env : PtrEnv) : Option (List Instr) :=
  (pushAddr env.freeMemPagePtr (outArrayOffset * 3)).map fun pm => [pm]

/-- One pointer move of `write_row_pointers_to_ram`. -/
def writePointerToRam (ptr : Nat) : Option (List Instr) :=
  (pushAddr ptr 0).map fun pm => [pm, .writeMem 1, .pop 1]

/-- `write_row_pointers_to_ram`: stores the four dynamic row pointers, top
of stack (next extension row) first. -/
def writeRowPointersToRam (env : PtrEnv) : Option (List Instr) := do
  let a ← writePointerToRam env.nextExtRowPtr
  let b ← writePointerToRam env.nextBaseRowPtr
  let c ← writePointerToRam env.currExtRowPtr
  let d ← writePointerToRam env.currBaseRowPtr
  pure (a ++ b ++ c ++ d)

/-- `static_air_constraint_evaluation_tasm`: the decoded instruction list of
the statically addressed entry point. -/
def staticAirConstraintEvaluationTasm (l : StaticMemoryLayout)
    (init cons tran term : List Circuit) : Option (List Instr) := do
  let env := staticPtrEnv l
  let p1 ← tokenizeCircuitsTasm env true ⟨[], 0⟩ init
  let p2 ← tokenizeCircuitsTasm env true p1.2 cons
  let p3 ← tokenizeCircuitsTasm env true p2.2 tran
  let p4 ← tokenizeCircuitsTasm env true p3.2 term
  let fin ← prepareReturnValues env
  pure (p1.1 ++ p2.1 ++ p3.1 ++ p4.1 ++ fin)

/-- `dynamic_air_constraint_evaluation_tasm`: the dynamically addressed
entry point first moves the row pointers into the first four words of the
free page. -/
def dynamicAirConstraintEvaluationTasm (l : DynamicMemoryLayout)
    (init cons tran term : List Circuit) : Option (List Instr) := do
  let env := dynamicPtrEnv l
  let mv ← writeRowPointersToRam env
  let p1 ← tokenizeCircuitsTasm env false ⟨[], 0⟩ init
  let p2 ← tokenizeCircuitsTasm env false p1.2 cons
  let p3 ← tokenizeCircuitsTasm env false p2.2 tran
  let p4 ← tokenizeCircuitsTasm env false p3.2 term
  let fin ← prepareReturnValues env
  pure (mv ++ p1.1 ++ p2.1 ++ p3.1 ++ p4.1 ++ fin)

/-! ## No labels, no control flow (claim C3) -/
/-- Every instruction of the code is straight-line. -/
def StraightCode (code : List Instr) : Prop :=
  ∀ i ∈ code, i.isStraightLine = true

/-! ## Concrete fixtures used by witnesses and counterexamples -/
/-- A small static layout: the free page starts at address 0, the input
regions live above the page. -/
def wLayout : StaticMemoryLayout :=
  ⟨0, 2 ^ 32, 2 ^ 32 + 512, 2 ^ 32 + 1024, 2 ^ 32 + 1536, 2 ^ 32 + 2048⟩

/-- The pointer bindings of the small static layout. -/
def wEnv : PtrEnv := staticPtrEnv wLayout

/-- A current base-row input, used once per sharing path. -/
def wX : Circuit := .input 0 1 ⟨true, true, 0⟩

/-- A current extension-row input. -/
def wY : Circuit := .input 1 1 ⟨true, false, 0⟩

/-- A shared sum node, referenced twice inside `wM`. -/
def wN : Circuit := .binop 2 2 .add wX wY

/-- A product node, used as two constraints, so its two references to `wN`
stay inside its own subtree. -/
def wM : Circuit := .binop 3 2 .mul wN wN

/-- The nested-sharing batch: both the root and its inner shared node have
reference count 2, so the count-2 pass declares only the root. -/
def wnestBatch : List Circuit := [wM, wM]

/-- An input shared by the two duplicate-identifier roots. -/
def wDupX : Circuit := .input 1 2 ⟨true, true, 0⟩

/-- First root with identifier 5. -/
def wDupA : Circuit := .binop 5 1 .add wDupX (.input 2 1 ⟨true, true, 1⟩)

/-- A structurally different second root, also with identifier 5. -/
def wDupB : Circuit := .binop 5 1 .mul wDupX (.input 3 1 ⟨true, true, 2⟩)

/-- A batch with two distinct nodes sharing an identifier. -/
def wDup : List Circuit := [wDupA, wDupB]

/-! ## Substitution rules (claim C8)

Degree lowering produces `ConstraintCircuitMonad` circuits whose binary
operators include subtraction; `substitution_rule_to_code` consumes them.
This richer circuit type is modelled separately from the two-operator type
the evaluation backends share. -/
/-- The binary operators of the degree-lowering-era circuit type. -/
inductive MOp where
  | add
  | sub
  | mul
deriving DecidableEq, Repr

/-- A circuit node of the degree-lowering era, with subtraction. -/
inductive MCircuit where
  | bconst (id refCount : Nat) (value : Nat)
  | xconst (id refCount : Nat) (value : XFe)
  | input (id refCount : Nat) (ref : InputRef)
  | challenge (id refCount : Nat) (index : Nat)
  | binop (id refCount : Nat) (op : MOp) (lhs rhs : MCircuit)
deriving DecidableEq, Repr

/-- Componentwise extension-field subtraction. -/
def xsub (x y : XFe) : XFe :=
  ⟨bsub x.c0 y.c0, bsub x.c1 y.c1, bsub x.c2 y.c2⟩

namespace MCircuit

/-- All nodes of the subtree. -/
def subs : MCircuit → List MCircuit
  | .binop i r o l rhs => .binop i r o l rhs :: (l.subs ++ rhs.subs)
  | c => [c]

/-- The node's reference count. -/
def refCount : MCircuit → Nat
  | .bconst _ r _ => r
  | .xconst _ r _ => r
  | .input _ r _ => r
  | .challenge _ r _ => r
  | .binop _ r _ _ _ => r

/-- The mathematical value of a degree-lowering-era circuit at a point. -/
def evalM (pt : Point) : MCircuit → XFe
  | .bconst _ _ b => liftB b
  | .xconst _ _ x => normX x
  | .input _ _ ref => pt.read ref
  | .challenge _ _ n => pt.challenges n
  | .binop _ _ .add l r => xadd (l.evalM pt) (r.evalM pt)
  | .binop _ _ .sub l r => xsub (l.evalM pt) (r.evalM pt)
  | .binop _ _ .mul l r => xmul (l.evalM pt) (r.evalM pt)

end MCircuit

/-- The expression syntax of code generated from degree-lowering-era
circuits. -/
inductive MRExpr where
  | constB (b : Nat)
  | constX (x : XFe)
  | inputR (i : InputRef)
  | challengeR (n : Nat)
  | varR (id : Nat)
  | binM (op : MOp) (l r : MRExpr)
deriving DecidableEq, Repr

/-- `get_binding_name` over the degree-lowering-era circuit type. -/
def mBindingName : MCircuit → MRExpr
  | .bconst _ _ b => .constB b
  | .xconst _ _ x => .constX x
  | .input _ _ i => .inputR i
  | .challenge _ _ n => .challengeR n
  | .binop id _ _ _ _ => .varR id

/-- `evaluate_single_node` over the degree-lowering-era circuit type. -/
def mEvaluateSingleNode (requested : Nat) (scope : List Nat) :
    MCircuit → MRExpr
  | .binop id rc op l r =>
    if id ∈ scope then .varR id
    else if requested < rc then .varR id
    else
      .binM op (mEvaluateSingleNode requested scope l)
        (mEvaluateSingleNode requested scope r)
  | c => mBindingName c

/-- Evaluation of generated column-fill code in a binding environment. -/
def MRExpr.evalM (env : Env) (pt : Point) : MRExpr → Option XFe
  | .constB b => some (liftB b)
  | .constX x => some (normX x)
  | .inputR i => some (pt.read i)
  | .challengeR n => some (pt.challenges n)
  | .varR id => env id
  | .binM .add l r => do pure (xadd (← l.evalM env pt) (← r.evalM env pt))
  | .binM .sub l r => do pure (xsub (← l.evalM env pt) (← r.evalM env pt))
  | .binM .mul l r => do pure (xmul (← l.evalM env pt) (← r.evalM env pt))

/-- The largest `usize` value; `substitution_rule_to_code` evaluates with
this requested count so that every binding is inlined. -/
def usizeMax : Nat := 2 ^ 64 - 1

/-- Whether a circuit has the exact substitution-rule shape: a subtraction
whose left child is an input reference. -/
def isSubstitutionShape : MCircuit → Bool
  | .binop _ _ .sub (.input _ _ _) _ => true
  | _ => false

/-- `substitution_rule_to_code`: the two shape panics are modelled as
`none`; a well-shaped rule emits the code evaluating its right-hand
expression. -/
def substitutionRuleToCode (c : MCircuit) : Option MRExpr :=
  match c with
  | .binop _ _ .sub v e =>
    match v with
    | .input _ _ _ => some (mEvaluateSingleNode usizeMax [] e)
    | _ => none
  | _ => none

/-! ## RAM access lemmas -/
/-- Reading one extension element stored at three consecutive addresses. -/
def readX (m : Nat → Nat) (a : Nat) : XFe := ⟨m a, m (a + 1), m (a + 2)⟩

/-- Reading a contiguous array of extension elements, as the property tests
read the output array. -/
def readXList (m : Nat → Nat) (a n : Nat) : List XFe :=
  (List.range n).map fun j => readX m (a + 3 * j)

/-- The memory obtained by storing one extension element at three
consecutive addresses. -/
def writeX (m : Nat → Nat) (a : Nat) (x : XFe) : Nat → Nat := fun z =>
  if z = a + 2 then x.c2
  else if z = a + 1 then x.c1
  else if z = a then x.c0
  else m z

/-! ## Layout integrality and input placement

Modelled from the spec: a memory layout is integral iff the declared
regions — free scratch page, the four row regions, the challenges region —
are pairwise disjoint, no region wraps around the field modulus, and the
scratch page is large enough for the output array, the four dynamic pointer
words and all temporaries (node slots are keyed by identifier below the
output array).  Because the row and challenge regions' extents are exactly
the columns the batch reads, the conditions are phrased per node of the
batch. -/
/-- Membership in the free scratch page. -/
def InPage (l : StaticMemoryLayout) (a : Nat) : Prop :=
  l.freeMemPagePtr ≤ a ∧ a < l.freeMemPagePtr + memPageSize

instance (l : StaticMemoryLayout) (a : Nat) : Decidable (InPage l a) := by
  unfold InPage; infer_instance

/-- Per-node resource conditions of an integral layout: input and challenge
reads have encodable offsets, do not wrap, and live outside the scratch
page; binary nodes have identifiers below the output array. -/
def resourceOKB (l : StaticMemoryLayout) : Circuit → Bool
  | .input _ _ i =>
    decide (3 * i.column + 2 < offsetCap)
      && decide (inputPtr (staticPtrEnv l) i + 3 * i.column + 2 < bfeP)
      && decide (¬ InPage l (inputPtr (staticPtrEnv l) i + 3 * i.column))
      && decide (¬ InPage l (inputPtr (staticPtrEnv l) i + 3 * i.column + 1))
      && decide (¬ InPage l (inputPtr (staticPtrEnv l) i + 3 * i.column + 2))
  | .challenge _ _ n =>
    decide (3 * n + 2 < offsetCap)
      && decide (l.challengesPtr + 3 * n + 2 < bfeP)
      && decide (¬ InPage l (l.challengesPtr + 3 * n))
      && decide (¬ InPage l (l.challengesPtr + 3 * n + 1))
      && decide (¬ InPage l (l.challengesPtr + 3 * n + 2))
  | .binop id _ _ _ _ => decide (id < outArrayOffset)
  | _ => true

/-- The integral-layout predicate for a batch of `total` constraints. -/
def IsIntegralFor (l : StaticMemoryLayout) (batch : List Circuit)
    (total : Nat) : Prop :=
  l.freeMemPagePtr + memPageSize ≤ bfeP
    ∧ l.currBaseRowPtr < bfeP ∧ l.currExtRowPtr < bfeP
    ∧ l.nextBaseRowPtr < bfeP ∧ l.nextExtRowPtr < bfeP
    ∧ l.challengesPtr < bfeP
    ∧ 4 + 3 * (outArrayOffset + total) ≤ memPageSize
    ∧ ∀ c ∈ subsList batch, resourceOKB l c = true

instance (l : StaticMemoryLayout) (batch : List Circuit) (total : Nat) :
    Decidable (IsIntegralFor l batch total) := by
  unfold IsIntegralFor; infer_instance

/-- One node's input data sitting in RAM where the layout says, with the
point's values (mirrors `extend_ram_at_address` of the property tests). -/
def ramHasNodeB (l : StaticMemoryLayout) (pt : Point) (m : Nat → Nat) :
    Circuit → Bool
  | .input _ _ i =>
    decide (readX m (inputPtr (staticPtrEnv l) i + 3 * i.column) = pt.read i)
  | .challenge _ _ n =>
    decide (readX m (l.challengesPtr + 3 * n) = pt.challenges n)
  | _ => true

/-- The whole batch's input data sitting in RAM. -/
def RamHasPoint (l : StaticMemoryLayout) (pt : Point)
    (batch : List Circuit) (m : Nat → Nat) : Prop :=
  ∀ c ∈ subsList batch, ramHasNodeB l pt m c = true

instance (l : StaticMemoryLayout) (pt : Point) (batch : List Circuit)
    (m : Nat → Nat) : Decidable (RamHasPoint l pt batch m) := by
  unfold RamHasPoint; infer_instance

/-- The scratch pointer: the page start in static mode, four words in (past
the stored row pointers) in dynamic mode. -/
def scratchPtr (l : StaticMemoryLayout) (static : Bool) : Nat :=
  if static then l.freeMemPagePtr else l.freeMemPagePtr + 4

/-- The pointer bindings of the entry point for the given mode, with the
dynamic mode's layout sharing the static layout's free page and challenge
pointers, as the property tests arrange. -/
def modeEnv (l : StaticMemoryLayout) (static : Bool) : PtrEnv :=
  if static then staticPtrEnv l
  else dynamicPtrEnv ⟨l.freeMemPagePtr, l.challengesPtr⟩

/-! ## Run-time invariants of the generated assembly -/
/-- The caller-supplied pointers are field values. -/
def RowPtrsOK (l : StaticMemoryLayout) : Prop :=
  l.currBaseRowPtr < bfeP ∧ l.currExtRowPtr < bfeP
    ∧ l.nextBaseRowPtr < bfeP ∧ l.nextExtRowPtr < bfeP
    ∧ l.challengesPtr < bfeP

/-- The frame invariant: memory outside the free page is untouched, and in
dynamic mode the first four page words hold the stored row pointers. -/
def RamBase (l : StaticMemoryLayout) (static : Bool) (ram0 m : Nat → Nat) :
    Prop :=
  (∀ a, ¬ InPage l a → m a = ram0 a)
    ∧ (static = false →
        m l.freeMemPagePtr = l.currBaseRowPtr
          ∧ m (l.freeMemPagePtr + 1) = l.currExtRowPtr
          ∧ m (l.freeMemPagePtr + 2) = l.nextBaseRowPtr
          ∧ m (l.freeMemPagePtr + 3) = l.nextExtRowPtr)

/-- The emission-scope invariant: every recorded node's scratch slot holds
that node's value. -/
def ScopeOK (l : StaticMemoryLayout) (static : Bool) (pt : Point)
    (buck : List Circuit) (scope : List Nat) (m : Nat → Nat) : Prop :=
  ∀ c ∈ subsList buck, c.id ∈ scope
    → readX m (scratchPtr l static + 3 * c.id) = c.evalX pt

/-- The output-array invariant: the first `vals.length` output slots hold
`vals`. -/
def OutOK (l : StaticMemoryLayout) (static : Bool) (m : Nat → Nat)
    (vals : List XFe) : Prop :=
  ∀ j < vals.length,
    readX m (scratchPtr l static + 3 * (outArrayOffset + j))
      = vals.getD j ⟨0, 0, 0⟩

/-- No instruction of the code is a memory write. -/
def NonWrite (code : List Instr) : Prop :=
  ∀ i ∈ code, ∀ n, i ≠ Instr.writeMem n

/-- Every successful run of the code, from any state, leaves memory outside
the free page unchanged — the frame property the memory-region test
checks. -/
def PageConfined (l : StaticMemoryLayout) (code : List Instr) : Prop :=
  ∀ st st2, runCode code st = some st2
    → ∀ a, ¬ InPage l a → st2.ram a = st.ram a

/-- A point with concrete current rows and zero elsewhere. -/
def wPt : Point :=
  ⟨fun _ => ⟨7, 8, 9⟩, fun _ => ⟨11, 12, 13⟩, fun _ => ⟨0, 0, 0⟩,
    fun _ => ⟨0, 0, 0⟩, fun _ => ⟨0, 0, 0⟩⟩

/-- An initial memory placing the two read columns of `wPt` at the
layout's row regions, as the tests arrange. -/
def wRam0 : Nat → Nat := fun a =>
  if a = 2 ^ 32 then 7 else if a = 2 ^ 32 + 1 then 8
  else if a = 2 ^ 32 + 2 then 9
  else if a = 2 ^ 32 + 512 then 11 else if a = 2 ^ 32 + 513 then 12
  else if a = 2 ^ 32 + 514 then 13 else 0

/-- The native value vector of the nested-sharing bucket. -/
def wV : List XFe := (nativeAll wPt wnestBatch [] [] []).getD []

/-- The static entry point code of the nested-sharing bucket. -/
def wCodeS : List Instr :=
  (staticAirConstraintEvaluationTasm wLayout wnestBatch [] [] []).getD []

/-- The dynamic entry point code of the nested-sharing bucket. -/
def wCodeD : List Instr :=
  (dynamicAirConstraintEvaluationTasm
    ⟨wLayout.freeMemPagePtr, wLayout.challengesPtr⟩ wnestBatch [] []
    []).getD []

theorem bfeP_pos : 0 < bfeP := by decide

theorem orderedBucket_length (batch : List Circuit) :
    (orderedBucket batch).length = batch.length := by
  classical
  unfold orderedBucket
  rw [List.length_append]
  exact (List.length_eq_length_filter_add
    (fun c : Circuit => c.evaluatesToBaseElement)).symm

theorem paddedHeightGo_of_no_log2 (items : List ProofItem) (acc : Option Nat)
    (h : log2Items items = []) :
    paddedHeightGo items acc
      = some (match acc with
          | some v => .ok v
          | none => .error noHeightErr) := by
  induction items with
  | nil => rfl
  | cons item rest ih =>
    cases hi : item.asLog2PaddedHeight with
    | some k =>
      exfalso
      simp [log2Items, List.filterMap_cons, hi] at h
    | none =>
      simp only [log2Items, List.filterMap_cons, hi] at h
      simp [paddedHeightGo, hi, ih h]

theorem paddedHeightGo_some (items : List ProofItem) (v : Nat) :
    paddedHeightGo items (some v)
      = some (if log2Items items = [] then .ok v else .error multiHeightErr) := by
  induction items with
  | nil => simp [paddedHeightGo, log2Items]
  | cons item rest ih =>
    cases hi : item.asLog2PaddedHeight with
    | some k =>
      simp [paddedHeightGo, hi, log2Items, List.filterMap_cons]
    | none =>
      simp [paddedHeightGo, hi, log2Items, List.filterMap_cons, ih, log2Items]

/-- C10 counterexample: a stream with exactly one `log_2_padded_height` item
of value 64 does not yield `Ok(2^64)`; the `usize` shift `1 << 64` overflows
instead. -/
theorem c10_counterexample :
    log2Items [ProofItem.log2PaddedHeight 64] = [64]
      ∧ paddedHeight [ProofItem.log2PaddedHeight 64]
          ≠ some (Except.ok (2 ^ 64)) := by
  constructor
  · rfl
  · intro h
    simp [paddedHeight, paddedHeightGo, ProofItem.asLog2PaddedHeight] at h

/-- C10 (amended): `Proof::padded_height` returns `Ok(2^k)` exactly when the
decoded item stream contains exactly one `log_2_padded_height` item, whose
value is `k`, and `k < 64`; it returns an error when the stream contains no
such item; and when it contains more than one it returns an error, provided
the first value is below 64 (otherwise the `usize` shift overflows first). -/
theorem c10_padded_height_characterization (items : List ProofItem) :
    (∀ h : Nat, paddedHeight items = some (Except.ok h)
        ↔ ∃ k, k < 64 ∧ h = 2 ^ k ∧ log2Items items = [k])
      ∧ (log2Items items = []
          → paddedHeight items = some (Except.error noHeightErr))
      ∧ (∀ k ks, log2Items items = k :: ks → k < 64 → ks ≠ []
          → paddedHeight items = some (Except.error multiHeightErr)) := by
  have main : ∀ (its : List ProofItem),
      paddedHeight its
        = match log2Items its with
          | [] => some (.error noHeightErr)
          | k :: ks =>
            if k < 64 then
              some (if ks = [] then .ok (2 ^ k) else .error multiHeightErr)
            else none := by
    intro its
    induction its with
    | nil => rfl
    | cons item rest ih =>
      cases hi : item.asLog2PaddedHeight with
      | some k =>
        simp only [paddedHeight, paddedHeightGo, hi, log2Items,
          List.filterMap_cons]
        by_cases hk : k < 64
        · simp [hk, paddedHeightGo_some rest, log2Items]
        · simp [hk]
      | none =>
        simp only [paddedHeight, paddedHeightGo, hi, log2Items,
          List.filterMap_cons] at *
        exact ih
  refine ⟨?_, ?_, ?_⟩
  · intro h
    constructor
    · intro hok
      rw [main items] at hok
      cases hl : log2Items items with
      | nil => rw [hl] at hok; simp at hok
      | cons k ks =>
        rw [hl] at hok
        by_cases hk : k < 64
        · cases hks : ks with
          | nil =>
            refine ⟨k, hk, ?_, by simp [hl, hks]⟩
            subst hks
            simp [hk] at hok
            exact hok.symm
          | cons k2 ks2 =>
            subst hks
            simp [hk] at hok
        · simp [hk] at hok
    · rintro ⟨k, hk, rfl, hl⟩
      rw [main items, hl]
      simp [hk]
  · intro hl
    rw [main items, hl]
  · intro k ks hl hk hks
    rw [main items, hl]
    simp [hk, hks]

/-- C10 witness: the characterization applied to concrete streams with one,
zero and two `log_2_padded_height` items. -/
theorem c10_witness :
    paddedHeight [ProofItem.log2PaddedHeight 3, ProofItem.other 0]
        = some (Except.ok 8)
      ∧ paddedHeight [ProofItem.other 1] = some (Except.error noHeightErr)
      ∧ paddedHeight
            [ProofItem.log2PaddedHeight 3, ProofItem.log2PaddedHeight 5]
          = some (Except.error multiHeightErr) := by
  refine ⟨?_, ?_, ?_⟩
  · exact ((c10_padded_height_characterization
      [ProofItem.log2PaddedHeight 3, ProofItem.other 0]).1 8).mpr
      ⟨3, by decide, by decide, by decide⟩
  · exact (c10_padded_height_characterization [ProofItem.other 1]).2.1
      (by decide)
  · exact (c10_padded_height_characterization
      [ProofItem.log2PaddedHeight 3, ProofItem.log2PaddedHeight 5]).2.2
      3 [5] (by decide) (by decide) (by decide)

/-! ## Structural lemmas about circuit node sets -/
theorem Circuit.self_mem_subs (c : Circuit) : c ∈ c.subs := by
  cases c <;> simp [Circuit.subs]

theorem Circuit.subs_trans {root c : Circuit} (hc : c ∈ root.subs) :
    ∀ d ∈ c.subs, d ∈ root.subs := by
  induction root with
  | binop i r o l rhs ihl ihr =>
    intro d hd
    simp only [Circuit.subs, List.mem_cons, List.mem_append] at hc
    rcases hc with hc | hc | hc
    · subst hc; exact hd
    · simp only [Circuit.subs, List.mem_cons, List.mem_append]
      exact Or.inr (Or.inl (ihl hc d hd))
    · simp only [Circuit.subs, List.mem_cons, List.mem_append]
      exact Or.inr (Or.inr (ihr hc d hd))
  | bconst i r v => simp_all [Circuit.subs]
  | xconst i r v => simp_all [Circuit.subs]
  | input i r ref => simp_all [Circuit.subs]
  | challenge i r n => simp_all [Circuit.subs]

theorem mem_subsList_iff {batch : List Circuit} {c : Circuit} :
    c ∈ subsList batch ↔ ∃ root ∈ batch, c ∈ root.subs := by
  simp [subsList, List.mem_flatten]

theorem mem_subsList_of_mem {batch : List Circuit} {c : Circuit}
    (h : c ∈ batch) : c ∈ subsList batch :=
  mem_subsList_iff.mpr ⟨c, h, c.self_mem_subs⟩

theorem subsList_trans {batch : List Circuit} {c : Circuit}
    (hc : c ∈ subsList batch) : ∀ d ∈ c.subs, d ∈ subsList batch := by
  intro d hd
  rcases mem_subsList_iff.mp hc with ⟨root, hroot, hcr⟩
  exact mem_subsList_iff.mpr ⟨root, hroot, Circuit.subs_trans hcr d hd⟩

theorem binop_children_mem_subs (i r : Nat) (o : Op) (l rhs : Circuit) :
    l ∈ (Circuit.binop i r o l rhs).subs
      ∧ rhs ∈ (Circuit.binop i r o l rhs).subs := by
  constructor
  · simp only [Circuit.subs, List.mem_cons, List.mem_append]
    exact Or.inr (Or.inl l.self_mem_subs)
  · simp only [Circuit.subs, List.mem_cons, List.mem_append]
    exact Or.inr (Or.inr rhs.self_mem_subs)

/-! ## Descending order of the processed visit counts -/
theorem pairwise_lt_of_le_nodup {l : List Nat}
    (h1 : l.Pairwise (· ≤ ·)) (h2 : l.Nodup) : l.Pairwise (· < ·) := by
  induction l with
  | nil => exact List.Pairwise.nil
  | cons a t ih =>
    rw [List.pairwise_cons] at h1 ⊢
    rw [List.nodup_cons] at h2
    refine ⟨fun b hb => lt_of_le_of_ne (h1.1 b hb) ?_, ih h1.2 h2.2⟩
    intro hab
    exact h2.1 (hab ▸ hb)

/-- The counts processed by both backends are strictly descending and all
greater than one. -/
theorem relevantVisitCounts_spec (batch : List Circuit) :
    (relevantVisitCounts batch).Pairwise (· > ·)
      ∧ ∀ k ∈ relevantVisitCounts batch, 1 < k := by
  constructor
  · unfold relevantVisitCounts
    rw [List.pairwise_reverse]
    refine List.Pairwise.filter _ ?_
    refine pairwise_lt_of_le_nodup ?_ (List.nodup_dedup _)
    exact (List.sorted_insertionSort (· ≤ ·) _).sublist (List.dedup_sublist _)
  · intro k hk
    unfold relevantVisitCounts at hk
    rw [List.mem_reverse, List.mem_filter] at hk
    exact of_decide_eq_true hk.2

/-- Membership in the processed count list: exactly the counts above one
realized by some node of the batch. -/
theorem mem_relevantVisitCounts {batch : List Circuit} {k : Nat} :
    k ∈ relevantVisitCounts batch
      ↔ 1 < k ∧ ∃ c ∈ subsList batch, c.refCount = k := by
  unfold relevantVisitCounts
  rw [List.mem_reverse, List.mem_filter, List.mem_dedup,
    (List.perm_insertionSort (· ≤ ·) _).mem_iff, List.mem_map]
  constructor
  · rintro ⟨⟨c, hc, hck⟩, hk⟩
    exact ⟨of_decide_eq_true hk, c, hc, hck⟩
  · rintro ⟨hk, c, hc, hck⟩
    exact ⟨⟨c, hc, hck⟩, decide_eq_true hk⟩

/-- Whatever the requested count and scope, a successful evaluation of a
node's emitted expression in a sound environment yields the node's value. -/
theorem evalR_sound {batch : List Circuit} {pt : Point} {env : Env}
    (henv : EnvOK batch pt env) :
    ∀ c ∈ subsList batch, ∀ (requested : Nat) (scope : List Nat) (v : XFe),
      (evaluateSingleNodeRust requested scope c).evalR env pt = some v
        → v = c.evalX pt := by
  intro c
  induction c with
  | binop i r o l rhs ihl ihr =>
    intro hc requested scope v hv
    by_cases hsc : i ∈ scope
    · simp only [evaluateSingleNodeRust, if_pos hsc] at hv
      exact henv _ hc v hv
    · by_cases hcount : requested < r
      · simp only [evaluateSingleNodeRust, if_neg hsc, if_pos hcount] at hv
        exact henv _ hc v hv
      · simp only [evaluateSingleNodeRust, if_neg hsc, if_neg hcount] at hv
        obtain ⟨hl, hr⟩ := binop_children_mem_subs i r o l rhs
        have hlm := subsList_trans hc l hl
        have hrm := subsList_trans hc rhs hr
        cases o with
        | add =>
          simp only [RExpr.evalR, Option.bind_eq_bind, Option.pure_def,
            Option.bind_eq_some] at hv
          obtain ⟨vl, hvl, vr, hvr, hvv⟩ := hv
          obtain rfl : xadd vl vr = v := by injection hvv
          rw [ihl hlm requested scope vl hvl, ihr hrm requested scope vr hvr]
          rfl
        | mul =>
          simp only [RExpr.evalR, Option.bind_eq_bind, Option.pure_def,
            Option.bind_eq_some] at hv
          obtain ⟨vl, hvl, vr, hvr, hvv⟩ := hv
          obtain rfl : xmul vl vr = v := by injection hvv
          rw [ihl hlm requested scope vl hvl, ihr hrm requested scope vr hvr]
          rfl
  | bconst i r b =>
    intro hc requested scope v hv
    simp only [evaluateSingleNodeRust, bindingName, RExpr.evalR,
      Option.some.injEq] at hv
    simp [Circuit.evalX, ← hv]
  | xconst i r x =>
    intro hc requested scope v hv
    simp only [evaluateSingleNodeRust, bindingName, RExpr.evalR,
      Option.some.injEq] at hv
    simp [Circuit.evalX, ← hv]
  | input i r ref =>
    intro hc requested scope v hv
    simp only [evaluateSingleNodeRust, bindingName, RExpr.evalR,
      Option.some.injEq] at hv
    simp [Circuit.evalX, ← hv]
  | challenge i r n =>
    intro hc requested scope v hv
    simp only [evaluateSingleNodeRust, bindingName, RExpr.evalR,
      Option.some.injEq] at hv
    simp [Circuit.evalX, ← hv]

/-- Full characterization of one `declare_single_node_with_visit_count`
call: the scope only grows, grows exactly by the declared identifiers, the
declared identifiers are fresh and pairwise distinct, and every emitted
declaration binds the identifier of a binary-operation node of the subtree
whose reference count equals the requested count, to that node's emitted
evaluation expression. -/
theorem declareSingle_spec (requested : Nat) (c : Circuit) (scope : List Nat) :
    (∀ i ∈ scope, i ∈ (declareSingleNodeWithVisitCount requested c scope).2)
    ∧ (∀ i ∈ (declareSingleNodeWithVisitCount requested c scope).2,
        i ∈ scope
          ∨ i ∈ (declareSingleNodeWithVisitCount requested c scope).1.map
              Prod.fst)
    ∧ (∀ i ∈ (declareSingleNodeWithVisitCount requested c scope).1.map
          Prod.fst,
        i ∈ (declareSingleNodeWithVisitCount requested c scope).2)
    ∧ ((declareSingleNodeWithVisitCount requested c scope).1.map
        Prod.fst).Nodup
    ∧ (∀ i ∈ (declareSingleNodeWithVisitCount requested c scope).1.map
          Prod.fst,
        i ∉ scope)
    ∧ (∀ d ∈ (declareSingleNodeWithVisitCount requested c scope).1,
        ∃ c' σ, c' ∈ c.subs ∧ d.1 = c'.id ∧ c'.isBinop = true
          ∧ c'.refCount = requested
          ∧ d.2 = evaluateSingleNodeRust requested σ c') := by
  induction c generalizing scope with
  | binop i r o l rhs ihl ihr =>
    by_cases hsc : i ∈ scope
    · simp [declareSingleNodeWithVisitCount, hsc]
    · by_cases hhi : requested < r
      · simp [declareSingleNodeWithVisitCount, hsc, hhi]
      · by_cases hlo : r < requested
        · simp only [declareSingleNodeWithVisitCount, if_neg hsc, if_neg hhi,
            if_pos hlo]
          obtain ⟨l1, l2, l3, l4, l5, l6⟩ := ihl scope
          obtain ⟨r1, r2, r3, r4, r5, r6⟩ :=
            ihr (declareSingleNodeWithVisitCount requested l scope).2
          refine ⟨?_, ?_, ?_, ?_, ?_, ?_⟩
          · intro j hj; exact r1 j (l1 j hj)
          · intro j hj
            rcases r2 j hj with hj' | hj'
            · rcases l2 j hj' with hj'' | hj''
              · exact Or.inl hj''
              · exact Or.inr (by simp [hj''])
            · exact Or.inr (by simp [hj'])
          · intro j hj
            rw [List.map_append, List.mem_append] at hj
            rcases hj with hj | hj
            · exact r1 j (l3 j hj)
            · exact r3 j hj
          · rw [List.map_append]
            refine List.Nodup.append l4 r4 ?_
            intro j hjl hjr
            exact r5 j hjr (l3 j hjl)
          · intro j hj
            rw [List.map_append, List.mem_append] at hj
            rcases hj with hj | hj
            · exact l5 j hj
            · intro hjs; exact r5 j hj (l1 j hjs)
          · intro d hd
            rw [List.mem_append] at hd
            rcases hd with hd | hd
            · obtain ⟨c', σ, hc', rest⟩ := l6 d hd
              exact ⟨c', σ, (binop_children_mem_subs i r o l rhs).1
                |> (fun h => Circuit.subs_trans h c' hc'), rest⟩
            · obtain ⟨c', σ, hc', rest⟩ := r6 d hd
              exact ⟨c', σ, (binop_children_mem_subs i r o l rhs).2
                |> (fun h => Circuit.subs_trans h c' hc'), rest⟩
        · simp only [declareSingleNodeWithVisitCount, if_neg hsc, if_neg hhi,
            if_neg hlo]
          have hreq : r = requested := le_antisymm (not_lt.mp hhi)
            (not_lt.mp hlo)
          refine ⟨?_, ?_, ?_, ?_, ?_, ?_⟩
          · intro j hj; exact List.mem_cons_of_mem _ hj
          · intro j hj
            rcases List.mem_cons.mp hj with hj | hj
            · exact Or.inr (by simp [hj])
            · exact Or.inl hj
          · intro j hj; simp at hj; simp [hj]
          · simp
          · intro j hj; simp at hj; simpa [hj] using hsc
          · intro d hd
            simp only [List.mem_singleton] at hd
            refine ⟨Circuit.binop i r o l rhs, scope,
              Circuit.self_mem_subs _, ?_, rfl, hreq, ?_⟩
            · simp [hd, Circuit.id]
            · simp [hd]
  | bconst i r v => simp [declareSingleNodeWithVisitCount]
  | xconst i r v => simp [declareSingleNodeWithVisitCount]
  | input i r ref => simp [declareSingleNodeWithVisitCount]
  | challenge i r n => simp [declareSingleNodeWithVisitCount]

/-- Characterization of one requested-count pass over a bucket: the declared
identifiers are pairwise distinct, none was in the initial scope, and every
declaration binds a binary node of the bucket with the requested count. -/
theorem declareNodesGo_spec (requested : Nat) (cs : List Circuit)
    (scope : List Nat) :
    ((declareNodesGo requested cs scope).map Prod.fst).Nodup
    ∧ (∀ i ∈ (declareNodesGo requested cs scope).map Prod.fst, i ∉ scope)
    ∧ (∀ d ∈ declareNodesGo requested cs scope,
        ∃ c' σ, c' ∈ subsList cs ∧ d.1 = c'.id ∧ c'.isBinop = true
          ∧ c'.refCount = requested
          ∧ d.2 = evaluateSingleNodeRust requested σ c') := by
  induction cs generalizing scope with
  | nil => simp [declareNodesGo]
  | cons c cs ih =>
    obtain ⟨s1, s2, s3, s4, s5, s6⟩ := declareSingle_spec requested c scope
    obtain ⟨i1, i2, i3⟩ :=
      ih (declareSingleNodeWithVisitCount requested c scope).2
    refine ⟨?_, ?_, ?_⟩
    · simp only [declareNodesGo, List.map_append]
      refine List.Nodup.append s4 i1 ?_
      intro j hjl hjr
      exact i2 j hjr (s3 j hjl)
    · intro j hj
      simp only [declareNodesGo, List.map_append, List.mem_append] at hj
      rcases hj with hj | hj
      · exact s5 j hj
      · intro hjs; exact i2 j hj (s1 j hjs)
    · intro d hd
      simp only [declareNodesGo, List.mem_append] at hd
      rcases hd with hd | hd
      · obtain ⟨c', σ, hc', rest⟩ := s6 d hd
        refine ⟨c', σ, ?_, rest⟩
        exact subsList_trans (mem_subsList_of_mem (List.mem_cons_self c cs))
          c' hc'
      · obtain ⟨c', σ, hc', rest⟩ := i3 d hd
        refine ⟨c', σ, ?_, rest⟩
        rcases mem_subsList_iff.mp hc' with ⟨root, hroot, hcr⟩
        exact mem_subsList_iff.mpr ⟨root, List.mem_cons_of_mem c hroot, hcr⟩

/-- Every shared declaration of a bucket binds a binary node of the bucket
(with reference count above one) to that node's emitted evaluation. -/
theorem sharedDeclarations_spec (batch : List Circuit) :
    ∀ d ∈ sharedDeclarations batch,
      ∃ c' σ requested, c' ∈ subsList batch ∧ d.1 = c'.id
        ∧ c'.isBinop = true ∧ c'.refCount = requested ∧ 1 < requested
        ∧ d.2 = evaluateSingleNodeRust requested σ c' := by
  intro d hd
  unfold sharedDeclarations at hd
  rw [List.mem_flatten] at hd
  obtain ⟨ds, hds, hdd⟩ := hd
  rw [List.mem_map] at hds
  obtain ⟨k, hk, rfl⟩ := hds
  obtain ⟨-, -, h3⟩ := declareNodesGo_spec k batch []
  obtain ⟨c', σ, hc', h1, h2, h3', h4⟩ := h3 d hdd
  exact ⟨c', σ, k, hc', h1, h2, h3',
    (relevantVisitCounts_spec batch).2 k hk, h4⟩

/-- Running sound declarations preserves environment soundness. -/
theorem runDecls_envOK {batch : List Circuit} {pt : Point}
    (hU : UniqueIds batch) :
    ∀ (ds : List (Nat × RExpr)) (env env' : Env),
      (∀ d ∈ ds, ∃ c' σ requested, c' ∈ subsList batch ∧ d.1 = c'.id
        ∧ d.2 = evaluateSingleNodeRust requested σ c')
      → EnvOK batch pt env → runDecls pt ds env = some env'
      → EnvOK batch pt env' := by
  intro ds
  induction ds with
  | nil =>
    intro env env' _ henv hrun
    simp only [runDecls, Option.some.injEq] at hrun
    exact hrun ▸ henv
  | cons d ds ih =>
    intro env env' hds henv hrun
    obtain ⟨id, e⟩ := d
    simp only [runDecls, Option.bind_eq_some] at hrun
    obtain ⟨v, hv, hrun⟩ := hrun
    obtain ⟨c', σ, requested, hc', hid, he⟩ :=
      hds (id, e) (List.mem_cons_self _ _)
    have hval : v = c'.evalX pt := by
      refine evalR_sound henv c' hc' requested σ v ?_
      rw [← he]; exact hv
    refine ih _ env' (fun d' hd' => hds d' (List.mem_cons_of_mem _ hd'))
      ?_ hrun
    intro c'' hc'' w hw
    have hid' : id = c'.id := hid
    dsimp only at hw
    by_cases hce : c''.id = id
    · rw [if_pos hce, Option.some_inj] at hw
      have hcc : c'' = c' := hU c'' hc'' c' hc' (by rw [hce, hid'])
      rw [← hw, hval, hcc]
    · rw [if_neg hce] at hw
      exact henv c'' hc'' w hw

/-- Successful evaluation of the per-constraint expressions yields exactly
the constraints' values. -/
theorem mapM_evalR_sound {batch : List Circuit} {pt : Point} {env : Env}
    (henv : EnvOK batch pt env) :
    ∀ (cs : List Circuit) (vs : List XFe),
      (∀ c ∈ cs, c ∈ subsList batch)
      → (cs.map (evaluateSingleNodeRust 1 [])).mapM (RExpr.evalR env pt)
          = some vs
      → vs = cs.map (Circuit.evalX pt) := by
  intro cs
  induction cs with
  | nil =>
    intro vs _ h
    simp only [List.map_nil, List.mapM_nil, Option.pure_def,
      Option.some.injEq] at h
    simp [← h]
  | cons c cs ih =>
    intro vs hmem h
    simp only [List.map_cons, List.mapM_cons, Option.pure_def,
      Option.bind_eq_bind, Option.bind_eq_some, Option.some.injEq] at h
    obtain ⟨v, hv, ws, hws, rfl⟩ := h
    have hvv : v = c.evalX pt :=
      evalR_sound henv c (hmem c (List.mem_cons_self _ _)) 1 [] v hv
    have := ih ws (fun c' hc' => hmem c' (List.mem_cons_of_mem _ hc')) hws
    simp [hvv, this]

/-- Soundness of the native backend for one bucket: whenever code generation
and the generated code's evaluation both succeed, the produced vector is the
constraints' values in the shared order (base-typed first, then
extension-typed, each in insertion order). -/
theorem nativeRun_correct {batch : List Circuit} {pt : Point}
    {nc : NativeCode} {v : List XFe}
    (h : tokenizeCircuitsRust batch = some nc)
    (hr : nativeRun nc pt = some v) :
    v = (orderedBucket batch).map (Circuit.evalX pt) := by
  by_cases hemp : batch.isEmpty
  · rw [tokenizeCircuitsRust, if_pos hemp] at h
    injection h with h
    subst h
    simp only [nativeRun, runDecls, Option.pure_def, Option.bind_eq_bind,
      Option.bind_eq_some, Option.some.injEq, List.mapM_nil] at hr
    obtain ⟨env, henv, bs, hbs, es, hes, rfl⟩ := hr
    cases hbs
    cases hes
    rw [List.isEmpty_iff] at hemp
    simp [hemp, orderedBucket]
  · rw [tokenizeCircuitsRust, if_neg hemp] at h
    by_cases hUb : UniqueIds batch
    · rw [if_pos hUb] at h
      rw [Option.map_eq_some'] at h
      obtain ⟨degs, hdegs, rfl⟩ := h
      simp only [nativeRun, Option.pure_def, Option.bind_eq_bind,
        Option.bind_eq_some, Option.some.injEq] at hr
      obtain ⟨env, henv, bs, hbs, es, hes, rfl⟩ := hr
      have henv0 : EnvOK batch pt (fun _ => none) := by
        intro c _ w hw; exact absurd hw (by simp)
      have henvOK : EnvOK batch pt env := by
        refine runDecls_envOK hUb _ _ _ ?_ henv0 henv
        intro d hd
        obtain ⟨c', σ, requested, hc', hid, _, _, _, he⟩ :=
          sharedDeclarations_spec batch d hd
        exact ⟨c', σ, requested, hc', hid, he⟩
      have hb := mapM_evalR_sound henvOK
        (batch.filter (fun c => c.evaluatesToBaseElement)) bs
        (fun c hc => mem_subsList_of_mem (List.mem_of_mem_filter hc)) hbs
      have he := mapM_evalR_sound henvOK
        (batch.filter (fun c => !c.evaluatesToBaseElement)) es
        (fun c hc => mem_subsList_of_mem (List.mem_of_mem_filter hc)) hes
      rw [hb, he, orderedBucket, List.map_append]
    · rw [if_neg hUb] at h
      simp at h

theorem runCode_append (c1 c2 : List Instr) (s : VMState) :
    runCode (c1 ++ c2) s = (runCode c1 s).bind (runCode c2) := by
  induction c1 generalizing s with
  | nil => simp [runCode]
  | cons i is ih =>
    simp only [List.cons_append, runCode]
    cases step i s with
    | none => simp
    | some s' => simp [ih s']

/-- The interesting compile-time assertion of the `OUT_ARRAY_OFFSET`
definition: the reserved word offset is an exact multiple of the extension
degree. -/
theorem outArrayOffset_spec : 3 * outArrayOffset = memPageSize - 2 ^ 16 := by
  decide

theorem offsetCap_eq : offsetCap = 2 ^ 32 - 2 := by decide

theorem StraightCode.append {a b : List Instr} (ha : StraightCode a)
    (hb : StraightCode b) : StraightCode (a ++ b) := by
  intro i hi
  rcases List.mem_append.mp hi with h | h
  · exact ha i h
  · exact hb i h

theorem straight_pushAddr {b o : Nat} {i : Instr} (h : pushAddr b o = some i) :
    i.isStraightLine = true := by
  unfold pushAddr at h
  split at h
  · injection h with h; rw [← h]; rfl
  · exact absurd h (by simp)

theorem straight_loadList {p e : Nat} {code : List Instr}
    (h : loadExtFieldElementFromList p e = some code) : StraightCode code := by
  unfold loadExtFieldElementFromList at h
  rw [Option.map_eq_some'] at h
  obtain ⟨pm, hpm, rfl⟩ := h
  intro i hi
  simp only [List.mem_cons, List.not_mem_nil, or_false] at hi
  rcases hi with rfl | rfl | rfl
  · exact straight_pushAddr hpm
  · rfl
  · rfl

theorem straight_loadPointed {p e : Nat} {code : List Instr}
    (h : loadExtFieldElementFromPointedToList p e = some code) :
    StraightCode code := by
  unfold loadExtFieldElementFromPointedToList at h
  rw [Option.map_eq_some'] at h
  obtain ⟨pm, hpm, rfl⟩ := h
  intro i hi
  simp only [List.mem_cons, List.not_mem_nil, or_false] at hi
  rcases hi with rfl | rfl | rfl | rfl | rfl | rfl
  · exact straight_pushAddr hpm
  all_goals rfl

theorem straight_loadConst (x : XFe) :
    StraightCode (loadExtFieldConstant x) := by
  intro i hi
  simp only [loadExtFieldConstant, List.mem_cons, List.not_mem_nil,
    or_false] at hi
  rcases hi with rfl | rfl | rfl <;> rfl

theorem straight_loadNode {env : PtrEnv} {static : Bool} {c : Circuit}
    {code : List Instr} (h : loadNode env static c = some code) :
    StraightCode code := by
  cases c with
  | bconst i r v =>
    simp only [loadNode, Option.some_inj] at h
    rw [← h]; exact straight_loadConst _
  | xconst i r v =>
    simp only [loadNode, Option.some_inj] at h
    rw [← h]; exact straight_loadConst _
  | input i r ref =>
    simp only [loadNode, loadInput] at h
    split at h
    · exact straight_loadList h
    · exact straight_loadPointed h
  | challenge i r n =>
    simp only [loadNode, loadChallenge] at h
    exact straight_loadList h
  | binop i r o l rhs =>
    simp only [loadNode, loadEvaluatedBinOp] at h
    exact straight_loadList h

theorem straight_evaluate {env : PtrEnv} {static : Bool} :
    ∀ (c : Circuit) (scope : List Nat) (code : List Instr),
      evaluateSingleNodeTasm env static scope c = some code
        → StraightCode code := by
  intro c
  induction c with
  | binop i r o l rhs ihl ihr =>
    intro scope code h
    by_cases hsc : i ∈ scope
    · simp only [evaluateSingleNodeTasm, if_pos hsc, loadEvaluatedBinOp] at h
      exact straight_loadList h
    · simp only [evaluateSingleNodeTasm, if_neg hsc] at h
      simp only [Option.bind_eq_bind, Option.bind_eq_some, Option.pure_def,
        Option.some.injEq] at h
      obtain ⟨il, hil, ir, hir, rfl⟩ := h
      refine ((ihl scope il hil).append (ihr scope ir hir)).append ?_
      intro i' hi'
      simp only [List.mem_cons, List.not_mem_nil, or_false] at hi'
      subst hi'
      cases o <;> rfl
  | bconst i r v => intro scope code h; exact straight_loadNode h
  | xconst i r v => intro scope code h; exact straight_loadNode h
  | input i r ref => intro scope code h; exact straight_loadNode h
  | challenge i r n => intro scope code h; exact straight_loadNode h

theorem straight_store {env : PtrEnv} {e : Nat} {code : List Instr}
    (h : storeExtFieldElement env e = some code) : StraightCode code := by
  unfold storeExtFieldElement at h
  rw [Option.map_eq_some'] at h
  obtain ⟨pm, hpm, rfl⟩ := h
  intro i hi
  simp only [List.mem_cons, List.not_mem_nil, or_false] at hi
  rcases hi with rfl | rfl | rfl
  · exact straight_pushAddr hpm
  · rfl
  · rfl

theorem straight_storeSingle {env : PtrEnv} {static : Bool} {count : Nat} :
    ∀ (c : Circuit) (scope : List Nat) (out : List Instr × List Nat),
      storeSingleSharedNodeOfRefCount env static count c scope = some out
        → StraightCode out.1 := by
  intro c
  induction c with
  | binop i r o l rhs ihl ihr =>
    intro scope out h
    by_cases hsc : i ∈ scope
    · rw [storeSingleSharedNodeOfRefCount, if_pos hsc] at h
      injection h with h; rw [← h]; intro i' hi'; cases hi'
    · by_cases hlt : r < count
      · rw [storeSingleSharedNodeOfRefCount, if_neg hsc, if_pos hlt] at h
        simp only [Option.bind_eq_bind, Option.bind_eq_some, Option.pure_def,
          Option.some.injEq] at h
        obtain ⟨pl, hpl, pr, hpr, rfl⟩ := h
        exact (ihl scope pl hpl).append (ihr pl.2 pr hpr)
      · by_cases heq : r = count
        · rw [storeSingleSharedNodeOfRefCount, if_neg hsc, if_neg hlt,
            if_pos heq] at h
          simp only [Option.bind_eq_bind, Option.bind_eq_some,
            Option.pure_def, Option.some.injEq] at h
          obtain ⟨ev, hev, st, hst, rfl⟩ := h
          exact (straight_evaluate _ scope ev hev).append (straight_store hst)
        · rw [storeSingleSharedNodeOfRefCount, if_neg hsc, if_neg hlt,
            if_neg heq] at h
          cases h
  | bconst i r v =>
    intro scope out h
    injection h with h; rw [← h]; intro i' hi'; cases hi'
  | xconst i r v =>
    intro scope out h
    injection h with h; rw [← h]; intro i' hi'; cases hi'
  | input i r ref =>
    intro scope out h
    injection h with h; rw [← h]; intro i' hi'; cases hi'
  | challenge i r n =>
    intro scope out h
    injection h with h; rw [← h]; intro i' hi'; cases hi'

theorem straight_storeAllOfCount {env : PtrEnv} {static : Bool}
    {count : Nat} :
    ∀ (cs : List Circuit) (scope : List Nat) (out : List Instr × List Nat),
      storeAllOfRefCountGo env static count cs scope = some out
        → StraightCode out.1 := by
  intro cs
  induction cs with
  | nil =>
    intro scope out h
    injection h with h; rw [← h]; intro i' hi'; cases hi'
  | cons c cs ih =>
    intro scope out h
    simp only [storeAllOfRefCountGo, Option.bind_eq_bind, Option.bind_eq_some,
      Option.pure_def, Option.some.injEq] at h
    obtain ⟨p1, hp1, p2, hp2, rfl⟩ := h
    exact (straight_storeSingle c scope p1 hp1).append (ih p1.2 p2 hp2)

theorem straight_storeAllGo {env : PtrEnv} {static : Bool}
    {batch : List Circuit} :
    ∀ (ks scope : List Nat) (out : List Instr × List Nat),
      storeAllSharedNodesGo env static batch ks scope = some out
        → StraightCode out.1 := by
  intro ks
  induction ks with
  | nil =>
    intro scope out h
    injection h with h; rw [← h]; intro i' hi'; cases hi'
  | cons k ks ih =>
    intro scope out h
    simp only [storeAllSharedNodesGo, Option.bind_eq_bind,
      Option.bind_eq_some, Option.pure_def, Option.some.injEq] at h
    obtain ⟨p1, hp1, p2, hp2, rfl⟩ := h
    exact (straight_storeAllOfCount batch scope p1 hp1).append (ih p1.2 p2 hp2)

theorem straight_writeOutputs {env : PtrEnv} {static : Bool}
    {scope : List Nat} :
    ∀ (cs : List Circuit) (written : Nat) (code : List Instr),
      writeOutputsGo env static scope cs written = some code
        → StraightCode code := by
  intro cs
  induction cs with
  | nil =>
    intro written code h
    injection h with h; rw [← h]; intro i' hi'; cases hi'
  | cons c cs ih =>
    intro written code h
    simp only [writeOutputsGo, writeEvaluatedConstraint, Option.bind_eq_bind,
      Option.bind_eq_some, Option.pure_def, Option.some.injEq] at h
    obtain ⟨i1, ⟨ev, hev, st, hst, rfl⟩, i2, hi2, rfl⟩ := h
    exact ((straight_evaluate _ scope ev hev).append
      (straight_store hst)).append (ih (written + 1) i2 hi2)

theorem straight_tokenize {env : PtrEnv} {static : Bool} {st : TasmState}
    {cs : List Circuit} {out : List Instr × TasmState}
    (h : tokenizeCircuitsTasm env static st cs = some out) :
    StraightCode out.1 := by
  unfold tokenizeCircuitsTasm at h
  simp only [Option.bind_eq_bind, Option.bind_eq_some, Option.pure_def,
    Option.some.injEq] at h
  obtain ⟨p, hp, outs, houts, rfl⟩ := h
  exact (straight_storeAllGo _ _ p hp).append (straight_writeOutputs _ _ _ houts)

theorem straight_prepareReturn {env : PtrEnv} {code : List Instr}
    (h : prepareReturnValues env = some code) : StraightCode code := by
  unfold prepareReturnValues at h
  rw [Option.map_eq_some'] at h
  obtain ⟨pm, hpm, rfl⟩ := h
  intro i hi
  simp only [List.mem_cons, List.not_mem_nil, or_false] at hi
  subst hi
  exact straight_pushAddr hpm

theorem straight_writeRowPointers {env : PtrEnv} {code : List Instr}
    (h : writeRowPointersToRam env = some code) : StraightCode code := by
  have one : ∀ (p : Nat) (c : List Instr), writePointerToRam p = some c
      → StraightCode c := by
    intro p c hc
    unfold writePointerToRam at hc
    rw [Option.map_eq_some'] at hc
    obtain ⟨pm, hpm, rfl⟩ := hc
    intro i hi
    simp only [List.mem_cons, List.not_mem_nil, or_false] at hi
    rcases hi with rfl | rfl | rfl
    · exact straight_pushAddr hpm
    · rfl
    · rfl
  unfold writeRowPointersToRam at h
  simp only [Option.bind_eq_bind, Option.bind_eq_some, Option.pure_def,
    Option.some.injEq] at h
  obtain ⟨a, ha, b, hb, c, hc, d, hd, rfl⟩ := h
  exact (((one _ a ha).append (one _ b hb)).append (one _ c hc)).append
    (one _ d hd)

/-- C3: for every memory layout (static and dynamic alike) and every batch,
the instruction list returned by the generated entry point contains no label
declaration, and none of its instructions is `call`, `return`, `recurse`,
`skiz` or `halt`. -/
theorem c3_no_labels_no_control_flow (ls : StaticMemoryLayout)
    (ld : DynamicMemoryLayout) (init cons tran term : List Circuit)
    (cs cd : List Instr)
    (hs : staticAirConstraintEvaluationTasm ls init cons tran term = some cs)
    (hd : dynamicAirConstraintEvaluationTasm ld init cons tran term
      = some cd) :
    (∀ lab : Nat, LInstr.label lab ∉ toLabelled cs)
      ∧ (∀ i ∈ cs, i.isStraightLine = true)
      ∧ (∀ lab : Nat, LInstr.label lab ∉ toLabelled cd)
      ∧ (∀ i ∈ cd, i.isStraightLine = true) := by
  have hnolab : ∀ (code : List Instr) (lab : Nat),
      LInstr.label lab ∉ toLabelled code := by
    intro code lab h
    rw [toLabelled, List.mem_map] at h
    obtain ⟨i, _, h⟩ := h
    cases h
  have hstat : StraightCode cs := by
    unfold staticAirConstraintEvaluationTasm at hs
    simp only [Option.bind_eq_bind, Option.bind_eq_some, Option.pure_def,
      Option.some.injEq] at hs
    obtain ⟨p1, h1, p2, h2, p3, h3, p4, h4, fin, hfin, rfl⟩ := hs
    exact ((((straight_tokenize h1).append (straight_tokenize h2)).append
      (straight_tokenize h3)).append (straight_tokenize h4)).append
      (straight_prepareReturn hfin)
  have hdyn : StraightCode cd := by
    unfold dynamicAirConstraintEvaluationTasm at hd
    simp only [Option.bind_eq_bind, Option.bind_eq_some, Option.pure_def,
      Option.some.injEq] at hd
    obtain ⟨mv, hmv, p1, h1, p2, h2, p3, h3, p4, h4, fin, hfin, rfl⟩ := hd
    exact (((((straight_writeRowPointers hmv).append
      (straight_tokenize h1)).append (straight_tokenize h2)).append
      (straight_tokenize h3)).append (straight_tokenize h4)).append
      (straight_prepareReturn hfin)
  exact ⟨hnolab cs, hstat, hnolab cd, hdyn⟩

/-! ## Scope growth of the assembly backend's shared-node pass -/
/-- Syntactic characterization of one `store_single_shared_node_of_ref_count`
call: the scope only grows, every added identifier belongs to a
binary-operation node of the subtree whose reference count equals the
processed count, and no identifier is recorded twice. -/
theorem storeSingle_scope_spec {env : PtrEnv} {static : Bool} {count : Nat} :
    ∀ (c : Circuit) (scope : List Nat) (out : List Instr × List Nat),
      storeSingleSharedNodeOfRefCount env static count c scope = some out
        → (∀ i ∈ scope, i ∈ out.2)
          ∧ (∀ i ∈ out.2, i ∉ scope
              → ∃ c' ∈ c.subs, i = c'.id ∧ c'.isBinop = true
                  ∧ c'.refCount = count)
          ∧ (scope.Nodup → out.2.Nodup) := by
  intro c
  induction c with
  | binop i r o l rhs ihl ihr =>
    intro scope out h
    by_cases hsc : i ∈ scope
    · rw [storeSingleSharedNodeOfRefCount, if_pos hsc] at h
      injection h with h
      rw [← h]
      exact ⟨fun j hj => hj, fun j hj hj' => absurd hj hj', fun hn => hn⟩
    · by_cases hlt : r < count
      · rw [storeSingleSharedNodeOfRefCount, if_neg hsc, if_pos hlt] at h
        simp only [Option.bind_eq_bind, Option.bind_eq_some, Option.pure_def,
          Option.some.injEq] at h
        obtain ⟨pl, hpl, pr, hpr, rfl⟩ := h
        obtain ⟨l1, l2, l3⟩ := ihl scope pl hpl
        obtain ⟨r1, r2, r3⟩ := ihr pl.2 pr hpr
        refine ⟨fun j hj => r1 j (l1 j hj), ?_, fun hn => r3 (l3 hn)⟩
        intro j hj hj'
        by_cases hj2 : j ∈ pl.2
        · obtain ⟨c', hc', rest⟩ := l2 j hj2 hj'
          exact ⟨c', Circuit.subs_trans
            (binop_children_mem_subs i r o l rhs).1 c' hc', rest⟩
        · obtain ⟨c', hc', rest⟩ := r2 j hj hj2
          exact ⟨c', Circuit.subs_trans
            (binop_children_mem_subs i r o l rhs).2 c' hc', rest⟩
      · by_cases heq : r = count
        · rw [storeSingleSharedNodeOfRefCount, if_neg hsc, if_neg hlt,
            if_pos heq] at h
          simp only [Option.bind_eq_bind, Option.bind_eq_some,
            Option.pure_def, Option.some.injEq] at h
          obtain ⟨ev, hev, st, hst, rfl⟩ := h
          refine ⟨fun j hj => List.mem_cons_of_mem _ hj, ?_, ?_⟩
          · intro j hj hj'
            rcases List.mem_cons.mp hj with hj1 | hj2
            · exact ⟨Circuit.binop i r o l rhs, Circuit.self_mem_subs _,
                hj1, rfl, heq⟩
            · exact absurd hj2 hj'
          · intro hn
            exact List.Nodup.cons hsc hn
        · rw [storeSingleSharedNodeOfRefCount, if_neg hsc, if_neg hlt,
            if_neg heq] at h
          cases h
  | bconst i r v =>
    intro scope out h
    injection h with h
    rw [← h]
    exact ⟨fun j hj => hj, fun j hj hj' => absurd hj hj', fun hn => hn⟩
  | xconst i r v =>
    intro scope out h
    injection h with h
    rw [← h]
    exact ⟨fun j hj => hj, fun j hj hj' => absurd hj hj', fun hn => hn⟩
  | input i r ref =>
    intro scope out h
    injection h with h
    rw [← h]
    exact ⟨fun j hj => hj, fun j hj hj' => absurd hj hj', fun hn => hn⟩
  | challenge i r n =>
    intro scope out h
    injection h with h
    rw [← h]
    exact ⟨fun j hj => hj, fun j hj hj' => absurd hj hj', fun hn => hn⟩

/-- The same characterization for one whole count pass over the bucket. -/
theorem storeAllOfCount_scope_spec {env : PtrEnv} {static : Bool}
    {count : Nat} :
    ∀ (cs : List Circuit) (scope : List Nat) (out : List Instr × List Nat),
      storeAllOfRefCountGo env static count cs scope = some out
        → (∀ i ∈ scope, i ∈ out.2)
          ∧ (∀ i ∈ out.2, i ∉ scope
              → ∃ c' ∈ subsList cs, i = c'.id ∧ c'.isBinop = true
                  ∧ c'.refCount = count)
          ∧ (scope.Nodup → out.2.Nodup) := by
  intro cs
  induction cs with
  | nil =>
    intro scope out h
    injection h with h
    rw [← h]
    exact ⟨fun j hj => hj, fun j hj hj' => absurd hj hj', fun hn => hn⟩
  | cons c cs ih =>
    intro scope out h
    simp only [storeAllOfRefCountGo, Option.bind_eq_bind, Option.bind_eq_some,
      Option.pure_def, Option.some.injEq] at h
    obtain ⟨p1, hp1, p2, hp2, rfl⟩ := h
    obtain ⟨l1, l2, l3⟩ := storeSingle_scope_spec c scope p1 hp1
    obtain ⟨r1, r2, r3⟩ := ih p1.2 p2 hp2
    refine ⟨fun j hj => r1 j (l1 j hj), ?_, fun hn => r3 (l3 hn)⟩
    intro j hj hj'
    by_cases hj2 : j ∈ p1.2
    · obtain ⟨c', hc', rest⟩ := l2 j hj2 hj'
      exact ⟨c', subsList_trans (mem_subsList_of_mem (List.mem_cons_self c cs))
        c' hc', rest⟩
    · obtain ⟨c', hc', rest⟩ := r2 j hj hj2
      rcases mem_subsList_iff.mp hc' with ⟨root, hroot, hcr⟩
      exact ⟨c', mem_subsList_iff.mpr ⟨root, List.mem_cons_of_mem c hroot,
        hcr⟩, rest⟩

/-- Over all processed counts: every identifier the pass records belongs to
a shared binary node whose reference count is one of the processed counts,
and the final emission scope is duplicate-free (each node is recorded at
most once per bucket pass). -/
theorem storeAllGo_scope_spec {env : PtrEnv} {static : Bool}
    {batch : List Circuit} :
    ∀ (ks scope : List Nat) (out : List Instr × List Nat),
      storeAllSharedNodesGo env static batch ks scope = some out
        → (∀ i ∈ scope, i ∈ out.2)
          ∧ (∀ i ∈ out.2, i ∉ scope
              → ∃ c' ∈ subsList batch, ∃ k ∈ ks, i = c'.id
                  ∧ c'.isBinop = true ∧ c'.refCount = k)
          ∧ (scope.Nodup → out.2.Nodup) := by
  intro ks
  induction ks with
  | nil =>
    intro scope out h
    injection h with h
    rw [← h]
    exact ⟨fun j hj => hj, fun j hj hj' => absurd hj hj', fun hn => hn⟩
  | cons k ks ih =>
    intro scope out h
    simp only [storeAllSharedNodesGo, Option.bind_eq_bind,
      Option.bind_eq_some, Option.pure_def, Option.some.injEq] at h
    obtain ⟨p1, hp1, p2, hp2, rfl⟩ := h
    obtain ⟨l1, l2, l3⟩ := storeAllOfCount_scope_spec batch scope p1 hp1
    obtain ⟨r1, r2, r3⟩ := ih p1.2 p2 hp2
    refine ⟨fun j hj => r1 j (l1 j hj), ?_, fun hn => r3 (l3 hn)⟩
    intro j hj hj'
    by_cases hj2 : j ∈ p1.2
    · obtain ⟨c', hc', rest⟩ := l2 j hj2 hj'
      exact ⟨c', hc', k, List.mem_cons_self k ks, rest⟩
    · obtain ⟨c', hc', k', hk', rest⟩ := r2 j hj hj2
      exact ⟨c', hc', k', List.mem_cons_of_mem k hk', rest⟩

/-! ## Degree bounds (claim C6) -/
theorem degTokOf_denote {c : Circuit} {d : DegTok} (h : degTokOf c = some d)
    (ipd zd : Int) : d.denote ipd zd = ipd * (c.degree : Int) - zd := by
  unfold degTokOf at h
  split at h
  · injection h with h
    rw [← h]
    rfl
  · split at h
    · injection h with h
      rw [← h]
      simp only [DegTok.denote]
      rename_i h0 h1
      rw [h1]
      ring
    · cases h

theorem mapM_degTok_spec :
    ∀ (cs : List Circuit) (degs : List DegTok),
      cs.mapM degTokOf = some degs
        → degs.length = cs.length
          ∧ ∀ (j : Nat) (hj : j < degs.length) (hj' : j < cs.length)
              (ipd zd : Int),
              (degs.get ⟨j, hj⟩).denote ipd zd
                = ipd * (((cs.get ⟨j, hj'⟩).degree : Int)) - zd := by
  intro cs
  induction cs with
  | nil =>
    intro degs h
    simp only [List.mapM_nil, Option.pure_def, Option.some.injEq] at h
    subst h
    exact ⟨rfl, fun j hj => absurd hj (by simp)⟩
  | cons c cs ih =>
    intro degs h
    simp only [List.mapM_cons, Option.pure_def, Option.bind_eq_bind,
      Option.bind_eq_some, Option.some.injEq] at h
    obtain ⟨d, hd, ds, hds, rfl⟩ := h
    obtain ⟨ihl, ihe⟩ := ih ds hds
    refine ⟨by simp [ihl], ?_⟩
    intro j hj hj' ipd zd
    cases j with
    | zero => exact degTokOf_denote hd ipd zd
    | succ j =>
      exact ihe j (Nat.lt_of_succ_lt_succ hj) (Nat.lt_of_succ_lt_succ hj')
        ipd zd

/-- C6: for every bucket the native backend accepts, it produces one
degree-bound expression per constraint, the list is in base-typed-first
order positionally matching the emitted evaluation order, and the `j`-th
bound evaluates to `interpolant_degree * d - zerofier_degree` where `d` is
the `j`-th ordered constraint's degree. -/
theorem c6_degree_bounds (batch : List Circuit) (nc : NativeCode)
    (h : tokenizeCircuitsRust batch = some nc) :
    nc.degreeBounds.length = (orderedBucket batch).length
      ∧ nc.baseExprs ++ nc.extExprs
          = (orderedBucket batch).map (evaluateSingleNodeRust 1 [])
      ∧ ∀ (j : Nat) (hj : j < nc.degreeBounds.length)
          (hj' : j < (orderedBucket batch).length) (ipd zd : Int),
          (nc.degreeBounds.get ⟨j, hj⟩).denote ipd zd
            = ipd * ((((orderedBucket batch).get ⟨j, hj'⟩).degree : Int))
              - zd := by
  by_cases hemp : batch.isEmpty
  · rw [tokenizeCircuitsRust, if_pos hemp] at h
    injection h with h
    subst h
    rw [List.isEmpty_iff] at hemp
    subst hemp
    exact ⟨rfl, rfl, fun j hj => absurd hj (by simp)⟩
  · rw [tokenizeCircuitsRust, if_neg hemp] at h
    by_cases hUb : UniqueIds batch
    · rw [if_pos hUb, Option.map_eq_some'] at h
      obtain ⟨degs, hdegs, rfl⟩ := h
      obtain ⟨h1, h2⟩ := mapM_degTok_spec _ degs hdegs
      refine ⟨h1, ?_, h2⟩
      rw [orderedBucket, List.map_append]
    · rw [if_neg hUb] at h
      simp at h

/-- C6 witness: the nested-sharing batch has two constraints and two
degree bounds. -/
theorem c6_witness :
    ∃ nc, tokenizeCircuitsRust wnestBatch = some nc
      ∧ nc.degreeBounds.length = (orderedBucket wnestBatch).length :=
  ⟨_, rfl, (c6_degree_bounds wnestBatch _ rfl).1⟩

/-! ## Uniqueness precondition (claim C7) -/
/-- C7 (amended, native half): the native backend's codegen pass aborts on
every batch with a duplicate node identifier. -/
theorem c7_native_rejects_duplicate_ids (batch : List Circuit)
    (h : ¬ UniqueIds batch) : tokenizeCircuitsRust batch = none := by
  have hne : ¬ batch.isEmpty = true := by
    intro hemp
    apply h
    rw [List.isEmpty_iff] at hemp
    subst hemp
    intro c hc
    simp [subsList] at hc
  rw [tokenizeCircuitsRust, if_neg hne, if_neg h]

/-- C7 counterexample: the assembly backend's codegen pass performs no
duplicate-identifier check and produces code for a batch with two distinct
nodes sharing identifier 5. -/
theorem c7_counterexample :
    ¬ UniqueIds wDup
      ∧ (tokenizeCircuitsTasm wEnv true ⟨[], 0⟩ wDup).isSome = true := by
  decide

/-- C7 witness: the native rejection applied to the duplicate batch. -/
theorem c7_witness :
    tokenizeCircuitsRust wDup = none ∧ ¬ UniqueIds wDup :=
  ⟨c7_native_rejects_duplicate_ids wDup (by decide), by decide⟩

/-! ## Emission order of the shared-node passes (claim C4) -/
/-- C4 (amended): in both backends the distinct reference counts above one
are processed in strictly descending order; each count's pass declares only
not-yet-declared binary-operation nodes whose reference count equals that
value (recursing into children to reach them); and every node is declared at
most once per pass.  (The pass need not declare every such node: a shared
node nested inside another node of the same count is skipped, see the
counterexample.) -/
theorem c4_emission_pass (batch : List Circuit) (env : PtrEnv)
    (static : Bool) :
    (relevantVisitCounts batch).Pairwise (· > ·)
      ∧ (∀ k ∈ relevantVisitCounts batch, 1 < k)
      ∧ (∀ k : Nat,
          ((declareNodesWithVisitCount k batch).map Prod.fst).Nodup
            ∧ ∀ d ∈ declareNodesWithVisitCount k batch,
                ∃ c' σ, c' ∈ subsList batch ∧ d.1 = c'.id
                  ∧ c'.isBinop = true ∧ c'.refCount = k
                  ∧ d.2 = evaluateSingleNodeRust k σ c')
      ∧ (∀ out, storeAllSharedNodes env static batch [] = some out
          → out.2.Nodup
            ∧ ∀ i ∈ out.2,
                ∃ c' ∈ subsList batch, ∃ k ∈ relevantVisitCounts batch,
                  i = c'.id ∧ c'.isBinop = true ∧ c'.refCount = k) := by
  refine ⟨(relevantVisitCounts_spec batch).1,
    (relevantVisitCounts_spec batch).2, ?_, ?_⟩
  · intro k
    obtain ⟨h1, _, h3⟩ := declareNodesGo_spec k batch []
    exact ⟨h1, h3⟩
  · intro out hout
    obtain ⟨_, h2, h3⟩ := storeAllGo_scope_spec _ [] out hout
    refine ⟨h3 List.nodup_nil, ?_⟩
    intro i hi
    obtain ⟨c', hc', k, hk, hid, hb, hrc⟩ := h2 i hi (by simp)
    exact ⟨c', hc', k, hk, hid, hb, hrc⟩

/-- C4 counterexample: in the nested-sharing batch the inner node `wN` is a
binary-operation node with reference count 2, yet the count-2 pass of
either backend declares only the outer node (identifier 3): the passes do
not declare exactly the not-yet-declared nodes of the processed count. -/
theorem c4_counterexample :
    relevantVisitCounts wnestBatch = [2]
      ∧ wN ∈ subsList wnestBatch ∧ wN.isBinop = true ∧ wN.refCount = 2
      ∧ (declareNodesWithVisitCount 2 wnestBatch).map Prod.fst = [3]
      ∧ wN.id ∉ (declareNodesWithVisitCount 2 wnestBatch).map Prod.fst
      ∧ (storeAllSharedNodes wEnv true wnestBatch []).map Prod.snd
          = some [3]
      ∧ wN.id ≠ 3 := by
  decide

/-- C4 witness: the emission-pass properties at the nested-sharing batch. -/
theorem c4_witness :
    ((declareNodesWithVisitCount 2 wnestBatch).map Prod.fst).Nodup
      ∧ ∃ out, storeAllSharedNodes wEnv true wnestBatch [] = some out
          ∧ out.2.Nodup := by
  obtain ⟨-, -, hnat, htasm⟩ := c4_emission_pass wnestBatch wEnv true
  exact ⟨(hnat 2).1, ⟨_, rfl, (htasm _ rfl).1⟩⟩

/-! ## Empty buckets (claim C9) -/
/-- C9: an empty bucket is valid input to both backends: the native backend
produces the well-typed empty result (no declarations, no constraints, an
empty degree-bound list, and the empty evaluation vector), and the assembly
backend emits zero instructions for the bucket, so entry points over four
empty buckets consist of the fixed prologue and epilogue alone. -/
theorem c9_empty_bucket (pt : Point) (env : PtrEnv) (static : Bool)
    (st : TasmState) (l : StaticMemoryLayout) (ld : DynamicMemoryLayout) :
    tokenizeCircuitsRust [] = some ⟨[], [], [], []⟩
      ∧ nativeRun ⟨[], [], [], []⟩ pt = some []
      ∧ tokenizeCircuitsTasm env static st []
          = some ([], ⟨[], st.elementsWritten⟩)
      ∧ (∃ fin, prepareReturnValues (staticPtrEnv l) = some fin
          ∧ staticAirConstraintEvaluationTasm l [] [] [] [] = some fin)
      ∧ (∃ mv fin, writeRowPointersToRam (dynamicPtrEnv ld) = some mv
          ∧ prepareReturnValues (dynamicPtrEnv ld) = some fin
          ∧ dynamicAirConstraintEvaluationTasm ld [] [] [] []
              = some (mv ++ fin)) := by
  refine ⟨rfl, rfl, rfl, ⟨_, rfl, rfl⟩, ⟨_, _, rfl, rfl, rfl⟩⟩

/-! ## C3 witness -/
/-- C3 witness: both entry points over four empty buckets at concrete
layouts emit label-free, straight-line instruction lists. -/
theorem c3_witness :
    ∃ cs cd,
      staticAirConstraintEvaluationTasm ⟨0, 0, 0, 0, 0, 0⟩ [] [] [] []
          = some cs
        ∧ dynamicAirConstraintEvaluationTasm ⟨0, 0⟩ [] [] [] [] = some cd
        ∧ (∀ lab : Nat, LInstr.label lab ∉ toLabelled cs)
        ∧ (∀ i ∈ cs, i.isStraightLine = true)
        ∧ (∀ lab : Nat, LInstr.label lab ∉ toLabelled cd)
        ∧ (∀ i ∈ cd, i.isStraightLine = true) := by
  refine ⟨_, _, rfl, rfl, ?_⟩
  exact c3_no_labels_no_control_flow ⟨0, 0, 0, 0, 0, 0⟩ ⟨0, 0⟩ [] [] [] []
    _ _ rfl rfl

/-- With the maximal requested count, an empty scope and `usize`-bounded
reference counts, the emitted expression mentions no binding and evaluates,
in any environment, to the circuit's value. -/
theorem mEvaluate_inline_sound (pt : Point) :
    ∀ (e : MCircuit), (∀ n ∈ e.subs, n.refCount ≤ usizeMax)
      → ∀ env : Env,
        (mEvaluateSingleNode usizeMax [] e).evalM env pt
          = some (e.evalM pt) := by
  intro e
  induction e with
  | binop i r o l rhs ihl ihr =>
    intro hrc env
    have hri : r ≤ usizeMax := by
      have := hrc (.binop i r o l rhs) (by simp [MCircuit.subs])
      simpa [MCircuit.refCount] using this
    have hl : ∀ n ∈ l.subs, n.refCount ≤ usizeMax := by
      intro n hn
      exact hrc n (by simp [MCircuit.subs, List.mem_append, hn])
    have hr : ∀ n ∈ rhs.subs, n.refCount ≤ usizeMax := by
      intro n hn
      exact hrc n (by simp [MCircuit.subs, List.mem_append, hn])
    simp only [mEvaluateSingleNode, List.not_mem_nil, if_false,
      not_lt.mpr hri, if_neg (not_lt.mpr hri)]
    cases o with
    | add =>
      simp [MRExpr.evalM, ihl hl env, ihr hr env, MCircuit.evalM]
    | sub =>
      simp [MRExpr.evalM, ihl hl env, ihr hr env, MCircuit.evalM]
    | mul =>
      simp [MRExpr.evalM, ihl hl env, ihr hr env, MCircuit.evalM]
  | bconst i r v => intro _ env; rfl
  | xconst i r v => intro _ env; rfl
  | input i r ref => intro _ env; rfl
  | challenge i r n => intro _ env; rfl

/-- C8: a circuit without the exact shape `new column reference minus
expression` makes column-fill code generation abort; a well-shaped rule with
`usize` reference counts yields fill code that evaluates, in every
environment, exactly to the right-hand expression's value. -/
theorem c8_substitution_rule (c : MCircuit) (pt : Point) :
    (isSubstitutionShape c = false → substitutionRuleToCode c = none)
      ∧ (∀ (i r iv rv : Nat) (ref : InputRef) (e : MCircuit),
          c = .binop i r .sub (.input iv rv ref) e
          → (∀ n ∈ e.subs, n.refCount ≤ usizeMax)
          → ∃ rx, substitutionRuleToCode c = some rx
              ∧ ∀ env : Env, rx.evalM env pt = some (e.evalM pt)) := by
  constructor
  · intro hshape
    cases c with
    | binop i r o l rhs =>
      cases o with
      | sub =>
        cases l with
        | input iv rv ref => simp [isSubstitutionShape] at hshape
        | bconst a b v => rfl
        | xconst a b v => rfl
        | challenge a b n => rfl
        | binop a b o2 l2 r2 => rfl
      | add => rfl
      | mul => rfl
    | bconst i r v => rfl
    | xconst i r v => rfl
    | input i r ref => rfl
    | challenge i r n => rfl
  · intro i r iv rv ref e hc hrc
    subst hc
    exact ⟨mEvaluateSingleNode usizeMax [] e, rfl,
      fun env => mEvaluate_inline_sound pt e hrc env⟩

/-- C8 witness: a concrete well-shaped rule is compiled and its fill code
computes the right-hand expression; a concrete ill-shaped circuit is
rejected. -/
theorem c8_witness :
    (∃ rx,
      substitutionRuleToCode
          (.binop 10 1 .sub (.input 11 1 ⟨true, true, 7⟩)
            (.binop 12 1 .mul (.input 13 1 ⟨true, true, 0⟩)
              (.challenge 14 1 2)))
        = some rx
      ∧ rx.evalM (fun _ => none)
          ⟨fun _ => ⟨2, 0, 0⟩, fun _ => ⟨0, 0, 0⟩, fun _ => ⟨0, 0, 0⟩,
            fun _ => ⟨0, 0, 0⟩, fun _ => ⟨3, 1, 0⟩⟩
        = some (MCircuit.evalM
            ⟨fun _ => ⟨2, 0, 0⟩, fun _ => ⟨0, 0, 0⟩, fun _ => ⟨0, 0, 0⟩,
              fun _ => ⟨0, 0, 0⟩, fun _ => ⟨3, 1, 0⟩⟩
            (.binop 12 1 .mul (.input 13 1 ⟨true, true, 0⟩)
              (.challenge 14 1 2))))
      ∧ substitutionRuleToCode (.binop 20 1 .add (.input 21 1 ⟨true, true, 0⟩)
          (.bconst 22 1 5)) = none := by
  constructor
  · obtain ⟨rx, hrx, heval⟩ :=
      (c8_substitution_rule
        (.binop 10 1 .sub (.input 11 1 ⟨true, true, 7⟩)
          (.binop 12 1 .mul (.input 13 1 ⟨true, true, 0⟩)
            (.challenge 14 1 2))) _).2 10 1 11 1 ⟨true, true, 7⟩ _ rfl
      (by decide)
    exact ⟨rx, hrx, heval _⟩
  · exact (c8_substitution_rule
      (.binop 20 1 .add (.input 21 1 ⟨true, true, 0⟩) (.bconst 22 1 5))
      ⟨fun _ => ⟨0, 0, 0⟩, fun _ => ⟨0, 0, 0⟩, fun _ => ⟨0, 0, 0⟩,
        fun _ => ⟨0, 0, 0⟩, fun _ => ⟨0, 0, 0⟩⟩).1 (by decide)

theorem bfeSub_eq {a b : Nat} (ha : a < bfeP) (hb : b ≤ a) :
    bfeSub a b = a - b := by
  have hbp : b < bfeP := lt_of_le_of_lt hb ha
  unfold bfeSub
  rw [Nat.mod_eq_of_lt ha, Nat.mod_eq_of_lt hbp]
  have h1 : a + (bfeP - b) = bfeP + (a - b) := by omega
  rw [h1, Nat.add_mod_left, Nat.mod_eq_of_lt (by omega)]

theorem readWords_three {m : Nat → Nat} {a : Nat} (ha : a < bfeP)
    (h2 : 2 ≤ a) : readWords m a 3 = stackX (readX m (a - 2)) := by
  simp only [readWords, stackX, readX]
  rw [bfeSub_eq ha (by omega), bfeSub_eq ha (by omega), bfeSub_eq ha (by omega)]
  have e1 : a - 2 + 1 = a - 1 := by omega
  have e2 : a - 2 + 2 = a - 0 := by omega
  rw [e1, e2]

theorem writeWords_three {m : Nat → Nat} {a : Nat} (ha : a + 2 < bfeP)
    (x : XFe) :
    writeWords m a [x.c0, x.c1, x.c2] = writeX m a x := by
  funext z
  simp only [writeWords, writeX]
  rw [Nat.mod_eq_of_lt (show a < bfeP by omega),
    Nat.mod_eq_of_lt (show a + 1 < bfeP by omega),
    Nat.mod_eq_of_lt (show a + 1 + 1 < bfeP by omega)]

theorem readX_writeX_self (m : Nat → Nat) (a : Nat) (x : XFe) :
    readX (writeX m a x) a = x := by
  have h0 : writeX m a x a = x.c0 := by
    unfold writeX
    rw [if_neg (by omega), if_neg (by omega), if_pos rfl]
  have h1 : writeX m a x (a + 1) = x.c1 := by
    unfold writeX
    rw [if_neg (by omega), if_pos rfl]
  have h2 : writeX m a x (a + 2) = x.c2 := by
    unfold writeX
    rw [if_pos rfl]
  simp [readX, h0, h1, h2]

theorem writeX_noteq {m : Nat → Nat} {a : Nat} {x : XFe} {z : Nat}
    (h0 : z ≠ a) (h1 : z ≠ a + 1) (h2 : z ≠ a + 2) :
    writeX m a x z = m z := by
  simp [writeX, h0, h1, h2]

theorem readX_writeX_far {m : Nat → Nat} {a a' : Nat} {x : XFe}
    (h : a' + 2 < a ∨ a + 2 < a') :
    readX (writeX m a x) a' = readX m a' := by
  simp only [readX]
  rw [writeX_noteq (by omega) (by omega) (by omega),
    writeX_noteq (by omega) (by omega) (by omega),
    writeX_noteq (by omega) (by omega) (by omega)]

theorem outArray_fits : 4 + 3 * outArrayOffset ≤ memPageSize := by decide

theorem memPageSize_le : memPageSize ≤ bfeP := by decide

/-! ## Gadget-level run lemmas -/
theorem run_loadConst (x : XFe) (m : Nat → Nat) (s : List Nat) :
    runCode (loadExtFieldConstant x) ⟨s, m⟩
      = some ⟨stackX (normX x) ++ s, m⟩ := by
  simp [loadExtFieldConstant, runCode, step, stackX, normX]

theorem run_loadList (ptr e : Nat) (hcap : e * 3 + 2 < offsetCap)
    (hnw : ptr + (e * 3 + 2) < bfeP) (m : Nat → Nat) (s : List Nat) :
    ∃ code, loadExtFieldElementFromList ptr e = some code
      ∧ runCode code ⟨s, m⟩
          = some ⟨stackX (readX m (ptr + e * 3)) ++ s, m⟩ := by
  refine ⟨[.push (ptr + (e * 3 + 2)), .readMem 3, .pop 1], ?_, ?_⟩
  · simp [loadExtFieldElementFromList, pushAddr, elementWordIndexForReading,
      hcap]
  · have ha : (ptr + (e * 3 + 2)) % bfeP = ptr + (e * 3 + 2) :=
      Nat.mod_eq_of_lt hnw
    simp only [runCode, step, ha, Option.bind_eq_bind, Option.some_bind]
    rw [readWords_three hnw (by omega)]
    have he : ptr + (e * 3 + 2) - 2 = ptr + e * 3 := by omega
    rw [he]
    simp [stackX]

theorem run_loadPointed (ptr e rowv : Nat) (hptr : ptr < bfeP)
    (hnw : rowv + (e * 3 + 2) < bfeP) (m : Nat → Nat) (hm : m ptr = rowv)
    (s : List Nat) :
    ∃ code, loadExtFieldElementFromPointedToList ptr e = some code
      ∧ runCode code ⟨s, m⟩
          = some ⟨stackX (readX m (rowv + e * 3)) ++ s, m⟩ := by
  refine ⟨[.push (ptr + 0), .readMem 1, .pop 1,
    .addi (elementWordIndexForReading e), .readMem 3, .pop 1], ?_, ?_⟩
  · unfold loadExtFieldElementFromPointedToList pushAddr
    rw [if_pos (show (0 : Nat) < offsetCap by decide)]
    rfl
  · have ha : (ptr + 0) % bfeP = ptr := by
      rw [Nat.add_zero, Nat.mod_eq_of_lt hptr]
    have hsub0 : bfeSub ptr 0 = ptr := by
      rw [bfeSub_eq hptr (Nat.zero_le ptr), Nat.sub_zero]
    have hb : (rowv + (e * 3 + 2)) % bfeP = rowv + (e * 3 + 2) :=
      Nat.mod_eq_of_lt hnw
    have h2 : bfeSub (rowv + (e * 3 + 2)) 2 = rowv + e * 3 := by
      rw [bfeSub_eq hnw (by omega)]
      omega
    have h1 : bfeSub (rowv + (e * 3 + 2)) 1 = rowv + e * 3 + 1 := by
      rw [bfeSub_eq hnw (by omega)]
      omega
    have h0 : bfeSub (rowv + (e * 3 + 2)) 0 = rowv + e * 3 + 2 := by
      rw [bfeSub_eq hnw (by omega)]
      omega
    have ha2 : ptr % bfeP = ptr := Nat.mod_eq_of_lt hptr
    simp [runCode, step, readWords, ha, ha2, hsub0, hm,
      elementWordIndexForReading, hb, h0, h1, h2, stackX, readX]

theorem run_store (env : PtrEnv) (e : Nat) (hcap : e * 3 < offsetCap)
    (hnw : env.freeMemPagePtr + e * 3 + 2 < bfeP) (x : XFe)
    (m : Nat → Nat) (s : List Nat) :
    ∃ code, storeExtFieldElement env e = some code
      ∧ runCode code ⟨stackX x ++ s, m⟩
          = some ⟨s, writeX m (env.freeMemPagePtr + e * 3) x⟩ := by
  refine ⟨[.push (env.freeMemPagePtr + e * 3), .writeMem 3, .pop 1], ?_, ?_⟩
  · simp [storeExtFieldElement, pushAddr, hcap]
  · have ha : (env.freeMemPagePtr + e * 3) % bfeP
        = env.freeMemPagePtr + e * 3 := Nat.mod_eq_of_lt (by omega)
    simp only [runCode, step, ha, stackX, List.cons_append,
      Option.bind_eq_bind, Option.some_bind]
    rw [if_pos (by simp)]
    simp only [List.take_succ_cons, List.take_zero, List.drop_succ_cons,
      List.drop_zero]
    rw [writeWords_three hnw x]
    simp

theorem modeEnv_free (l : StaticMemoryLayout) (static : Bool) :
    (modeEnv l static).freeMemPagePtr = scratchPtr l static := by
  cases static <;> rfl

theorem modeEnv_chall (l : StaticMemoryLayout) (static : Bool) :
    (modeEnv l static).challengesPtr = l.challengesPtr := by
  cases static <;> rfl

theorem readX_frame {l : StaticMemoryLayout} {ram0 m : Nat → Nat}
    (hf : ∀ a, ¬ InPage l a → m a = ram0 a) {a : Nat}
    (h0 : ¬ InPage l a) (h1 : ¬ InPage l (a + 1))
    (h2 : ¬ InPage l (a + 2)) : readX m a = readX ram0 a := by
  simp [readX, hf _ h0, hf _ h1, hf _ h2]

theorem slot_cap {id : Nat} (h : id < outArrayOffset) :
    id * 3 + 2 < offsetCap := by
  have hB : outArrayOffset * 3 ≤ offsetCap := by decide
  omega

theorem slot_nw {l : StaticMemoryLayout} {id : Nat} (static : Bool)
    (hpage : l.freeMemPagePtr + memPageSize ≤ bfeP)
    (h : id < outArrayOffset) :
    scratchPtr l static + (id * 3 + 2) < bfeP := by
  have hOF := outArray_fits
  have hs : scratchPtr l static ≤ l.freeMemPagePtr + 4 := by
    unfold scratchPtr
    cases static <;> simp
  omega

theorem slot_in_page {l : StaticMemoryLayout} {id : Nat} (static : Bool)
    (h : id < outArrayOffset) (t : Nat) (ht : t < 3) :
    InPage l (scratchPtr l static + id * 3 + t) := by
  have hOF := outArray_fits
  have hs : l.freeMemPagePtr ≤ scratchPtr l static
      ∧ scratchPtr l static ≤ l.freeMemPagePtr + 4 := by
    unfold scratchPtr
    cases static <;> simp
  unfold InPage
  omega

/-- The output slot of element `outArrayOffset + w` stays within the page
and its offset is encodable, provided the batch total fits. -/
theorem out_slot_cap {w total : Nat} (hw : w < total)
    (htot : 4 + 3 * (outArrayOffset + total) ≤ memPageSize) :
    (outArrayOffset + w) * 3 < offsetCap := by
  have hmp : memPageSize ≤ offsetCap + 2 := by decide
  omega

theorem out_slot_nw {l : StaticMemoryLayout} {w total : Nat} (static : Bool)
    (hpage : l.freeMemPagePtr + memPageSize ≤ bfeP) (hw : w < total)
    (htot : 4 + 3 * (outArrayOffset + total) ≤ memPageSize) :
    scratchPtr l static + (outArrayOffset + w) * 3 + 2 < bfeP := by
  have hs : scratchPtr l static ≤ l.freeMemPagePtr + 4 := by
    unfold scratchPtr
    cases static <;> simp
  omega

theorem out_slot_in_page {l : StaticMemoryLayout} {w total : Nat}
    (static : Bool) (hw : w < total)
    (htot : 4 + 3 * (outArrayOffset + total) ≤ memPageSize) (t : Nat)
    (ht : t < 3) :
    InPage l (scratchPtr l static + (outArrayOffset + w) * 3 + t) := by
  have hs : l.freeMemPagePtr ≤ scratchPtr l static
      ∧ scratchPtr l static ≤ l.freeMemPagePtr + 4 := by
    unfold scratchPtr
    cases static <;> simp
  unfold InPage
  omega

/-- Correctness of `evaluate_single_node` of the assembly backend: under the
frame and scope invariants, its emitted code pushes exactly the node's value
and leaves memory untouched. -/
theorem run_evaluate (l : StaticMemoryLayout) (static : Bool) (pt : Point)
    (ram0 : Nat → Nat)
    (hpage : l.freeMemPagePtr + memPageSize ≤ bfeP)
    (hptrs : RowPtrsOK l) (buck : List Circuit)
    (hres : ∀ x ∈ subsList buck, resourceOKB l x = true)
    (hram : ∀ x ∈ subsList buck, ramHasNodeB l pt ram0 x = true) :
    ∀ c ∈ subsList buck, ∀ (scope : List Nat) (m : Nat → Nat) (s : List Nat),
      RamBase l static ram0 m → ScopeOK l static pt buck scope m →
      ∃ code,
        evaluateSingleNodeTasm (modeEnv l static) static scope c = some code
          ∧ runCode code ⟨s, m⟩ = some ⟨stackX (c.evalX pt) ++ s, m⟩ := by
  intro c
  induction c with
  | binop i r o lc rc ihl ihr =>
    intro hc scope m s hbase hscope
    by_cases hsc : i ∈ scope
    · have hid : i < outArrayOffset := by
        have := hres _ hc
        simpa [resourceOKB, decide_eq_true_eq] using this
      obtain ⟨code, hload, hrun⟩ := run_loadList (scratchPtr l static) i
        (slot_cap hid) (slot_nw static hpage hid) m s
      refine ⟨code, ?_, ?_⟩
      · simp only [evaluateSingleNodeTasm, if_pos hsc, loadEvaluatedBinOp,
          modeEnv_free]
        exact hload
      · rw [hrun]
        have hv := hscope _ hc hsc
        simp only [Circuit.id] at hv
        rw [show scratchPtr l static + i * 3
            = scratchPtr l static + 3 * i by ring, hv]
    · have hcl : lc ∈ subsList buck :=
        subsList_trans hc lc (binop_children_mem_subs i r o lc rc).1
      have hcrc : rc ∈ subsList buck :=
        subsList_trans hc rc (binop_children_mem_subs i r o lc rc).2
      obtain ⟨il, hil, hrl⟩ := ihl hcl scope m s hbase hscope
      obtain ⟨ir, hir, hrr⟩ :=
        ihr hcrc scope m (stackX (lc.evalX pt) ++ s) hbase hscope
      refine ⟨il ++ ir
        ++ [match o with | .add => Instr.xxadd | .mul => Instr.xxmul],
        ?_, ?_⟩
      · simp only [evaluateSingleNodeTasm, if_neg hsc, hil, hir,
          Option.bind_eq_bind, Option.some_bind, Option.pure_def]
      · rw [runCode_append, runCode_append, hrl, Option.some_bind, hrr,
          Option.some_bind]
        cases o with
        | add => simp [runCode, step, stackX, Circuit.evalX]
        | mul => simp [runCode, step, stackX, Circuit.evalX]
  | bconst i r b =>
    intro hc scope m s hbase hscope
    refine ⟨_, rfl, ?_⟩
    rw [run_loadConst]
    simp [Circuit.evalX, liftB, normX]
  | xconst i r x =>
    intro hc scope m s hbase hscope
    refine ⟨_, rfl, ?_⟩
    rw [run_loadConst]
    simp [Circuit.evalX]
  | challenge i r n =>
    intro hc scope m s hbase hscope
    have hresi := hres _ hc
    simp only [resourceOKB, Bool.and_eq_true, decide_eq_true_eq] at hresi
    obtain ⟨⟨⟨⟨hcap, hnw⟩, hp0⟩, hp1⟩, hp2⟩ := hresi
    have hrami := hram _ hc
    simp only [ramHasNodeB, decide_eq_true_eq] at hrami
    have hfr : readX m (l.challengesPtr + 3 * n) = pt.challenges n := by
      rw [readX_frame hbase.1 hp0 hp1 hp2]
      exact hrami
    obtain ⟨code, hload, hrun⟩ := run_loadList l.challengesPtr n
      (by omega) (by omega) m s
    refine ⟨code, ?_, ?_⟩
    · simp only [evaluateSingleNodeTasm, loadNode, loadChallenge,
        modeEnv_chall]
      exact hload
    · rw [hrun, show l.challengesPtr + n * 3 = l.challengesPtr + 3 * n
        by ring, hfr]
      rfl
  | input i r ref =>
    intro hc scope m s hbase hscope
    have hresi := hres _ hc
    simp only [resourceOKB, Bool.and_eq_true, decide_eq_true_eq] at hresi
    obtain ⟨⟨⟨⟨hcap, hnw⟩, hp0⟩, hp1⟩, hp2⟩ := hresi
    have hrami := hram _ hc
    simp only [ramHasNodeB, decide_eq_true_eq] at hrami
    have hfr : readX m (inputPtr (staticPtrEnv l) ref + 3 * ref.column)
        = pt.read ref := by
      rw [readX_frame hbase.1 hp0 hp1 hp2]
      exact hrami
    cases static with
    | true =>
      obtain ⟨code, hload, hrun⟩ :=
        run_loadList (inputPtr (staticPtrEnv l) ref) ref.column
          (by omega) (by omega) m s
      refine ⟨code, ?_, ?_⟩
      · simp only [evaluateSingleNodeTasm, loadNode, loadInput, if_pos rfl,
          modeEnv]
        exact hload
      · rw [hrun, show inputPtr (staticPtrEnv l) ref + ref.column * 3
          = inputPtr (staticPtrEnv l) ref + 3 * ref.column by ring, hfr]
        rfl
    | false =>
      have hmp4 : 4 ≤ memPageSize := by decide
      obtain ⟨b0, b1, b2, b3⟩ := hbase.2 rfl
      obtain ⟨hc1, hc2, hc3, hc4, hc5⟩ := hptrs
      have hblock : m (inputPtr (modeEnv l false) ref)
            = inputPtr (staticPtrEnv l) ref
          ∧ inputPtr (modeEnv l false) ref < bfeP := by
        have hme : modeEnv l false
            = dynamicPtrEnv ⟨l.freeMemPagePtr, l.challengesPtr⟩ := rfl
        rw [hme]
        cases hcr : ref.isCurrentRow <;> cases hbt : ref.isBaseTableColumn <;>
          simp only [inputPtr, dynamicPtrEnv, staticPtrEnv, hcr, hbt] <;>
          exact ⟨by assumption, by omega⟩
      obtain ⟨code, hload, hrun⟩ :=
        run_loadPointed (inputPtr (modeEnv l false) ref) ref.column
          (inputPtr (staticPtrEnv l) ref) hblock.2 (by omega) m hblock.1 s
      refine ⟨code, ?_, ?_⟩
      · simp only [evaluateSingleNodeTasm, loadNode, loadInput,
          Bool.false_eq_true, if_false]
        exact hload
      · rw [hrun, show inputPtr (staticPtrEnv l) ref + ref.column * 3
          = inputPtr (staticPtrEnv l) ref + 3 * ref.column by ring, hfr]
        rfl

/-- Correctness of `store_single_shared_node_of_ref_count`: its emitted code
leaves the stack unchanged, writes only node slots below the output array,
and extends the scope invariant with the stored nodes. -/
theorem run_storeSingle (l : StaticMemoryLayout) (static : Bool) (pt : Point)
    (ram0 : Nat → Nat)
    (hpage : l.freeMemPagePtr + memPageSize ≤ bfeP)
    (hptrs : RowPtrsOK l) (buck : List Circuit) (hU : UniqueIds buck)
    (hres : ∀ x ∈ subsList buck, resourceOKB l x = true)
    (hram : ∀ x ∈ subsList buck, ramHasNodeB l pt ram0 x = true) :
    ∀ c ∈ subsList buck, ∀ (count : Nat) (scope : List Nat)
      (m : Nat → Nat) (out : List Instr × List Nat),
      RamBase l static ram0 m → ScopeOK l static pt buck scope m →
      storeSingleSharedNodeOfRefCount (modeEnv l static) static count c scope
          = some out →
      ∀ s, ∃ m', runCode out.1 ⟨s, m⟩ = some ⟨s, m'⟩
        ∧ RamBase l static ram0 m'
        ∧ ScopeOK l static pt buck out.2 m'
        ∧ (∀ i ∈ scope, i ∈ out.2)
        ∧ (∀ a, m' a ≠ m a →
            ∃ id, id < outArrayOffset ∧ scratchPtr l static + 3 * id ≤ a
              ∧ a < scratchPtr l static + 3 * id + 3) := by
  intro c
  induction c with
  | binop i r o lc rc ihl ihr =>
    intro hc count scope m out hbase hscope hst s
    by_cases hsc : i ∈ scope
    · rw [storeSingleSharedNodeOfRefCount, if_pos hsc] at hst
      injection hst with hst
      rw [← hst]
      exact ⟨m, rfl, hbase, hscope, fun j hj => hj,
        fun a ha => absurd rfl ha⟩
    · by_cases hlt : r < count
      · rw [storeSingleSharedNodeOfRefCount, if_neg hsc, if_pos hlt] at hst
        simp only [Option.bind_eq_bind, Option.bind_eq_some, Option.pure_def,
          Option.some.injEq] at hst
        obtain ⟨pl, hpl, pr, hpr, hout⟩ := hst
        have hcl : lc ∈ subsList buck :=
          subsList_trans hc lc (binop_children_mem_subs i r o lc rc).1
        have hcrc : rc ∈ subsList buck :=
          subsList_trans hc rc (binop_children_mem_subs i r o lc rc).2
        obtain ⟨m1, hrun1, hbase1, hscope1, hmono1, hws1⟩ :=
          ihl hcl count scope m pl hbase hscope hpl s
        obtain ⟨m2, hrun2, hbase2, hscope2, hmono2, hws2⟩ :=
          ihr hcrc count pl.2 m1 pr hbase1 hscope1 hpr s
        refine ⟨m2, ?_, hbase2, ?_, ?_, ?_⟩
        · rw [← hout]
          rw [runCode_append, hrun1, Option.some_bind, hrun2]
        · rw [← hout]
          exact hscope2
        · intro j hj
          rw [← hout]
          exact hmono2 j (hmono1 j hj)
        · intro a ha
          by_cases h1 : m1 a = m a
          · exact hws2 a (by rw [← h1] at ha; exact ha)
          · exact hws1 a h1
      · by_cases heq : r = count
        · rw [storeSingleSharedNodeOfRefCount, if_neg hsc, if_neg hlt,
            if_pos heq] at hst
          simp only [Option.bind_eq_bind, Option.bind_eq_some,
            Option.pure_def, Option.some.injEq] at hst
          obtain ⟨ev, hev, st, hstore, hout⟩ := hst
          have hid : i < outArrayOffset := by
            have := hres _ hc
            simpa [resourceOKB, decide_eq_true_eq] using this
          obtain ⟨code, hcode, hrun⟩ := run_evaluate l static pt ram0 hpage
            hptrs buck hres hram _ hc scope m s hbase hscope
          have hev' : ev = code := by
            rw [hev] at hcode
            injection hcode
          obtain ⟨code2, hcode2, hrun2⟩ := run_store (modeEnv l static) i
            (by have := slot_cap hid; omega)
            (by rw [modeEnv_free]
                have := slot_nw (l := l) static hpage hid
                omega)
            ((Circuit.binop i r o lc rc).evalX pt) m s
          have hst' : st = code2 := by
            rw [hstore] at hcode2
            injection hcode2
          set v := (Circuit.binop i r o lc rc).evalX pt with hv
          set a0 := scratchPtr l static + i * 3 with ha0
          have henvfree : (modeEnv l static).freeMemPagePtr + i * 3 = a0 := by
            rw [modeEnv_free]
          refine ⟨writeX m a0 v, ?_, ?_, ?_, ?_, ?_⟩
          · rw [← hout]
            rw [runCode_append, hev', hrun, Option.some_bind, hst', hrun2,
              henvfree]
          · constructor
            · intro a ha
              have hne0 : a ≠ a0 := fun h => ha (by
                rw [h, ha0]
                exact slot_in_page static hid 0 (by omega))
              have hne1 : a ≠ a0 + 1 := fun h => ha (by
                rw [h, ha0]
                exact slot_in_page static hid 1 (by omega))
              have hne2 : a ≠ a0 + 2 := fun h => ha (by
                rw [h, ha0]
                exact slot_in_page static hid 2 (by omega))
              rw [writeX_noteq hne0 hne1 hne2, hbase.1 a ha]
            · intro hstat
              obtain ⟨b0, b1, b2, b3⟩ := hbase.2 hstat
              have hscr : scratchPtr l static = l.freeMemPagePtr + 4 := by
                rw [hstat]
                rfl
              refine ⟨?_, ?_, ?_, ?_⟩ <;>
                (rw [writeX_noteq (by omega) (by omega) (by omega)]
                 assumption)
          · intro c'' hc'' hin
            rw [← hout] at hin
            rcases List.mem_cons.mp hin with hii | hii
            · have hcc : c'' = Circuit.binop i r o lc rc :=
                hU c'' hc'' _ hc (by rw [hii]; rfl)
              rw [hcc]
              simp only [Circuit.id]
              rw [show scratchPtr l static + 3 * i = a0 by rw [ha0]; ring,
                readX_writeX_self]
            · have hold := hscope c'' hc'' hii
              by_cases hsame : c''.id = i
              · have hcc : c'' = Circuit.binop i r o lc rc :=
                  hU c'' hc'' _ hc (by rw [hsame]; rfl)
                rw [hcc]
                simp only [Circuit.id]
                rw [show scratchPtr l static + 3 * i = a0 by rw [ha0]; ring,
                  readX_writeX_self]
              · rw [← hold]
                apply readX_writeX_far
                rw [ha0]
                omega
          · intro j hj
            rw [← hout]
            exact List.mem_cons_of_mem _ hj
          · intro a ha
            refine ⟨i, hid, ?_, ?_⟩
            · by_contra hcon
              exact ha (writeX_noteq (by omega) (by omega) (by omega))
            · by_contra hcon
              exact ha (writeX_noteq (by omega) (by omega) (by omega))
        · rw [storeSingleSharedNodeOfRefCount, if_neg hsc, if_neg hlt,
            if_neg heq] at hst
          cases hst
  | bconst i r b =>
    intro hc count scope m out hbase hscope hst s
    injection hst with hst
    rw [← hst]
    exact ⟨m, rfl, hbase, hscope, fun j hj => hj, fun a ha => absurd rfl ha⟩
  | xconst i r x =>
    intro hc count scope m out hbase hscope hst s
    injection hst with hst
    rw [← hst]
    exact ⟨m, rfl, hbase, hscope, fun j hj => hj, fun a ha => absurd rfl ha⟩
  | input i r ref =>
    intro hc count scope m out hbase hscope hst s
    injection hst with hst
    rw [← hst]
    exact ⟨m, rfl, hbase, hscope, fun j hj => hj, fun a ha => absurd rfl ha⟩
  | challenge i r n =>
    intro hc count scope m out hbase hscope hst s
    injection hst with hst
    rw [← hst]
    exact ⟨m, rfl, hbase, hscope, fun j hj => hj, fun a ha => absurd rfl ha⟩

theorem getD_append_lt {α : Type} {l1 l2 : List α} {j : Nat} (d : α)
    (h : j < l1.length) : (l1 ++ l2).getD j d = l1.getD j d := by
  induction l1 generalizing j with
  | nil => simp at h
  | cons a t ih =>
    cases j with
    | zero => rfl
    | succ j => exact ih (Nat.lt_of_succ_lt_succ h)

theorem getD_append_self {α : Type} {l1 : List α} {x : α} (d : α) :
    (l1 ++ [x]).getD l1.length d = x := by
  induction l1 with
  | nil => rfl
  | cons a t ih => exact ih

/-- Memory changes confined to node slots preserve the output array. -/
theorem outOK_preserved {l : StaticMemoryLayout} {static : Bool}
    {m m' : Nat → Nat} {vals : List XFe}
    (hws : ∀ a, m' a ≠ m a →
      ∃ id, id < outArrayOffset ∧ scratchPtr l static + 3 * id ≤ a
        ∧ a < scratchPtr l static + 3 * id + 3)
    (h : OutOK l static m vals) : OutOK l static m' vals := by
  intro j hj
  have heq : ∀ t, t < 3
      → m' (scratchPtr l static + 3 * (outArrayOffset + j) + t)
        = m (scratchPtr l static + 3 * (outArrayOffset + j) + t) := by
    intro t ht
    by_contra hne
    obtain ⟨id, hid, hlo, hhi⟩ := hws _ hne
    omega
  rw [← h j hj]
  simp only [readX]
  rw [show scratchPtr l static + 3 * (outArrayOffset + j)
      = scratchPtr l static + 3 * (outArrayOffset + j) + 0 by omega,
    heq 0 (by omega)]
  rw [heq 1 (by omega), heq 2 (by omega)]

/-- Correctness of one count pass of `store_all_shared_nodes_of_ref_count`. -/
theorem run_storeAllOfCount (l : StaticMemoryLayout) (static : Bool)
    (pt : Point) (ram0 : Nat → Nat)
    (hpage : l.freeMemPagePtr + memPageSize ≤ bfeP)
    (hptrs : RowPtrsOK l) (buck : List Circuit) (hU : UniqueIds buck)
    (hres : ∀ x ∈ subsList buck, resourceOKB l x = true)
    (hram : ∀ x ∈ subsList buck, ramHasNodeB l pt ram0 x = true) :
    ∀ (cs : List Circuit), (∀ x ∈ cs, x ∈ subsList buck) →
    ∀ (count : Nat) (scope : List Nat) (m : Nat → Nat)
      (out : List Instr × List Nat),
      RamBase l static ram0 m → ScopeOK l static pt buck scope m →
      storeAllOfRefCountGo (modeEnv l static) static count cs scope
          = some out →
      ∀ s, ∃ m', runCode out.1 ⟨s, m⟩ = some ⟨s, m'⟩
        ∧ RamBase l static ram0 m'
        ∧ ScopeOK l static pt buck out.2 m'
        ∧ (∀ a, m' a ≠ m a →
            ∃ id, id < outArrayOffset ∧ scratchPtr l static + 3 * id ≤ a
              ∧ a < scratchPtr l static + 3 * id + 3) := by
  intro cs
  induction cs with
  | nil =>
    intro _ count scope m out hbase hscope hst s
    injection hst with hst
    rw [← hst]
    exact ⟨m, rfl, hbase, hscope, fun a ha => absurd rfl ha⟩
  | cons c cs ih =>
    intro hmem count scope m out hbase hscope hst s
    simp only [storeAllOfRefCountGo, Option.bind_eq_bind, Option.bind_eq_some,
      Option.pure_def, Option.some.injEq] at hst
    obtain ⟨p1, hp1, p2, hp2, hout⟩ := hst
    obtain ⟨m1, hrun1, hbase1, hscope1, hmono1, hws1⟩ :=
      run_storeSingle l static pt ram0 hpage hptrs buck hU hres hram
        c (hmem c (List.mem_cons_self c cs)) count scope m p1 hbase hscope
        hp1 s
    obtain ⟨m2, hrun2, hbase2, hscope2, hws2⟩ :=
      ih (fun x hx => hmem x (List.mem_cons_of_mem c hx)) count p1.2 m1 p2
        hbase1 hscope1 hp2 s
    refine ⟨m2, ?_, hbase2, ?_, ?_⟩
    · rw [← hout, runCode_append, hrun1, Option.some_bind, hrun2]
    · rw [← hout]
      exact hscope2
    · intro a ha
      by_cases h1 : m1 a = m a
      · exact hws2 a (by rw [← h1] at ha; exact ha)
      · exact hws1 a h1

/-- Correctness of the whole `store_all_shared_nodes` count iteration. -/
theorem run_storeAllGo (l : StaticMemoryLayout) (static : Bool)
    (pt : Point) (ram0 : Nat → Nat)
    (hpage : l.freeMemPagePtr + memPageSize ≤ bfeP)
    (hptrs : RowPtrsOK l) (buck : List Circuit) (hU : UniqueIds buck)
    (hres : ∀ x ∈ subsList buck, resourceOKB l x = true)
    (hram : ∀ x ∈ subsList buck, ramHasNodeB l pt ram0 x = true)
    (hmem : ∀ x ∈ buck, x ∈ subsList buck) :
    ∀ (ks : List Nat) (scope : List Nat) (m : Nat → Nat)
      (out : List Instr × List Nat),
      RamBase l static ram0 m → ScopeOK l static pt buck scope m →
      storeAllSharedNodesGo (modeEnv l static) static buck ks scope
          = some out →
      ∀ s, ∃ m', runCode out.1 ⟨s, m⟩ = some ⟨s, m'⟩
        ∧ RamBase l static ram0 m'
        ∧ ScopeOK l static pt buck out.2 m'
        ∧ (∀ a, m' a ≠ m a →
            ∃ id, id < outArrayOffset ∧ scratchPtr l static + 3 * id ≤ a
              ∧ a < scratchPtr l static + 3 * id + 3) := by
  intro ks
  induction ks with
  | nil =>
    intro scope m out hbase hscope hst s
    injection hst with hst
    rw [← hst]
    exact ⟨m, rfl, hbase, hscope, fun a ha => absurd rfl ha⟩
  | cons k ks ih =>
    intro scope m out hbase hscope hst s
    simp only [storeAllSharedNodesGo, Option.bind_eq_bind,
      Option.bind_eq_some, Option.pure_def, Option.some.injEq] at hst
    obtain ⟨p1, hp1, p2, hp2, hout⟩ := hst
    obtain ⟨m1, hrun1, hbase1, hscope1, hws1⟩ :=
      run_storeAllOfCount l static pt ram0 hpage hptrs buck hU hres hram
        buck hmem k scope m p1 hbase hscope hp1 s
    obtain ⟨m2, hrun2, hbase2, hscope2, hws2⟩ :=
      ih p1.2 m1 p2 hbase1 hscope1 hp2 s
    refine ⟨m2, ?_, hbase2, ?_, ?_⟩
    · rw [← hout, runCode_append, hrun1, Option.some_bind, hrun2]
    · rw [← hout]
      exact hscope2
    · intro a ha
      by_cases h1 : m1 a = m a
      · exact hws2 a (by rw [← h1] at ha; exact ha)
      · exact hws1 a h1

/-- Correctness of the output-writing pass: it appends the ordered
constraints' values to the output array, preserving the frame and scope
invariants. -/
theorem run_writeOutputs (l : StaticMemoryLayout) (static : Bool)
    (pt : Point) (ram0 : Nat → Nat)
    (hpage : l.freeMemPagePtr + memPageSize ≤ bfeP)
    (hptrs : RowPtrsOK l) (buck : List Circuit)
    (hres : ∀ x ∈ subsList buck, resourceOKB l x = true)
    (hram : ∀ x ∈ subsList buck, ramHasNodeB l pt ram0 x = true)
    (total : Nat) (htot : 4 + 3 * (outArrayOffset + total) ≤ memPageSize) :
    ∀ (cs : List Circuit), (∀ x ∈ cs, x ∈ subsList buck) →
    ∀ (scope : List Nat), (∀ id ∈ scope, id < outArrayOffset) →
    ∀ (vals : List XFe) (m : Nat → Nat) (code : List Instr),
      vals.length + cs.length ≤ total →
      RamBase l static ram0 m → ScopeOK l static pt buck scope m →
      OutOK l static m vals →
      writeOutputsGo (modeEnv l static) static scope cs vals.length
          = some code →
      ∀ s, ∃ m', runCode code ⟨s, m⟩ = some ⟨s, m'⟩
        ∧ RamBase l static ram0 m'
        ∧ ScopeOK l static pt buck scope m'
        ∧ OutOK l static m' (vals ++ cs.map (Circuit.evalX pt)) := by
  intro cs
  induction cs with
  | nil =>
    intro _ scope _ vals m code _ hbase hscope hout hgo s
    injection hgo with hgo
    rw [← hgo]
    exact ⟨m, rfl, hbase, hscope, by simpa using hout⟩
  | cons c cs ih =>
    intro hmem scope hsid vals m code hlen hbase hscope hout hgo s
    simp only [writeOutputsGo, Option.bind_eq_bind, Option.bind_eq_some,
      Option.pure_def, Option.some.injEq] at hgo
    obtain ⟨i1, hi1, i2, hi2, hcode⟩ := hgo
    simp only [writeEvaluatedConstraint, Option.bind_eq_bind,
      Option.bind_eq_some, Option.pure_def, Option.some.injEq] at hi1
    obtain ⟨ev, hev, st, hst, hi1⟩ := hi1
    have hcm : c ∈ subsList buck := hmem c (List.mem_cons_self c cs)
    have hwt : vals.length < total := by
      simp only [List.length_cons] at hlen
      omega
    set v := c.evalX pt with hv
    obtain ⟨codee, hcodee, hrune⟩ := run_evaluate l static pt ram0 hpage
      hptrs buck hres hram c hcm scope m s hbase hscope
    rw [hcodee] at hev
    injection hev with hev
    subst hev
    obtain ⟨codes, hcodes, hruns⟩ := run_store (modeEnv l static)
      (outArrayOffset + vals.length) (out_slot_cap hwt htot)
      (by rw [modeEnv_free]
          exact out_slot_nw static hpage hwt htot) v m s
    rw [hcodes] at hst
    injection hst with hst
    subst hst
    set a0 := scratchPtr l static + (outArrayOffset + vals.length) * 3
      with ha0
    have henv : (modeEnv l static).freeMemPagePtr
        + (outArrayOffset + vals.length) * 3 = a0 := by
      rw [modeEnv_free]
    rw [henv] at hruns
    set m1 := writeX m a0 v with hm1
    have hrun1 : runCode i1 ⟨s, m⟩ = some ⟨s, m1⟩ := by
      rw [← hi1, runCode_append, hrune, Option.some_bind, hruns]
    have hin : ∀ t, t < 3 → InPage l (a0 + t) := by
      intro t ht
      rw [ha0]
      exact out_slot_in_page static hwt htot t ht
    have hscr : l.freeMemPagePtr ≤ scratchPtr l static
        ∧ scratchPtr l static ≤ l.freeMemPagePtr + 4 := by
      unfold scratchPtr
      cases static <;> simp
    have hofs : 4 ≤ outArrayOffset * 3 := by decide
    have hbase1 : RamBase l static ram0 m1 := by
      constructor
      · intro a ha
        have h0 := hin 0 (by omega)
        have h1 := hin 1 (by omega)
        have h2 := hin 2 (by omega)
        rw [hm1, writeX_noteq (fun h => ha (by rw [h]; simpa using h0))
          (fun h => ha (by rw [h]; exact h1))
          (fun h => ha (by rw [h]; exact h2))]
        exact hbase.1 a ha
      · intro hstat
        obtain ⟨b0, b1, b2, b3⟩ := hbase.2 hstat
        have hscr4 : scratchPtr l static = l.freeMemPagePtr + 4 := by
          rw [hstat]
          rfl
        refine ⟨?_, ?_, ?_, ?_⟩ <;>
          (rw [hm1, writeX_noteq (by omega) (by omega) (by omega)]
           assumption)
    have hscope1 : ScopeOK l static pt buck scope m1 := by
      intro c2 hc2 hinS
      rw [← hscope c2 hc2 hinS, hm1]
      apply readX_writeX_far
      left
      have hid := hsid c2.id hinS
      rw [ha0]
      omega
    have hout1 : OutOK l static m1 (vals ++ [v]) := by
      intro j hj
      rw [List.length_append, List.length_singleton] at hj
      by_cases hjw : j < vals.length
      · have hfar : scratchPtr l static + 3 * (outArrayOffset + j) + 2
            < a0 := by
          rw [ha0]
          omega
        rw [getD_append_lt _ hjw, hm1, readX_writeX_far (Or.inl hfar)]
        exact hout j hjw
      · have hje : j = vals.length := by omega
        subst hje
        rw [getD_append_self, hm1,
          show scratchPtr l static + 3 * (outArrayOffset + vals.length) = a0
            by rw [ha0]; ring]
        exact readX_writeX_self m a0 v
    have hmem2 : ∀ x ∈ cs, x ∈ subsList buck := fun x hx =>
      hmem x (List.mem_cons_of_mem c hx)
    have hlen2 : (vals ++ [v]).length + cs.length ≤ total := by
      rw [List.length_append, List.length_singleton]
      simp only [List.length_cons] at hlen
      omega
    have hi2b : writeOutputsGo (modeEnv l static) static scope cs
        (vals ++ [v]).length = some i2 := by
      rw [List.length_append, List.length_singleton]
      exact hi2
    obtain ⟨m2, hrun2, hbase2, hscope2, hout2⟩ :=
      ih hmem2 scope hsid (vals ++ [v]) m1 i2 hlen2 hbase1 hscope1 hout1
        hi2b s
    refine ⟨m2, ?_, hbase2, hscope2, ?_⟩
    · rw [← hcode, runCode_append, hrun1, Option.some_bind, hrun2]
    · have hsh : vals ++ (c :: cs).map (Circuit.evalX pt)
          = (vals ++ [v]) ++ cs.map (Circuit.evalX pt) := by
        simp [hv]
      rw [hsh]
      exact hout2

/-- Correctness of one bucket pass of the assembly tokenizer: its code
appends the bucket's constraint values, in shared order, to the output
array, and advances the written counter by the bucket size. -/
theorem run_tokenizeBucket (l : StaticMemoryLayout) (static : Bool)
    (pt : Point) (ram0 : Nat → Nat)
    (hpage : l.freeMemPagePtr + memPageSize ≤ bfeP)
    (hptrs : RowPtrsOK l) (buck : List Circuit) (hU : UniqueIds buck)
    (hres : ∀ x ∈ subsList buck, resourceOKB l x = true)
    (hram : ∀ x ∈ subsList buck, ramHasNodeB l pt ram0 x = true)
    (total : Nat) (htot : 4 + 3 * (outArrayOffset + total) ≤ memPageSize)
    (st : TasmState) (vals : List XFe) (m : Nat → Nat)
    (out : List Instr × TasmState)
    (hwr : st.elementsWritten = vals.length)
    (hlen : vals.length + buck.length ≤ total)
    (hbase : RamBase l static ram0 m)
    (hout : OutOK l static m vals)
    (htok : tokenizeCircuitsTasm (modeEnv l static) static st buck
        = some out) :
    ∀ s, ∃ m', runCode out.1 ⟨s, m⟩ = some ⟨s, m'⟩
      ∧ RamBase l static ram0 m'
      ∧ OutOK l static m'
          (vals ++ (orderedBucket buck).map (Circuit.evalX pt))
      ∧ out.2.elementsWritten = vals.length + buck.length := by
  intro s
  simp only [tokenizeCircuitsTasm, Option.bind_eq_bind, Option.bind_eq_some,
    Option.pure_def, Option.some.injEq] at htok
  obtain ⟨p, hp, outs, houts, hO⟩ := htok
  simp only [storeAllSharedNodes] at hp
  have hmemb : ∀ x ∈ buck, x ∈ subsList buck := fun x hx =>
    mem_subsList_of_mem hx
  have hscope0 : ScopeOK l static pt buck [] m := by
    intro c hc hin
    simp at hin
  obtain ⟨m1, hrun1, hbase1, hscope1, hws1⟩ :=
    run_storeAllGo l static pt ram0 hpage hptrs buck hU hres hram hmemb
      (relevantVisitCounts buck) [] m p hbase hscope0 hp s
  have hout1 : OutOK l static m1 vals := outOK_preserved hws1 hout
  have hsid : ∀ id ∈ p.2, id < outArrayOffset := by
    intro id hid
    obtain ⟨-, hspec, -⟩ := storeAllGo_scope_spec _ _ _ hp
    obtain ⟨c2, hc2, k, hk, hide, hbin, hrc⟩ :=
      hspec id hid (by simp)
    cases hcc : c2 with
    | binop i2 r2 o2 l2 rh2 =>
      have := hres c2 hc2
      rw [hcc] at this
      rw [hide, hcc]
      simpa [resourceOKB, decide_eq_true_eq, Circuit.id] using this
    | bconst i2 r2 b2 => rw [hcc] at hbin; cases hbin
    | xconst i2 r2 x2 => rw [hcc] at hbin; cases hbin
    | input i2 r2 ref2 => rw [hcc] at hbin; cases hbin
    | challenge i2 r2 n2 => rw [hcc] at hbin; cases hbin
  have hmemo : ∀ x ∈ orderedBucket buck, x ∈ subsList buck := by
    intro x hx
    apply hmemb
    rcases List.mem_append.mp hx with h | h
    · exact (List.mem_filter.mp h).1
    · exact (List.mem_filter.mp h).1
  have hlen2 : vals.length + (orderedBucket buck).length ≤ total := by
    rw [orderedBucket_length]
    exact hlen
  have houts2 : writeOutputsGo (modeEnv l static) static p.2
      (orderedBucket buck) vals.length = some outs := by
    rw [← hwr]
    exact houts
  obtain ⟨m2, hrun2, hbase2, hscope2, hout2⟩ :=
    run_writeOutputs l static pt ram0 hpage hptrs buck hres hram total
      htot (orderedBucket buck) hmemo p.2 hsid vals m1 outs hlen2 hbase1
      hscope1 hout1 houts2 s
  refine ⟨m2, ?_, hbase2, hout2, ?_⟩
  · rw [← hO, runCode_append, hrun1, Option.some_bind, hrun2]
  · rw [← hO, hwr]

theorem subsList_append (a b : List Circuit) :
    subsList (a ++ b) = subsList a ++ subsList b := by
  simp [subsList]

/-- A bucket the native pass accepts has unique node identifiers. -/
theorem uniqueIds_of_tokenizeRust {batch : List Circuit} {nc : NativeCode}
    (h : tokenizeCircuitsRust batch = some nc) : UniqueIds batch := by
  by_cases hemp : batch.isEmpty
  · rw [List.isEmpty_iff] at hemp
    subst hemp
    intro c hc
    simp [subsList] at hc
  · rw [tokenizeCircuitsRust, if_neg hemp] at h
    by_cases hU : UniqueIds batch
    · exact hU
    · rw [if_neg hU] at h
      cases h

theorem map_range_getD {α : Type} (d : α) (vs : List α) :
    (List.range vs.length).map (fun j => vs.getD j d) = vs := by
  apply List.ext_getElem
  · simp
  · intro n h1 h2
    simp [List.getD_eq_getElem, List.getElem?_eq_getElem h2]

/-- The output-array invariant read back as a list. -/
theorem outOK_readXList {l : StaticMemoryLayout} {static : Bool}
    {m : Nat → Nat} {vals : List XFe} (h : OutOK l static m vals) :
    readXList m (scratchPtr l static + outArrayOffset * 3) vals.length
      = vals := by
  unfold readXList
  calc (List.range vals.length).map
        (fun j => readX m (scratchPtr l static + outArrayOffset * 3 + 3 * j))
      = (List.range vals.length).map (fun j => vals.getD j ⟨0, 0, 0⟩) := by
        apply List.map_congr_left
        intro j hj
        rw [List.mem_range] at hj
        rw [show scratchPtr l static + outArrayOffset * 3 + 3 * j
            = scratchPtr l static + 3 * (outArrayOffset + j) by ring]
        exact h j hj
    _ = vals := map_range_getD _ vals

/-- A successful full native evaluation has unique identifiers per bucket
and computes the ordered bucket values, concatenated in bucket order. -/
theorem nativeAll_spec {pt : Point} {b1 b2 b3 b4 : List Circuit}
    {v : List XFe} (h : nativeAll pt b1 b2 b3 b4 = some v) :
    UniqueIds b1 ∧ UniqueIds b2 ∧ UniqueIds b3 ∧ UniqueIds b4
      ∧ v = (orderedBucket b1).map (Circuit.evalX pt)
          ++ (orderedBucket b2).map (Circuit.evalX pt)
          ++ (orderedBucket b3).map (Circuit.evalX pt)
          ++ (orderedBucket b4).map (Circuit.evalX pt) := by
  simp only [nativeAll, Option.bind_eq_bind, Option.bind_eq_some,
    Option.pure_def, Option.some.injEq] at h
  obtain ⟨n1, h1, n2, h2, n3, h3, n4, h4, w1, hw1, w2, hw2, w3, hw3, w4,
    hw4, hv⟩ := h
  refine ⟨uniqueIds_of_tokenizeRust h1, uniqueIds_of_tokenizeRust h2,
    uniqueIds_of_tokenizeRust h3, uniqueIds_of_tokenizeRust h4, ?_⟩
  rw [← hv, nativeRun_correct h1 hw1, nativeRun_correct h2 hw2,
    nativeRun_correct h3 hw3, nativeRun_correct h4 hw4]

/-- One pointer move of the dynamic prologue: pops the stack top into the
given address. -/
theorem run_writePointer (ptr : Nat) (hptr : ptr < bfeP) (v : Nat)
    (rest : List Nat) (m : Nat → Nat) :
    ∃ code, writePointerToRam ptr = some code
      ∧ runCode code ⟨v :: rest, m⟩
          = some ⟨rest, fun x => if x = ptr then v else m x⟩ := by
  refine ⟨[.push (ptr + 0), .writeMem 1, .pop 1], ?_, ?_⟩
  · simp [writePointerToRam, pushAddr, show (0 : Nat) < offsetCap by decide]
  · have hp : (ptr + 0) % bfeP = ptr := by
      rw [Nat.add_zero]
      exact Nat.mod_eq_of_lt hptr
    simp [runCode, step, hp, writeWords, Nat.mod_eq_of_lt hptr]

/-- The dynamic prologue `write_row_pointers_to_ram`: consumes the four row
pointers from the stack (next extension row on top) and records them in the
first four words of the free page. -/
theorem run_writeRowPointers (l : StaticMemoryLayout)
    (hpage : l.freeMemPagePtr + memPageSize ≤ bfeP)
    (m : Nat → Nat) (rest : List Nat) :
    ∃ code, writeRowPointersToRam
        (dynamicPtrEnv ⟨l.freeMemPagePtr, l.challengesPtr⟩) = some code
      ∧ ∃ m1, runCode code ⟨l.nextExtRowPtr :: l.nextBaseRowPtr
            :: l.currExtRowPtr :: l.currBaseRowPtr :: rest, m⟩
          = some ⟨rest, m1⟩
        ∧ m1 l.freeMemPagePtr = l.currBaseRowPtr
        ∧ m1 (l.freeMemPagePtr + 1) = l.currExtRowPtr
        ∧ m1 (l.freeMemPagePtr + 2) = l.nextBaseRowPtr
        ∧ m1 (l.freeMemPagePtr + 3) = l.nextExtRowPtr
        ∧ ∀ a, a ≠ l.freeMemPagePtr → a ≠ l.freeMemPagePtr + 1
            → a ≠ l.freeMemPagePtr + 2 → a ≠ l.freeMemPagePtr + 3
            → m1 a = m a := by
  have hm4 : (4 : Nat) ≤ memPageSize := by decide
  obtain ⟨c1, h1, r1⟩ := run_writePointer (l.freeMemPagePtr + 3)
    (by omega) l.nextExtRowPtr
    (l.nextBaseRowPtr :: l.currExtRowPtr :: l.currBaseRowPtr :: rest) m
  obtain ⟨c2, h2, r2⟩ := run_writePointer (l.freeMemPagePtr + 2)
    (by omega) l.nextBaseRowPtr
    (l.currExtRowPtr :: l.currBaseRowPtr :: rest)
    (fun x => if x = l.freeMemPagePtr + 3 then l.nextExtRowPtr else m x)
  obtain ⟨c3, h3, r3⟩ := run_writePointer (l.freeMemPagePtr + 1)
    (by omega) l.currExtRowPtr (l.currBaseRowPtr :: rest)
    (fun x => if x = l.freeMemPagePtr + 2 then l.nextBaseRowPtr
      else if x = l.freeMemPagePtr + 3 then l.nextExtRowPtr else m x)
  obtain ⟨c4, h4, r4⟩ := run_writePointer l.freeMemPagePtr
    (by omega) l.currBaseRowPtr rest
    (fun x => if x = l.freeMemPagePtr + 1 then l.currExtRowPtr
      else if x = l.freeMemPagePtr + 2 then l.nextBaseRowPtr
      else if x = l.freeMemPagePtr + 3 then l.nextExtRowPtr else m x)
  refine ⟨c1 ++ c2 ++ c3 ++ c4, ?_, ?_⟩
  · simp only [writeRowPointersToRam, dynamicPtrEnv, Option.bind_eq_bind]
    rw [h1, Option.some_bind, h2, Option.some_bind, h3, Option.some_bind,
      h4, Option.some_bind]
    rfl
  · refine ⟨fun x => if x = l.freeMemPagePtr then l.currBaseRowPtr
        else if x = l.freeMemPagePtr + 1 then l.currExtRowPtr
        else if x = l.freeMemPagePtr + 2 then l.nextBaseRowPtr
        else if x = l.freeMemPagePtr + 3 then l.nextExtRowPtr else m x,
      ?_, ?_, ?_, ?_, ?_, ?_⟩
    · rw [runCode_append, runCode_append, runCode_append, r1,
        Option.some_bind, r2, Option.some_bind, r3, Option.some_bind, r4]
    · have e1 : l.freeMemPagePtr ≠ l.freeMemPagePtr + 1 := by omega
      have e2 : l.freeMemPagePtr ≠ l.freeMemPagePtr + 2 := by omega
      have e3 : l.freeMemPagePtr ≠ l.freeMemPagePtr + 3 := by omega
      simp [e1, e2, e3]
    · have e0 : l.freeMemPagePtr + 1 ≠ l.freeMemPagePtr := by omega
      have e2 : l.freeMemPagePtr + 1 ≠ l.freeMemPagePtr + 2 := by omega
      have e3 : l.freeMemPagePtr + 1 ≠ l.freeMemPagePtr + 3 := by omega
      simp [e0, e2, e3]
    · have e0 : l.freeMemPagePtr + 2 ≠ l.freeMemPagePtr := by omega
      have e1 : l.freeMemPagePtr + 2 ≠ l.freeMemPagePtr + 1 := by omega
      have e3 : l.freeMemPagePtr + 2 ≠ l.freeMemPagePtr + 3 := by omega
      simp [e0, e1, e3]
    · have e0 : l.freeMemPagePtr + 3 ≠ l.freeMemPagePtr := by omega
      have e1 : l.freeMemPagePtr + 3 ≠ l.freeMemPagePtr + 1 := by omega
      have e2 : l.freeMemPagePtr + 3 ≠ l.freeMemPagePtr + 2 := by omega
      simp [e0, e1, e2]
    · intro a n0 n1 n2 n3
      simp [n0, n1, n2, n3]

/-- The epilogue `prepare_return_values`: pushes the output array pointer
and touches nothing else. -/
theorem run_prepareReturn (l : StaticMemoryLayout) (static : Bool)
    (hpage : l.freeMemPagePtr + memPageSize ≤ bfeP) (m : Nat → Nat)
    (s : List Nat) :
    ∃ code, prepareReturnValues (modeEnv l static) = some code
      ∧ runCode code ⟨s, m⟩
          = some ⟨(scratchPtr l static + outArrayOffset * 3) :: s, m⟩ := by
  refine ⟨[.push ((modeEnv l static).freeMemPagePtr + outArrayOffset * 3)],
    ?_, ?_⟩
  · simp [prepareReturnValues, pushAddr,
      show outArrayOffset * 3 < offsetCap by decide]
  · have hmod : ((modeEnv l static).freeMemPagePtr + outArrayOffset * 3)
        % bfeP = scratchPtr l static + outArrayOffset * 3 := by
      rw [modeEnv_free]
      apply Nat.mod_eq_of_lt
      have h1 : 4 + 3 * outArrayOffset < memPageSize := by decide
      have h2 : scratchPtr l static ≤ l.freeMemPagePtr + 4 := by
        unfold scratchPtr
        cases static <;> simp
      omega
    simp [runCode, step, hmod]

/-- Correctness of the statically addressed entry point: it leaves the
output array pointer on top of the stack, the output array holds the four
buckets' ordered values, and memory outside the free page is untouched. -/
theorem run_staticEntry (l : StaticMemoryLayout) (pt : Point)
    (init cons tran term : List Circuit) (total : Nat)
    (htotal : total = init.length + cons.length + tran.length + term.length)
    (hint : IsIntegralFor l (((init ++ cons) ++ tran) ++ term) total)
    (hU1 : UniqueIds init) (hU2 : UniqueIds cons) (hU3 : UniqueIds tran)
    (hU4 : UniqueIds term) (m0 : Nat → Nat)
    (hramp : RamHasPoint l pt (((init ++ cons) ++ tran) ++ term) m0)
    (code : List Instr)
    (hcode : staticAirConstraintEvaluationTasm l init cons tran term
        = some code) (s : List Nat) :
    ∃ m', runCode code ⟨s, m0⟩
        = some ⟨(l.freeMemPagePtr + outArrayOffset * 3) :: s, m'⟩
      ∧ readXList m' (l.freeMemPagePtr + outArrayOffset * 3) total
          = (orderedBucket init).map (Circuit.evalX pt)
            ++ (orderedBucket cons).map (Circuit.evalX pt)
            ++ (orderedBucket tran).map (Circuit.evalX pt)
            ++ (orderedBucket term).map (Circuit.evalX pt)
      ∧ ∀ a, ¬ InPage l a → m' a = m0 a := by
  obtain ⟨hpage, hcb, hce, hnb, hne, hch, htot, hresAll⟩ := hint
  have hptrs : RowPtrsOK l := ⟨hcb, hce, hnb, hne, hch⟩
  have hres1 : ∀ x ∈ subsList init, resourceOKB l x = true := by
    intro x hx
    apply hresAll
    simp only [subsList_append, List.mem_append]
    exact Or.inl (Or.inl (Or.inl hx))
  have hres2 : ∀ x ∈ subsList cons, resourceOKB l x = true := by
    intro x hx
    apply hresAll
    simp only [subsList_append, List.mem_append]
    exact Or.inl (Or.inl (Or.inr hx))
  have hres3 : ∀ x ∈ subsList tran, resourceOKB l x = true := by
    intro x hx
    apply hresAll
    simp only [subsList_append, List.mem_append]
    exact Or.inl (Or.inr hx)
  have hres4 : ∀ x ∈ subsList term, resourceOKB l x = true := by
    intro x hx
    apply hresAll
    simp only [subsList_append, List.mem_append]
    exact Or.inr hx
  have hram1 : ∀ x ∈ subsList init, ramHasNodeB l pt m0 x = true := by
    intro x hx
    apply hramp
    simp only [subsList_append, List.mem_append]
    exact Or.inl (Or.inl (Or.inl hx))
  have hram2 : ∀ x ∈ subsList cons, ramHasNodeB l pt m0 x = true := by
    intro x hx
    apply hramp
    simp only [subsList_append, List.mem_append]
    exact Or.inl (Or.inl (Or.inr hx))
  have hram3 : ∀ x ∈ subsList tran, ramHasNodeB l pt m0 x = true := by
    intro x hx
    apply hramp
    simp only [subsList_append, List.mem_append]
    exact Or.inl (Or.inr hx)
  have hram4 : ∀ x ∈ subsList term, ramHasNodeB l pt m0 x = true := by
    intro x hx
    apply hramp
    simp only [subsList_append, List.mem_append]
    exact Or.inr hx
  simp only [staticAirConstraintEvaluationTasm, Option.bind_eq_bind,
    Option.bind_eq_some, Option.pure_def, Option.some.injEq] at hcode
  obtain ⟨p1, hp1, p2, hp2, p3, hp3, p4, hp4, fin, hfin, hc⟩ := hcode
  have hbase0 : RamBase l true m0 m0 :=
    ⟨fun a _ => rfl, fun h => by cases h⟩
  have hout0 : OutOK l true m0 [] := by
    intro j hj
    simp at hj
  obtain ⟨m1, hrun1, hbase1, hout1, hw1⟩ :=
    run_tokenizeBucket l true pt m0 hpage hptrs init hU1 hres1 hram1 total
      htot ⟨[], 0⟩ [] m0 p1 rfl
      (by simp only [List.length_nil]; omega) hbase0 hout0 hp1 s
  rw [List.nil_append] at hout1
  simp only [List.length_nil, Nat.zero_add] at hw1
  obtain ⟨m2, hrun2, hbase2, hout2, hw2⟩ :=
    run_tokenizeBucket l true pt m0 hpage hptrs cons hU2 hres2 hram2 total
      htot p1.2 ((orderedBucket init).map (Circuit.evalX pt)) m1 p2
      (by rw [hw1]; simp [orderedBucket_length])
      (by simp only [List.length_map, orderedBucket_length]; omega)
      hbase1 hout1 hp2 s
  simp only [List.length_map, orderedBucket_length] at hw2
  obtain ⟨m3, hrun3, hbase3, hout3, hw3⟩ :=
    run_tokenizeBucket l true pt m0 hpage hptrs tran hU3 hres3 hram3 total
      htot p2.2 ((orderedBucket init).map (Circuit.evalX pt)
        ++ (orderedBucket cons).map (Circuit.evalX pt)) m2 p3
      (by simp only [List.length_append, List.length_map,
            orderedBucket_length]
          omega)
      (by simp only [List.length_append, List.length_map,
            orderedBucket_length]
          omega)
      hbase2 hout2 hp3 s
  simp only [List.length_append, List.length_map, orderedBucket_length]
    at hw3
  obtain ⟨m4, hrun4, hbase4, hout4, hw4⟩ :=
    run_tokenizeBucket l true pt m0 hpage hptrs term hU4 hres4 hram4 total
      htot p3.2 ((orderedBucket init).map (Circuit.evalX pt)
        ++ (orderedBucket cons).map (Circuit.evalX pt)
        ++ (orderedBucket tran).map (Circuit.evalX pt)) m3 p4
      (by simp only [List.length_append, List.length_map,
            orderedBucket_length]
          omega)
      (by simp only [List.length_append, List.length_map,
            orderedBucket_length]
          omega)
      hbase3 hout3 hp4 s
  obtain ⟨fcode, hfc, hfrun⟩ := run_prepareReturn l true hpage m4 s
  have hfin2 : prepareReturnValues (modeEnv l true) = some fin := hfin
  rw [hfc] at hfin2
  injection hfin2 with hfe
  subst hfe
  have hcomp : runCode (p1.1 ++ p2.1 ++ p3.1 ++ p4.1 ++ fcode) ⟨s, m0⟩
      = some ⟨(scratchPtr l true + outArrayOffset * 3) :: s, m4⟩ := by
    rw [runCode_append, runCode_append, runCode_append, runCode_append,
      hrun1, Option.some_bind, hrun2, Option.some_bind, hrun3,
      Option.some_bind, hrun4, Option.some_bind, hfrun]
  refine ⟨m4, ?_, ?_, hbase4.1⟩
  · rw [← hc]
    exact hcomp
  · have hlenv : ((orderedBucket init).map (Circuit.evalX pt)
        ++ (orderedBucket cons).map (Circuit.evalX pt)
        ++ (orderedBucket tran).map (Circuit.evalX pt)
        ++ (orderedBucket term).map (Circuit.evalX pt)).length = total := by
      simp only [List.length_append, List.length_map, orderedBucket_length]
      omega
    have h := outOK_readXList hout4
    rw [hlenv] at h
    exact h

/-- Correctness of the dynamically addressed entry point: it consumes the
four row pointers from the stack, leaves the output array pointer on top,
the output array holds the four buckets' ordered values, and memory outside
the free page is untouched. -/
theorem run_dynamicEntry (l : StaticMemoryLayout) (pt : Point)
    (init cons tran term : List Circuit) (total : Nat)
    (htotal : total = init.length + cons.length + tran.length + term.length)
    (hint : IsIntegralFor l (((init ++ cons) ++ tran) ++ term) total)
    (hU1 : UniqueIds init) (hU2 : UniqueIds cons) (hU3 : UniqueIds tran)
    (hU4 : UniqueIds term) (m0 : Nat → Nat)
    (hramp : RamHasPoint l pt (((init ++ cons) ++ tran) ++ term) m0)
    (code : List Instr)
    (hcode : dynamicAirConstraintEvaluationTasm
        ⟨l.freeMemPagePtr, l.challengesPtr⟩ init cons tran term
        = some code) (s : List Nat) :
    ∃ m', runCode code ⟨l.nextExtRowPtr :: l.nextBaseRowPtr
          :: l.currExtRowPtr :: l.currBaseRowPtr :: s, m0⟩
        = some ⟨(l.freeMemPagePtr + 4 + outArrayOffset * 3) :: s, m'⟩
      ∧ readXList m' (l.freeMemPagePtr + 4 + outArrayOffset * 3) total
          = (orderedBucket init).map (Circuit.evalX pt)
            ++ (orderedBucket cons).map (Circuit.evalX pt)
            ++ (orderedBucket tran).map (Circuit.evalX pt)
            ++ (orderedBucket term).map (Circuit.evalX pt)
      ∧ ∀ a, ¬ InPage l a → m' a = m0 a := by
  obtain ⟨hpage, hcb, hce, hnb, hne, hch, htot, hresAll⟩ := hint
  have hptrs : RowPtrsOK l := ⟨hcb, hce, hnb, hne, hch⟩
  have hres1 : ∀ x ∈ subsList init, resourceOKB l x = true := by
    intro x hx
    apply hresAll
    simp only [subsList_append, List.mem_append]
    exact Or.inl (Or.inl (Or.inl hx))
  have hres2 : ∀ x ∈ subsList cons, resourceOKB l x = true := by
    intro x hx
    apply hresAll
    simp only [subsList_append, List.mem_append]
    exact Or.inl (Or.inl (Or.inr hx))
  have hres3 : ∀ x ∈ subsList tran, resourceOKB l x = true := by
    intro x hx
    apply hresAll
    simp only [subsList_append, List.mem_append]
    exact Or.inl (Or.inr hx)
  have hres4 : ∀ x ∈ subsList term, resourceOKB l x = true := by
    intro x hx
    apply hresAll
    simp only [subsList_append, List.mem_append]
    exact Or.inr hx
  have hram1 : ∀ x ∈ subsList init, ramHasNodeB l pt m0 x = true := by
    intro x hx
    apply hramp
    simp only [subsList_append, List.mem_append]
    exact Or.inl (Or.inl (Or.inl hx))
  have hram2 : ∀ x ∈ subsList cons, ramHasNodeB l pt m0 x = true := by
    intro x hx
    apply hramp
    simp only [subsList_append, List.mem_append]
    exact Or.inl (Or.inl (Or.inr hx))
  have hram3 : ∀ x ∈ subsList tran, ramHasNodeB l pt m0 x = true := by
    intro x hx
    apply hramp
    simp only [subsList_append, List.mem_append]
    exact Or.inl (Or.inr hx)
  have hram4 : ∀ x ∈ subsList term, ramHasNodeB l pt m0 x = true := by
    intro x hx
    apply hramp
    simp only [subsList_append, List.mem_append]
    exact Or.inr hx
  simp only [dynamicAirConstraintEvaluationTasm, Option.bind_eq_bind,
    Option.bind_eq_some, Option.pure_def, Option.some.injEq] at hcode
  obtain ⟨mv, hmv, p1, hp1, p2, hp2, p3, hp3, p4, hp4, fin, hfin, hc⟩ :=
    hcode
  obtain ⟨pcode, hpc, m1p, hprun, hb0, hb1, hb2, hb3, hother⟩ :=
    run_writeRowPointers l hpage m0 s
  rw [hpc] at hmv
  injection hmv with hmv
  subst hmv
  have hm4 : (4 : Nat) ≤ memPageSize := by decide
  have hbase0 : RamBase l false m0 m1p := by
    constructor
    · intro a ha
      refine hother a ?_ ?_ ?_ ?_ <;>
        (intro he
         exact ha (by rw [he]; exact ⟨by omega, by omega⟩))
    · intro _
      exact ⟨hb0, hb1, hb2, hb3⟩
  have hout0 : OutOK l false m1p [] := by
    intro j hj
    simp at hj
  obtain ⟨m1, hrun1, hbase1, hout1, hw1⟩ :=
    run_tokenizeBucket l false pt m0 hpage hptrs init hU1 hres1 hram1 total
      htot ⟨[], 0⟩ [] m1p p1 rfl
      (by simp only [List.length_nil]; omega) hbase0 hout0 hp1 s
  rw [List.nil_append] at hout1
  simp only [List.length_nil, Nat.zero_add] at hw1
  obtain ⟨m2, hrun2, hbase2, hout2, hw2⟩ :=
    run_tokenizeBucket l false pt m0 hpage hptrs cons hU2 hres2 hram2 total
      htot p1.2 ((orderedBucket init).map (Circuit.evalX pt)) m1 p2
      (by rw [hw1]; simp [orderedBucket_length])
      (by simp only [List.length_map, orderedBucket_length]; omega)
      hbase1 hout1 hp2 s
  simp only [List.length_map, orderedBucket_length] at hw2
  obtain ⟨m3, hrun3, hbase3, hout3, hw3⟩ :=
    run_tokenizeBucket l false pt m0 hpage hptrs tran hU3 hres3 hram3 total
      htot p2.2 ((orderedBucket init).map (Circuit.evalX pt)
        ++ (orderedBucket cons).map (Circuit.evalX pt)) m2 p3
      (by simp only [List.length_append, List.length_map,
            orderedBucket_length]
          omega)
      (by simp only [List.length_append, List.length_map,
            orderedBucket_length]
          omega)
      hbase2 hout2 hp3 s
  simp only [List.length_append, List.length_map, orderedBucket_length]
    at hw3
  obtain ⟨m4, hrun4, hbase4, hout4, hw4⟩ :=
    run_tokenizeBucket l false pt m0 hpage hptrs term hU4 hres4 hram4 total
      htot p3.2 ((orderedBucket init).map (Circuit.evalX pt)
        ++ (orderedBucket cons).map (Circuit.evalX pt)
        ++ (orderedBucket tran).map (Circuit.evalX pt)) m3 p4
      (by simp only [List.length_append, List.length_map,
            orderedBucket_length]
          omega)
      (by simp only [List.length_append, List.length_map,
            orderedBucket_length]
          omega)
      hbase3 hout3 hp4 s
  obtain ⟨fcode, hfc, hfrun⟩ := run_prepareReturn l false hpage m4 s
  have hfin2 : prepareReturnValues (modeEnv l false) = some fin := hfin
  rw [hfc] at hfin2
  injection hfin2 with hfe
  subst hfe
  have hcomp : runCode (pcode ++ p1.1 ++ p2.1 ++ p3.1 ++ p4.1 ++ fcode)
      ⟨l.nextExtRowPtr :: l.nextBaseRowPtr :: l.currExtRowPtr
        :: l.currBaseRowPtr :: s, m0⟩
      = some ⟨(scratchPtr l false + outArrayOffset * 3) :: s, m4⟩ := by
    rw [runCode_append, runCode_append, runCode_append, runCode_append,
      runCode_append, hprun, Option.some_bind, hrun1, Option.some_bind,
      hrun2, Option.some_bind, hrun3, Option.some_bind, hrun4,
      Option.some_bind, hfrun]
  refine ⟨m4, ?_, ?_, hbase4.1⟩
  · rw [← hc]
    exact hcomp
  · have hlenv : ((orderedBucket init).map (Circuit.evalX pt)
        ++ (orderedBucket cons).map (Circuit.evalX pt)
        ++ (orderedBucket tran).map (Circuit.evalX pt)
        ++ (orderedBucket term).map (Circuit.evalX pt)).length = total := by
      simp only [List.length_append, List.length_map, orderedBucket_length]
      omega
    have h := outOK_readXList hout4
    rw [hlenv] at h
    exact h

/-- C1: for every assignment of rows and challenges (a point placed in RAM
as the property tests arrange) and every integral memory layout, the vector
produced by the native backend's generated evaluation code equals, element
for element, the output array produced by running the assembly backend's
generated code, in the static and in the dynamic addressing mode. -/
theorem c1_backend_equivalence (l : StaticMemoryLayout) (pt : Point)
    (init cons tran term : List Circuit) (total : Nat)
    (htotal : total = init.length + cons.length + tran.length + term.length)
    (hint : IsIntegralFor l (((init ++ cons) ++ tran) ++ term) total)
    (m0 : Nat → Nat)
    (hramp : RamHasPoint l pt (((init ++ cons) ++ tran) ++ term) m0)
    (v : List XFe) (hnat : nativeAll pt init cons tran term = some v)
    (codeS codeD : List Instr)
    (hS : staticAirConstraintEvaluationTasm l init cons tran term
        = some codeS)
    (hD : dynamicAirConstraintEvaluationTasm
        ⟨l.freeMemPagePtr, l.challengesPtr⟩ init cons tran term
        = some codeD)
    (s : List Nat) :
    (∃ m', runCode codeS ⟨s, m0⟩
        = some ⟨(l.freeMemPagePtr + outArrayOffset * 3) :: s, m'⟩
      ∧ readXList m' (l.freeMemPagePtr + outArrayOffset * 3) total = v)
    ∧ (∃ m', runCode codeD ⟨l.nextExtRowPtr :: l.nextBaseRowPtr
          :: l.currExtRowPtr :: l.currBaseRowPtr :: s, m0⟩
        = some ⟨(l.freeMemPagePtr + 4 + outArrayOffset * 3) :: s, m'⟩
      ∧ readXList m' (l.freeMemPagePtr + 4 + outArrayOffset * 3) total
          = v) := by
  obtain ⟨hU1, hU2, hU3, hU4, hv⟩ := nativeAll_spec hnat
  subst hv
  obtain ⟨mS, hSrun, hSread, -⟩ := run_staticEntry l pt init cons tran term
    total htotal hint hU1 hU2 hU3 hU4 m0 hramp codeS hS s
  obtain ⟨mD, hDrun, hDread, -⟩ := run_dynamicEntry l pt init cons tran
    term total htotal hint hU1 hU2 hU3 hU4 m0 hramp codeD hD s
  exact ⟨⟨mS, hSrun, hSread⟩, ⟨mD, hDrun, hDread⟩⟩

/-- C5: both backends order each bucket's results identically — within a
bucket all base-typed constraints precede all extension-typed ones, each
group in insertion order, and the buckets appear in the fixed order
initial, consistency, transition, terminal; the assembly's output array
holds exactly this vector, matching the native evaluation order. -/
theorem c5_output_ordering (l : StaticMemoryLayout) (pt : Point)
    (init cons tran term : List Circuit) (total : Nat)
    (htotal : total = init.length + cons.length + tran.length + term.length)
    (hint : IsIntegralFor l (((init ++ cons) ++ tran) ++ term) total)
    (m0 : Nat → Nat)
    (hramp : RamHasPoint l pt (((init ++ cons) ++ tran) ++ term) m0)
    (v : List XFe) (hnat : nativeAll pt init cons tran term = some v)
    (codeS codeD : List Instr)
    (hS : staticAirConstraintEvaluationTasm l init cons tran term
        = some codeS)
    (hD : dynamicAirConstraintEvaluationTasm
        ⟨l.freeMemPagePtr, l.challengesPtr⟩ init cons tran term
        = some codeD)
    (s : List Nat) :
    v = (init.filter (fun c => c.evaluatesToBaseElement)
          ++ init.filter (fun c => !c.evaluatesToBaseElement)
          ++ cons.filter (fun c => c.evaluatesToBaseElement)
          ++ cons.filter (fun c => !c.evaluatesToBaseElement)
          ++ tran.filter (fun c => c.evaluatesToBaseElement)
          ++ tran.filter (fun c => !c.evaluatesToBaseElement)
          ++ term.filter (fun c => c.evaluatesToBaseElement)
          ++ term.filter (fun c => !c.evaluatesToBaseElement)).map
        (Circuit.evalX pt)
    ∧ (∃ m', runCode codeS ⟨s, m0⟩
        = some ⟨(l.freeMemPagePtr + outArrayOffset * 3) :: s, m'⟩
      ∧ readXList m' (l.freeMemPagePtr + outArrayOffset * 3) total = v)
    ∧ (∃ m', runCode codeD ⟨l.nextExtRowPtr :: l.nextBaseRowPtr
          :: l.currExtRowPtr :: l.currBaseRowPtr :: s, m0⟩
        = some ⟨(l.freeMemPagePtr + 4 + outArrayOffset * 3) :: s, m'⟩
      ∧ readXList m' (l.freeMemPagePtr + 4 + outArrayOffset * 3) total
          = v) := by
  obtain ⟨hU1, hU2, hU3, hU4, hv⟩ := nativeAll_spec hnat
  refine ⟨?_, ?_, ?_⟩
  · rw [hv]
    simp [orderedBucket, List.append_assoc]
  · obtain ⟨mS, h1, h2, -⟩ := run_staticEntry l pt init cons tran term
      total htotal hint hU1 hU2 hU3 hU4 m0 hramp codeS hS s
    exact ⟨mS, h1, by rw [hv]; exact h2⟩
  · obtain ⟨mD, h1, h2, -⟩ := run_dynamicEntry l pt init cons tran term
      total htotal hint hU1 hU2 hU3 hU4 m0 hramp codeD hD s
    exact ⟨mD, h1, by rw [hv]; exact h2⟩

theorem step_nonwrite {i : Instr} (hi : ∀ n, i ≠ Instr.writeMem n)
    {st st2 : VMState} (hs : step i st = some st2) : st2.ram = st.ram := by
  cases i with
  | push a =>
    injection hs with h
    rw [← h]
  | pop n =>
    simp only [step] at hs
    split at hs
    · injection hs with h; rw [← h]
    · cases hs
  | readMem n =>
    simp only [step] at hs
    split at hs
    · cases hs
    · injection hs with h; rw [← h]
  | writeMem n => exact absurd rfl (hi n)
  | addi a =>
    simp only [step] at hs
    split at hs
    · cases hs
    · injection hs with h; rw [← h]
  | xxadd =>
    simp only [step] at hs
    split at hs
    · injection hs with h; rw [← h]
    · cases hs
  | xxmul =>
    simp only [step] at hs
    split at hs
    · injection hs with h; rw [← h]
    · cases hs
  | call d => simp [step] at hs
  | ret => simp [step] at hs
  | recurse => simp [step] at hs
  | skiz => simp [step] at hs
  | halt => simp [step] at hs

theorem runCode_nonwrite : ∀ {code : List Instr}, NonWrite code
    → ∀ st st2, runCode code st = some st2 → st2.ram = st.ram := by
  intro code
  induction code with
  | nil =>
    intro _ st st2 h
    injection h with h
    rw [← h]
  | cons i is ih =>
    intro hnw st st2 h
    simp only [runCode, Option.bind_eq_some] at h
    obtain ⟨st1, h1, h2⟩ := h
    rw [ih (fun j hj => hnw j (List.mem_cons_of_mem i hj)) st1 st2 h2,
      step_nonwrite (hnw i (List.mem_cons_self i is)) h1]

theorem pageConfined_of_nonWrite {l : StaticMemoryLayout}
    {code : List Instr} (h : NonWrite code) : PageConfined l code := by
  intro st st2 hr a _
  rw [runCode_nonwrite h st st2 hr]

theorem pageConfined_append {l : StaticMemoryLayout} {a b : List Instr}
    (ha : PageConfined l a) (hb : PageConfined l b) :
    PageConfined l (a ++ b) := by
  intro st st2 h x hx
  rw [runCode_append, Option.bind_eq_some] at h
  obtain ⟨mid, h1, h2⟩ := h
  rw [hb mid st2 h2 x hx, ha st mid h1 x hx]

theorem writeWords_outside {a : Nat} :
    ∀ (vs : List Nat) (m : Nat → Nat) (b : Nat),
      (∀ k, k < vs.length → a ≠ (b + k) % bfeP)
      → writeWords m b vs a = m a := by
  intro vs
  induction vs with
  | nil =>
    intro m b _
    rfl
  | cons v vs ih =>
    intro m b hk
    have h1 : ∀ k, k < vs.length → a ≠ (b + 1 + k) % bfeP := by
      intro k hkl
      rw [show b + 1 + k = b + (k + 1) by omega]
      exact hk (k + 1) (by simp only [List.length_cons]; omega)
    have h0 : a ≠ b % bfeP := by
      have := hk 0 (by simp)
      simpa using this
    show writeWords (fun x => if x = b % bfeP then v else m x) (b + 1) vs a
        = m a
    rw [ih _ (b + 1) h1]
    simp [h0]

/-- The single write gadget (push an address, write, drop the pointer)
stays inside the page when its target element does. -/
theorem frame_pushWrite {l : StaticMemoryLayout} {A n : Nat}
    (hnw : A + n ≤ bfeP) (hin : ∀ k, k < n → InPage l (A + k)) :
    PageConfined l [.push A, .writeMem n, .pop 1] := by
  intro st st2 hr a ha
  simp only [runCode, step, Option.bind_eq_bind, Option.some_bind] at hr
  split at hr
  case isFalse => simp at hr
  case isTrue hlen =>
  rw [Option.some_bind, if_pos (by simp)] at hr
  simp only [Option.some_bind, List.drop_succ_cons, List.drop_zero] at hr
  injection hr with hr
  rw [← hr]
  show writeWords st.ram (A % bfeP) (st.stack.take n) a = st.ram a
  apply writeWords_outside
  intro k hkl
  have hkn : k < n := by
    have := List.length_take_le n st.stack
    omega
  have hAk : A + k < bfeP := by omega
  have hmod : A % bfeP = A := Nat.mod_eq_of_lt (by omega)
  rw [hmod, Nat.mod_eq_of_lt hAk]
  intro he
  exact ha (he ▸ hin k hkn)

theorem nonwrite_pushAddr {b o : Nat} {i : Instr}
    (h : pushAddr b o = some i) : ∀ n, i ≠ Instr.writeMem n := by
  unfold pushAddr at h
  split at h
  · injection h with h
    rw [← h]
    intro n hn
    cases hn
  · cases h

theorem nonwrite_loadList {p e : Nat} {code : List Instr}
    (h : loadExtFieldElementFromList p e = some code) : NonWrite code := by
  unfold loadExtFieldElementFromList at h
  rw [Option.map_eq_some'] at h
  obtain ⟨pm, hpm, rfl⟩ := h
  intro i hi
  simp only [List.mem_cons, List.not_mem_nil, or_false] at hi
  rcases hi with rfl | rfl | rfl
  · exact nonwrite_pushAddr hpm
  · intro n hn; cases hn
  · intro n hn; cases hn

theorem nonwrite_loadPointed {p e : Nat} {code : List Instr}
    (h : loadExtFieldElementFromPointedToList p e = some code) :
    NonWrite code := by
  unfold loadExtFieldElementFromPointedToList at h
  rw [Option.map_eq_some'] at h
  obtain ⟨pm, hpm, rfl⟩ := h
  intro i hi
  simp only [List.mem_cons, List.not_mem_nil, or_false] at hi
  rcases hi with rfl | rfl | rfl | rfl | rfl | rfl
  · exact nonwrite_pushAddr hpm
  all_goals intro n hn; cases hn

theorem nonwrite_loadConst (x : XFe) :
    NonWrite (loadExtFieldConstant x) := by
  intro i hi
  simp only [loadExtFieldConstant, List.mem_cons, List.not_mem_nil,
    or_false] at hi
  rcases hi with rfl | rfl | rfl <;> (intro n hn; cases hn)

theorem nonwrite_loadNode {env : PtrEnv} {static : Bool} {c : Circuit}
    {code : List Instr} (h : loadNode env static c = some code) :
    NonWrite code := by
  cases c with
  | bconst i r v =>
    simp only [loadNode, Option.some_inj] at h
    rw [← h]
    exact nonwrite_loadConst _
  | xconst i r v =>
    simp only [loadNode, Option.some_inj] at h
    rw [← h]
    exact nonwrite_loadConst _
  | input i r ref =>
    simp only [loadNode, loadInput] at h
    split at h
    · exact nonwrite_loadList h
    · exact nonwrite_loadPointed h
  | challenge i r n =>
    simp only [loadNode, loadChallenge] at h
    exact nonwrite_loadList h
  | binop i r o l rhs =>
    simp only [loadNode, loadEvaluatedBinOp] at h
    exact nonwrite_loadList h

theorem nonwrite_append {a b : List Instr} (ha : NonWrite a)
    (hb : NonWrite b) : NonWrite (a ++ b) := by
  intro i hi
  rcases List.mem_append.mp hi with h | h
  · exact ha i h
  · exact hb i h

theorem nonwrite_evaluate {env : PtrEnv} {static : Bool} :
    ∀ (c : Circuit) (scope : List Nat) (code : List Instr),
      evaluateSingleNodeTasm env static scope c = some code
        → NonWrite code := by
  intro c
  induction c with
  | binop i r o l rhs ihl ihr =>
    intro scope code h
    by_cases hsc : i ∈ scope
    · simp only [evaluateSingleNodeTasm, if_pos hsc, loadEvaluatedBinOp] at h
      exact nonwrite_loadList h
    · simp only [evaluateSingleNodeTasm, if_neg hsc] at h
      simp only [Option.bind_eq_bind, Option.bind_eq_some, Option.pure_def,
        Option.some.injEq] at h
      obtain ⟨il, hil, ir, hir, rfl⟩ := h
      refine nonwrite_append (nonwrite_append (ihl scope il hil)
        (ihr scope ir hir)) ?_
      intro i' hi'
      simp only [List.mem_cons, List.not_mem_nil, or_false] at hi'
      subst hi'
      cases o <;> (intro n hn; cases hn)
  | bconst i r v => intro scope code h; exact nonwrite_loadNode h
  | xconst i r v => intro scope code h; exact nonwrite_loadNode h
  | input i r ref => intro scope code h; exact nonwrite_loadNode h
  | challenge i r n => intro scope code h; exact nonwrite_loadNode h

/-- The store gadget of an element index that fits the page is
page-confined. -/
theorem frame_store {l : StaticMemoryLayout} {static : Bool} {e : Nat}
    {code : List Instr}
    (hpage : l.freeMemPagePtr + memPageSize ≤ bfeP)
    (hin : 4 + e * 3 + 2 < memPageSize)
    (h : storeExtFieldElement (modeEnv l static) e = some code) :
    PageConfined l code := by
  simp only [storeExtFieldElement, Option.map_eq_some'] at h
  obtain ⟨pm, hpm, rfl⟩ := h
  unfold pushAddr at hpm
  split at hpm
  case isFalse => cases hpm
  case isTrue hcap =>
  injection hpm with hpm
  rw [← hpm]
  have hsc : l.freeMemPagePtr ≤ scratchPtr l static
      ∧ scratchPtr l static ≤ l.freeMemPagePtr + 4 := by
    unfold scratchPtr
    cases static <;> simp
  rw [modeEnv_free]
  apply frame_pushWrite
  · omega
  · intro k hk
    exact ⟨by omega, by omega⟩

/-- One prologue pointer move targets the first page words, so it is
page-confined. -/
theorem frame_writePointer {l : StaticMemoryLayout} {k : Nat} {code : List Instr}
    (hpage : l.freeMemPagePtr + memPageSize ≤ bfeP) (hk : k < 4)
    (h : writePointerToRam (l.freeMemPagePtr + k) = some code) :
    PageConfined l code := by
  simp only [writePointerToRam, Option.map_eq_some'] at h
  obtain ⟨pm, hpm, rfl⟩ := h
  unfold pushAddr at hpm
  split at hpm
  case isFalse => cases hpm
  case isTrue hcap =>
  injection hpm with hpm
  rw [← hpm]
  have hm4 : (4 : Nat) ≤ memPageSize := by decide
  apply frame_pushWrite
  · omega
  · intro j hj
    exact ⟨by omega, by omega⟩

/-- The store pass of one node is page-confined: it writes only node
slots. -/
theorem frame_storeSingle (l : StaticMemoryLayout) (static : Bool)
    (hpage : l.freeMemPagePtr + memPageSize ≤ bfeP)
    (buck : List Circuit)
    (hres : ∀ x ∈ subsList buck, resourceOKB l x = true) :
    ∀ c ∈ subsList buck, ∀ (count : Nat) (scope : List Nat)
      (out : List Instr × List Nat),
      storeSingleSharedNodeOfRefCount (modeEnv l static) static count c
          scope = some out
      → PageConfined l out.1 := by
  intro c
  induction c with
  | binop i r o lc rc ihl ihr =>
    intro hc count scope out h
    by_cases hsc : i ∈ scope
    · rw [storeSingleSharedNodeOfRefCount, if_pos hsc] at h
      injection h with h
      rw [← h]
      exact pageConfined_of_nonWrite (fun j hj => absurd hj
        (List.not_mem_nil j))
    · by_cases hlt : r < count
      · rw [storeSingleSharedNodeOfRefCount, if_neg hsc, if_pos hlt] at h
        simp only [Option.bind_eq_bind, Option.bind_eq_some,
          Option.pure_def, Option.some.injEq] at h
        obtain ⟨pl, hpl, pr, hpr, rfl⟩ := h
        have hcl : lc ∈ subsList buck :=
          subsList_trans hc lc (binop_children_mem_subs i r o lc rc).1
        have hcr : rc ∈ subsList buck :=
          subsList_trans hc rc (binop_children_mem_subs i r o lc rc).2
        exact pageConfined_append (ihl hcl count scope pl hpl)
          (ihr hcr count pl.2 pr hpr)
      · by_cases heq : r = count
        · rw [storeSingleSharedNodeOfRefCount, if_neg hsc, if_neg hlt,
            if_pos heq] at h
          simp only [Option.bind_eq_bind, Option.bind_eq_some,
            Option.pure_def, Option.some.injEq] at h
          obtain ⟨ev, hev, st, hst, rfl⟩ := h
          have hid : i < outArrayOffset := by
            have := hres _ hc
            simpa [resourceOKB, decide_eq_true_eq] using this
          have hOF := outArray_fits
          refine pageConfined_append
            (pageConfined_of_nonWrite (nonwrite_evaluate _ scope ev hev))
            (frame_store hpage (by omega) hst)
        · rw [storeSingleSharedNodeOfRefCount, if_neg hsc, if_neg hlt,
            if_neg heq] at h
          cases h
  | bconst i r v =>
    intro hc count scope out h
    injection h with h
    rw [← h]
    exact pageConfined_of_nonWrite (fun j hj => absurd hj
      (List.not_mem_nil j))
  | xconst i r v =>
    intro hc count scope out h
    injection h with h
    rw [← h]
    exact pageConfined_of_nonWrite (fun j hj => absurd hj
      (List.not_mem_nil j))
  | input i r ref =>
    intro hc count scope out h
    injection h with h
    rw [← h]
    exact pageConfined_of_nonWrite (fun j hj => absurd hj
      (List.not_mem_nil j))
  | challenge i r n =>
    intro hc count scope out h
    injection h with h
    rw [← h]
    exact pageConfined_of_nonWrite (fun j hj => absurd hj
      (List.not_mem_nil j))

theorem frame_storeAllOfCount (l : StaticMemoryLayout) (static : Bool)
    (hpage : l.freeMemPagePtr + memPageSize ≤ bfeP)
    (buck : List Circuit)
    (hres : ∀ x ∈ subsList buck, resourceOKB l x = true) :
    ∀ (cs : List Circuit), (∀ x ∈ cs, x ∈ subsList buck) →
    ∀ (count : Nat) (scope : List Nat) (out : List Instr × List Nat),
      storeAllOfRefCountGo (modeEnv l static) static count cs scope
          = some out
      → PageConfined l out.1 := by
  intro cs
  induction cs with
  | nil =>
    intro _ count scope out h
    injection h with h
    rw [← h]
    exact pageConfined_of_nonWrite (fun j hj => absurd hj
      (List.not_mem_nil j))
  | cons c cs ih =>
    intro hmem count scope out h
    simp only [storeAllOfRefCountGo, Option.bind_eq_bind,
      Option.bind_eq_some, Option.pure_def, Option.some.injEq] at h
    obtain ⟨p1, hp1, p2, hp2, rfl⟩ := h
    exact pageConfined_append
      (frame_storeSingle l static hpage buck hres c
        (hmem c (List.mem_cons_self c cs)) count scope p1 hp1)
      (ih (fun x hx => hmem x (List.mem_cons_of_mem c hx)) count p1.2 p2
        hp2)

theorem frame_storeAllGo (l : StaticMemoryLayout) (static : Bool)
    (hpage : l.freeMemPagePtr + memPageSize ≤ bfeP)
    (buck : List Circuit)
    (hres : ∀ x ∈ subsList buck, resourceOKB l x = true)
    (hmem : ∀ x ∈ buck, x ∈ subsList buck) :
    ∀ (ks scope : List Nat) (out : List Instr × List Nat),
      storeAllSharedNodesGo (modeEnv l static) static buck ks scope
          = some out
      → PageConfined l out.1 := by
  intro ks
  induction ks with
  | nil =>
    intro scope out h
    injection h with h
    rw [← h]
    exact pageConfined_of_nonWrite (fun j hj => absurd hj
      (List.not_mem_nil j))
  | cons k ks ih =>
    intro scope out h
    simp only [storeAllSharedNodesGo, Option.bind_eq_bind,
      Option.bind_eq_some, Option.pure_def, Option.some.injEq] at h
    obtain ⟨p1, hp1, p2, hp2, rfl⟩ := h
    exact pageConfined_append
      (frame_storeAllOfCount l static hpage buck hres buck hmem k scope p1
        hp1)
      (ih p1.2 p2 hp2)

theorem frame_writeOutputs (l : StaticMemoryLayout) (static : Bool)
    (hpage : l.freeMemPagePtr + memPageSize ≤ bfeP) (total : Nat)
    (htot : 4 + 3 * (outArrayOffset + total) ≤ memPageSize) :
    ∀ (cs : List Circuit) (scope : List Nat) (written : Nat)
      (code : List Instr),
      written + cs.length ≤ total →
      writeOutputsGo (modeEnv l static) static scope cs written = some code
      → PageConfined l code := by
  intro cs
  induction cs with
  | nil =>
    intro scope written code _ h
    injection h with h
    rw [← h]
    exact pageConfined_of_nonWrite (fun j hj => absurd hj
      (List.not_mem_nil j))
  | cons c cs ih =>
    intro scope written code hlen h
    simp only [writeOutputsGo, writeEvaluatedConstraint,
      Option.bind_eq_bind, Option.bind_eq_some, Option.pure_def,
      Option.some.injEq] at h
    obtain ⟨i1, ⟨ev, hev, st, hst, rfl⟩, i2, hi2, rfl⟩ := h
    have hw : written < total := by
      simp only [List.length_cons] at hlen
      omega
    refine pageConfined_append (pageConfined_append
      (pageConfined_of_nonWrite (nonwrite_evaluate _ scope ev hev))
      (frame_store hpage (by omega) hst)) ?_
    exact ih scope (written + 1) i2
      (by simp only [List.length_cons] at hlen; omega) hi2

theorem frame_tokenize (l : StaticMemoryLayout) (static : Bool)
    (hpage : l.freeMemPagePtr + memPageSize ≤ bfeP) (total : Nat)
    (htot : 4 + 3 * (outArrayOffset + total) ≤ memPageSize)
    (buck : List Circuit)
    (hres : ∀ x ∈ subsList buck, resourceOKB l x = true)
    (st : TasmState) (out : List Instr × TasmState)
    (hlen : st.elementsWritten + buck.length ≤ total)
    (h : tokenizeCircuitsTasm (modeEnv l static) static st buck
        = some out) :
    PageConfined l out.1 := by
  simp only [tokenizeCircuitsTasm, storeAllSharedNodes,
    Option.bind_eq_bind, Option.bind_eq_some, Option.pure_def,
    Option.some.injEq] at h
  obtain ⟨p, hp, outs, houts, hO⟩ := h
  rw [← hO]
  refine pageConfined_append ?_ ?_
  · exact frame_storeAllGo l static hpage buck hres
      (fun x hx => mem_subsList_of_mem hx) (relevantVisitCounts buck) [] p
      hp
  · exact frame_writeOutputs l static hpage total htot
      (orderedBucket buck) p.2 st.elementsWritten outs
      (by rw [orderedBucket_length]; exact hlen) houts

/-- The written-elements counter advances by exactly the bucket size. -/
theorem tokenize_written {env : PtrEnv} {static : Bool} {st : TasmState}
    {constraints : List Circuit} {out : List Instr × TasmState}
    (h : tokenizeCircuitsTasm env static st constraints = some out) :
    out.2.elementsWritten = st.elementsWritten + constraints.length := by
  simp only [tokenizeCircuitsTasm, Option.bind_eq_bind, Option.bind_eq_some,
    Option.pure_def, Option.some.injEq] at h
  obtain ⟨p, hp, outs, houts, hO⟩ := h
  rw [← hO]

theorem nonwrite_prepareReturn {env : PtrEnv} {code : List Instr}
    (h : prepareReturnValues env = some code) : NonWrite code := by
  simp only [prepareReturnValues, Option.map_eq_some'] at h
  obtain ⟨pm, hpm, rfl⟩ := h
  intro i hi
  simp only [List.mem_cons, List.not_mem_nil, or_false] at hi
  subst hi
  exact nonwrite_pushAddr hpm

theorem frame_writeRowPointers {l : StaticMemoryLayout} {code : List Instr}
    (hpage : l.freeMemPagePtr + memPageSize ≤ bfeP)
    (h : writeRowPointersToRam
        (dynamicPtrEnv ⟨l.freeMemPagePtr, l.challengesPtr⟩) = some code) :
    PageConfined l code := by
  simp only [writeRowPointersToRam, dynamicPtrEnv, Option.bind_eq_bind,
    Option.bind_eq_some, Option.pure_def, Option.some.injEq] at h
  obtain ⟨a, ha, b, hb, c, hc, d, hd, rfl⟩ := h
  exact pageConfined_append (pageConfined_append (pageConfined_append
    (frame_writePointer hpage (by decide) ha)
    (frame_writePointer hpage (by decide) hb))
    (frame_writePointer hpage (by decide) hc))
    (@frame_writePointer l 0 d hpage (by decide) hd)

/-- C2: for every integral memory layout, running the generated assembly of
either addressing mode — from any start state, over any input assignment —
leaves every memory address outside the free scratch page holding exactly
the value it held before the run: every executed write targets the page
pointed to by the free memory page pointer. -/
theorem c2_frame_property (l : StaticMemoryLayout)
    (init cons tran term : List Circuit) (total : Nat)
    (htotal : total = init.length + cons.length + tran.length + term.length)
    (hint : IsIntegralFor l (((init ++ cons) ++ tran) ++ term) total)
    (codeS codeD : List Instr)
    (hS : staticAirConstraintEvaluationTasm l init cons tran term
        = some codeS)
    (hD : dynamicAirConstraintEvaluationTasm
        ⟨l.freeMemPagePtr, l.challengesPtr⟩ init cons tran term
        = some codeD) :
    PageConfined l codeS ∧ PageConfined l codeD := by
  obtain ⟨hpage, hcb, hce, hnb, hne, hch, htot, hresAll⟩ := hint
  have hres1 : ∀ x ∈ subsList init, resourceOKB l x = true := by
    intro x hx
    apply hresAll
    simp only [subsList_append, List.mem_append]
    exact Or.inl (Or.inl (Or.inl hx))
  have hres2 : ∀ x ∈ subsList cons, resourceOKB l x = true := by
    intro x hx
    apply hresAll
    simp only [subsList_append, List.mem_append]
    exact Or.inl (Or.inl (Or.inr hx))
  have hres3 : ∀ x ∈ subsList tran, resourceOKB l x = true := by
    intro x hx
    apply hresAll
    simp only [subsList_append, List.mem_append]
    exact Or.inl (Or.inr hx)
  have hres4 : ∀ x ∈ subsList term, resourceOKB l x = true := by
    intro x hx
    apply hresAll
    simp only [subsList_append, List.mem_append]
    exact Or.inr hx
  constructor
  · simp only [staticAirConstraintEvaluationTasm, Option.bind_eq_bind,
      Option.bind_eq_some, Option.pure_def, Option.some.injEq] at hS
    obtain ⟨p1, hp1, p2, hp2, p3, hp3, p4, hp4, fin, hfin, hc⟩ := hS
    have hw1 := tokenize_written hp1
    have hw2 := tokenize_written hp2
    have hw3 := tokenize_written hp3
    rw [← hc]
    refine pageConfined_append (pageConfined_append (pageConfined_append
      (pageConfined_append ?_ ?_) ?_) ?_) ?_
    · exact frame_tokenize l true hpage total htot init hres1 ⟨[], 0⟩ p1
        (by show 0 + init.length ≤ total; omega) hp1
    · exact frame_tokenize l true hpage total htot cons hres2 p1.2 p2
        (by rw [hw1]
            show 0 + init.length + cons.length ≤ total
            omega) hp2
    · exact frame_tokenize l true hpage total htot tran hres3 p2.2 p3
        (by rw [hw2, hw1]
            show 0 + init.length + cons.length + tran.length ≤ total
            omega) hp3
    · exact frame_tokenize l true hpage total htot term hres4 p3.2 p4
        (by rw [hw3, hw2, hw1]
            show 0 + init.length + cons.length + tran.length + term.length
              ≤ total
            omega) hp4
    · exact pageConfined_of_nonWrite (nonwrite_prepareReturn hfin)
  · simp only [dynamicAirConstraintEvaluationTasm, Option.bind_eq_bind,
      Option.bind_eq_some, Option.pure_def, Option.some.injEq] at hD
    obtain ⟨mv, hmv, p1, hp1, p2, hp2, p3, hp3, p4, hp4, fin, hfin, hc⟩ :=
      hD
    have hw1 := tokenize_written hp1
    have hw2 := tokenize_written hp2
    have hw3 := tokenize_written hp3
    rw [← hc]
    refine pageConfined_append (pageConfined_append (pageConfined_append
      (pageConfined_append (pageConfined_append ?_ ?_) ?_) ?_) ?_) ?_
    · exact frame_writeRowPointers hpage hmv
    · exact frame_tokenize l false hpage total htot init hres1 ⟨[], 0⟩ p1
        (by show 0 + init.length ≤ total; omega) hp1
    · exact frame_tokenize l false hpage total htot cons hres2 p1.2 p2
        (by rw [hw1]
            show 0 + init.length + cons.length ≤ total
            omega) hp2
    · exact frame_tokenize l false hpage total htot tran hres3 p2.2 p3
        (by rw [hw2, hw1]
            show 0 + init.length + cons.length + tran.length ≤ total
            omega) hp3
    · exact frame_tokenize l false hpage total htot term hres4 p3.2 p4
        (by rw [hw3, hw2, hw1]
            show 0 + init.length + cons.length + tran.length + term.length
              ≤ total
            omega) hp4
    · exact pageConfined_of_nonWrite (nonwrite_prepareReturn hfin)

/-- C1 witness: the backend equivalence applied to concrete constant
buckets with a shared node, over the small layout, in both addressing
modes. -/
theorem c1_witness :
    (∃ m', runCode wCodeS ⟨[], wRam0⟩
        = some ⟨(wLayout.freeMemPagePtr + outArrayOffset * 3) :: [], m'⟩
      ∧ readXList m' (wLayout.freeMemPagePtr + outArrayOffset * 3) 2 = wV)
    ∧ (∃ m', runCode wCodeD ⟨wLayout.nextExtRowPtr :: wLayout.nextBaseRowPtr
          :: wLayout.currExtRowPtr :: wLayout.currBaseRowPtr :: [],
          wRam0⟩
        = some ⟨(wLayout.freeMemPagePtr + 4 + outArrayOffset * 3) :: [],
          m'⟩
      ∧ readXList m' (wLayout.freeMemPagePtr + 4 + outArrayOffset * 3) 2
          = wV) :=
  c1_backend_equivalence wLayout wPt wnestBatch [] [] [] 2 (by decide)
    (by decide) wRam0 (by decide) wV (by decide) wCodeS wCodeD
    (by decide) (by decide) []

/-- C2 witness: the frame property of both generated entry points at the
concrete constant buckets. -/
theorem c2_witness :
    PageConfined wLayout wCodeS ∧ PageConfined wLayout wCodeD :=
  c2_frame_property wLayout wnestBatch [] [] [] 2 (by decide) (by decide)
    wCodeS wCodeD (by decide) (by decide)

/-- C5 witness: the ordering property at the concrete constant buckets. -/
theorem c5_witness :
    wV = ((wnestBatch.filter (fun c => c.evaluatesToBaseElement)
          ++ wnestBatch.filter (fun c => !c.evaluatesToBaseElement)
          ++ ([] : List Circuit).filter (fun c => c.evaluatesToBaseElement)
          ++ ([] : List Circuit).filter
              (fun c => !c.evaluatesToBaseElement)
          ++ ([] : List Circuit).filter (fun c => c.evaluatesToBaseElement)
          ++ ([] : List Circuit).filter
              (fun c => !c.evaluatesToBaseElement)
          ++ ([] : List Circuit).filter (fun c => c.evaluatesToBaseElement)
          ++ ([] : List Circuit).filter
              (fun c => !c.evaluatesToBaseElement)).map
        (Circuit.evalX wPt))
    ∧ (∃ m', runCode wCodeS ⟨[], wRam0⟩
        = some ⟨(wLayout.freeMemPagePtr + outArrayOffset * 3) :: [], m'⟩
      ∧ readXList m' (wLayout.freeMemPagePtr + outArrayOffset * 3) 2 = wV)
    ∧ (∃ m', runCode wCodeD ⟨wLayout.nextExtRowPtr :: wLayout.nextBaseRowPtr
          :: wLayout.currExtRowPtr :: wLayout.currBaseRowPtr :: [],
          wRam0⟩
        = some ⟨(wLayout.freeMemPagePtr + 4 + outArrayOffset * 3) :: [],
          m'⟩
      ∧ readXList m' (wLayout.freeMemPagePtr + 4 + outArrayOffset * 3) 2
          = wV) :=
  c5_output_ordering wLayout wPt wnestBatch [] [] [] 2 (by decide)
    (by decide) wRam0 (by decide) wV (by decide) wCodeS wCodeD
    (by decide) (by decide) []

end TritonSpec

